import Mathlib

/-!
Verification development for the rumdb storage engine (a Bitcask-style
append-only key-value store).  The Rust sources in `src/format.rs`,
`src/keydir.rs` and `src/storage.rs` are shallowly embedded below:

* bytes are `List Nat` (each element a byte value);
* files are byte lists together with a stream position;
* the `BTreeMap` collections (`log_files`, `alive_log_keys`) are
  association lists kept sorted by key, which is exactly the observable
  behaviour of a `BTreeMap` (ordered iteration, `last_entry` = greatest);
* the `HashMap` keydir is an association list; its iteration order never
  influences any observable result of the engine;
* machine integers are `Nat` with explicit `% 2^32` where the code casts
  to `u32`; fallible operations return `Except`.

File-system effects are reduced to their data content: a "directory" is
the association of segment ids to the byte contents of the segment files,
and deleting a file removes the association.  The lock file, logging and
wall-clock are irrelevant to the claims; each `put` carries its timestamp
as an explicit parameter.
-/

deriving instance DecidableEq for Except

namespace Rumdb

/-- Byte strings (keys, values, raw file contents). -/
abbrev Bytes := List Nat

/-- `2^32`, the modulus of the `u32` casts in the source. -/
def U32 : Nat := 4294967296

/-! ## format.rs: the record codec -/

/-- `u32::to_le_bytes`: four little-endian bytes of `n % 2^32`
(the argument of `Header::new` is already a `u32`; the `% U32` models the
`as u32` casts performed at the call sites). -/
def toLe4 (n : Nat) : Bytes :=
  [n % U32 % 256, n % U32 / 256 % 256, n % U32 / 65536 % 256, n % U32 / 16777216 % 256]

/-- `u32::from_le_bytes` on the first four entries of a byte list. -/
def fromLe4 (b : Bytes) : Nat :=
  b.getD 0 0 + 256 * (b.getD 1 0 + 256 * (b.getD 2 0 + 256 * b.getD 3 0))

/-- `HEADER_SIZE` from format.rs. -/
def HEADER_SIZE : Nat := 12

/-- `Header::new(timestamp, key_size, value_size)`: the 12 header bytes,
little-endian `u32` fields in the order timestamp, key size, value size. -/
def headerNew (timestamp key_size value_size : Nat) : Bytes :=
  toLe4 timestamp ++ toLe4 key_size ++ toLe4 value_size

/-- `Header::timestamp`. -/
def timestampOf (h : Bytes) : Nat := fromLe4 (h.take 4)

/-- `Header::key_size`. -/
def keySizeOf (h : Bytes) : Nat := fromLe4 ((h.drop 4).take 4)

/-- `Header::value_size`. -/
def valueSizeOf (h : Bytes) : Nat := fromLe4 ((h.drop 8).take 4)

/-- `FormatError` from errors.rs. -/
inductive FormatError where
  | deserializeError
  deriving DecidableEq, Repr

/-- `TryFrom<&[u8]> for Header`: succeeds exactly on slices of length 12
(the source tests `value.len() != 12`). -/
def tryFromHeader (b : Bytes) : Except FormatError Bytes :=
  if b.length = 12 then .ok b else .error .deserializeError

/-! ## format.rs / keydir.rs: keydir entries and the keydir -/

/-- `KeydirEntry` from format.rs.  `value_size` is the `usize` obtained
from the header field, `value_pos` the absolute byte offset of the value. -/
structure KeydirEntry where
  file_id : Nat
  value_size : Nat
  value_pos : Nat
  timestamp : Nat
  deriving DecidableEq, Repr

/-- The in-memory keydir (`HashmapKeydir`): an association list from key
bytes to entries.  The engine never observes its iteration order. -/
abbrev Keydir := List (Bytes × KeydirEntry)

/-- `Keydir::get` (`HashMap::get`): the binding of `k`, if any. -/
def kdGet (kd : Keydir) (k : Bytes) : Option KeydirEntry :=
  match kd with
  | [] => none
  | (k0, e0) :: t => if k0 = k then some e0 else kdGet t k

/-- `Keydir::put` (`HashMap::insert`): stores `e` under `k` and returns
the updated keydir together with the previous entry, if any. -/
def kdPut (kd : Keydir) (k : Bytes) (e : KeydirEntry) : Keydir × Option KeydirEntry :=
  match kd with
  | [] => ([(k, e)], none)
  | (k0, e0) :: t =>
    if k0 = k then ((k, e) :: t, some e0)
    else
      let r := kdPut t k e
      ((k0, e0) :: r.1, r.2)

/-- `Keydir::remove` (`HashMap::remove`, result discarded by the engine). -/
def kdRemove (kd : Keydir) (k : Bytes) : Keydir :=
  kd.filter (fun p => p.1 ≠ k)

/-- Number of keydir entries whose `file_id` is `s` (the "live key count"
of segment `s`). -/
def liveCount (kd : Keydir) (s : Nat) : Nat :=
  kd.countP (fun p => p.2.file_id = s)

/-! ## storage.rs: errors, stats, files, state -/

/-- `StorageError`.  (`UnknownLogFile` is referenced by `get` in
storage.rs; `ioError` covers every `io::Error` propagated by the code.) -/
inductive StorageError where
  | ioError
  | alreadyLocked
  | unknownLogFile (file_id : Nat)
  deriving DecidableEq, Repr

/-- A segment file: its byte contents and its stream position. -/
structure FileM where
  contents : Bytes
  pos : Nat
  deriving DecidableEq, Repr

/-- Association-list lookup for `BTreeMap`-like maps keyed by `Nat`. -/
def lookupA {α : Type} (l : List (Nat × α)) (i : Nat) : Option α :=
  match l with
  | [] => none
  | (j, a) :: t => if j = i then some a else lookupA t i

/-- `BTreeMap::insert`: sorted insertion, replacing an existing binding. -/
def insertA {α : Type} : List (Nat × α) → Nat → α → List (Nat × α)
  | [], i, a => [(i, a)]
  | (j, b) :: t, i, a =>
    if i < j then (i, a) :: (j, b) :: t
    else if i = j then (i, a) :: t
    else (j, b) :: insertA t i a

/-- `BTreeMap::entry(..).and_modify(f)`: modify the binding if present. -/
def modifyA {α : Type} (l : List (Nat × α)) (i : Nat) (f : α → α) : List (Nat × α) :=
  l.map (fun p => if p.1 = i then (p.1, f p.2) else p)

/-- Replace the binding of an existing key (used for the active file). -/
def setA {α : Type} (l : List (Nat × α)) (i : Nat) (a : α) : List (Nat × α) :=
  l.map (fun p => if p.1 = i then (p.1, a) else p)

/-- `DiskStorageStats::inc_alive_log_count`:
`entry(log_id).and_modify(|l| *l += 1).or_insert(1)`. -/
def incStat (st : List (Nat × Nat)) (i : Nat) : List (Nat × Nat) :=
  if (lookupA st i).isSome then modifyA st i (fun c => c + 1) else insertA st i 1

/-- `DiskStorageStats::dec_alive_log_count`:
`entry(log_id).and_modify(|l| *l -= 1)` (no insertion when absent). -/
def decStat (st : List (Nat × Nat)) (i : Nat) : List (Nat × Nat) :=
  modifyA st i (fun c => c - 1)

/-- `DiskStorageStats::new_log_entry`: `entry(log_id).or_default()`
(the `assert!` precondition never fires in the engine). -/
def newLogEntry (st : List (Nat × Nat)) (i : Nat) : List (Nat × Nat) :=
  if (lookupA st i).isSome then st else insertA st i 0

/-- The live count recorded in stats for segment `i` (0 when absent). -/
def statsCount (st : List (Nat × Nat)) (i : Nat) : Nat :=
  (lookupA st i).getD 0

/-- `DiskStorageStats::stale_log_entries`: ids with count 0, excluding the
greatest id present in the map (`iter().rev().skip(1)`; the map is sorted,
so that is everything but the last binding). -/
def staleIds (st : List (Nat × Nat)) : List Nat :=
  st.dropLast.filterMap (fun p => if p.2 = 0 then some p.1 else none)

/-- Remove the bindings of the given keys (one `BTreeMap::remove` per
key). -/
def eraseKeys {α : Type} (l : List (Nat × α)) (ids : List Nat) : List (Nat × α) :=
  l.filter (fun p => ¬ ids.contains p.1)

/-- `DiskStorageStats::drop_log_entries`. -/
def dropStats (st : List (Nat × Nat)) (ids : List Nat) : List (Nat × Nat) :=
  eraseKeys st ids

/-- `DiskStorage` state.  `path` and the lock are irrelevant to the
claims; `max_log_file_size` is the `DbOptions` field. -/
structure DB where
  keydir : Keydir
  log_files : List (Nat × FileM)
  stats : List (Nat × Nat)
  max_log_file_size : Nat
  deriving DecidableEq, Repr

/-- Segment ids currently in the segment set, in ascending order. -/
def segIds (db : DB) : List Nat := db.log_files.map Prod.fst

/-- The active (greatest-id) entry of the segment set
(`log_files.last_entry()`; the default is never reached: the set is
non-empty in every reachable state). -/
def activeEntry (db : DB) : Nat × FileM :=
  db.log_files.getLast?.getD (0, ⟨[], 0⟩)

/-- The active segment id. -/
def activeId (db : DB) : Nat := (activeEntry db).1

/-- `DiskStorage::gc`: delete every stale segment from the segment set
(and the directory — the two coincide in this model) and drop its stats
binding.  `fs::remove_file` cannot fail here because stale ids are always
present in the segment set. -/
def gcPass (db : DB) : DB :=
  let stale := staleIds db.stats
  { db with
    log_files := eraseKeys db.log_files stale,
    stats := dropStats db.stats stale }

/-- `DiskStorage::rotate_log`: if the active stream position plus the
estimated record size exceeds `max_log_file_size`, flush (a no-op on the
data level) and insert a fresh segment with id `active + 1`; then run a
garbage-collection pass. -/
def rotateLog (db : DB) (k_size v_size : Nat) : DB :=
  let active := activeEntry db
  let estimated := k_size + v_size + HEADER_SIZE
  let current := active.2.pos
  let db1 :=
    if db.max_log_file_size < current + estimated then
      { db with log_files := insertA db.log_files (active.1 + 1) ⟨[], 0⟩ }
    else db
  gcPass db1

/-- `Write::write_all` at the current stream position: overwrite from
`pos` (zero-filling any gap past end-of-file) and advance the position.
The engine only ever appends (`pos = contents.length`). -/
def writeAll (f : FileM) (data : Bytes) : FileM :=
  ⟨f.contents.take f.pos ++ List.replicate (f.pos - f.contents.length) 0
      ++ data ++ f.contents.drop (f.pos + data.length),
    f.pos + data.length⟩

/-- `StorageEvent::KeydirPut` handling in
`DiskStorageStats::handle_storage_event`. -/
def handleKeydirPut (st : List (Nat × Nat)) (new_log_id : Nat)
    (old_log_id : Option Nat) : List (Nat × Nat) :=
  match old_log_id with
  | some old =>
    if new_log_id ≠ old then decStat (incStat st new_log_id) old else st
  | none => incStat st new_log_id

/-- The keydir entry installed by `put`: active segment id, the header
value size, `value_pos = stream position after the append - value_size`
(`pos - value_size as u64` in the source), and the header timestamp
(`ts % 2^32`, the `as u32` cast in `DiskEntry::new`). -/
def putEntry (db : DB) (k v : Bytes) (ts : Nat) : KeydirEntry :=
  ⟨(activeEntry db).1, v.length % U32,
    (writeAll (activeEntry db).2 (headerNew ts k.length v.length ++ k ++ v)).pos
      - v.length % U32,
    ts % U32⟩

/-- The body of `Storage::put` after the rotation check: append header,
key and value to the active segment (three sequential `write_all`
calls), install the keydir entry, emit the `KeydirPut` stats event. -/
def putCore (db : DB) (k v : Bytes) (ts : Nat) : DB :=
  { db with
    keydir := (kdPut db.keydir k (putEntry db k v ts)).1,
    log_files := setA db.log_files (activeEntry db).1
      (writeAll (activeEntry db).2 (headerNew ts k.length v.length ++ k ++ v)),
    stats := handleKeydirPut db.stats (activeEntry db).1
      (((kdPut db.keydir k (putEntry db k v ts)).2).map (fun e0 => e0.file_id)) }

/-- `Storage::put` for `DiskStorage`: rotation check, then append header,
key and value with three sequential `write_all` calls and update keydir
and stats. -/
def put (db : DB) (k v : Bytes) (ts : Nat) : DB :=
  putCore (rotateLog db k.length v.length) k v ts

/-- `Storage::remove` for `DiskStorage`: when the key is present, append a
tombstone via `put(k, [])`; in all cases remove the key from the keydir.
No stats event is emitted for the keydir removal itself. -/
def remove (db : DB) (k : Bytes) (ts : Nat) : DB :=
  let db1 := if (kdGet db.keydir k).isSome then put db k [] ts else db
  { db1 with keydir := kdRemove db1.keydir k }

/-- `Storage::get` for `DiskStorage`: keydir lookup, then a positioned
`read_exact_at` of `value_size` bytes at `value_pos` (which succeeds
trivially for an empty buffer and fails past end-of-file otherwise). -/
def get (db : DB) (k : Bytes) : Except StorageError (Option Bytes) :=
  match kdGet db.keydir k with
  | none => .ok none
  | some e =>
    match lookupA db.log_files e.file_id with
    | none => .error (.unknownLogFile e.file_id)
    | some f =>
      if e.value_size = 0 ∨ e.value_pos + e.value_size ≤ f.contents.length then
        .ok (some ((f.contents.drop e.value_pos).take e.value_size))
      else .error .ioError

/-- One engine operation on an open handle, with its wall-clock stamp. -/
inductive Op where
  | put (k v : Bytes) (ts : Nat)
  | remove (k : Bytes) (ts : Nat)
  deriving DecidableEq, Repr

/-- Apply one operation. -/
def applyOp (db : DB) (op : Op) : DB :=
  match op with
  | .put k v ts => put db k v ts
  | .remove k ts => remove db k ts

/-- The state produced by `DiskStorage::open` on an empty directory:
no logs found, so segment 0 is created; the stats map is empty and the
garbage-collection pass at open is a no-op. -/
def openEmpty (max_log_file_size : Nat) : DB :=
  { keydir := [],
    log_files := [(0, ⟨[], 0⟩)],
    stats := [],
    max_log_file_size := max_log_file_size }

/-- A handle freshly opened on an empty directory, after a sequence of
operations. -/
def run (max_log_file_size : Nat) (ops : List Op) : DB :=
  ops.foldl applyOp (openEmpty max_log_file_size)

/-! ## storage.rs: recovery (`ingest_log`, `build_keydir`, `_open`) -/

/-- The loop of `DiskStorage::ingest_log` over one segment file.

Each iteration: `read` into the 12-byte header buffer (for a regular file
this returns `min 12 (length - pos)` bytes, filling a prefix of the
buffer and leaving the rest of the buffer unchanged); stop cleanly when 0
bytes were read; otherwise parse the buffer, `read_exact` the key (an
I/O error when fewer than `key_size` bytes remain), record the stream
position as `value_pos`, `seek` forward by `value_size` (which may move
past end-of-file without error), and install or delete the keydir entry
according to `value_size`.  Returns the keydir and the final position.

`fuel` only makes the recursion structural: every iteration consumes at
least one byte of the stream and the loop stops once the position passes
end-of-file, so `contents.length + 1` iterations (supplied by
`ingestLog`) always suffice and the out-of-fuel branch is unreachable. -/
def ingestLoop (file_id : Nat) (contents : Bytes) :
    Nat → Nat → Bytes → Keydir → Except StorageError (Keydir × Nat)
  | 0, _, _, _ => .error .ioError
  | fuel + 1, pos, buf, kd =>
    let n := min HEADER_SIZE (contents.length - pos)
    if n = 0 then .ok (kd, pos)
    else
      let buf1 := ((contents.drop pos).take n) ++ buf.drop n
      let pos1 := pos + n
      let key_size := keySizeOf buf1
      let value_size := valueSizeOf buf1
      if pos1 + key_size ≤ contents.length then
        let key := (contents.drop pos1).take key_size
        let value_pos := pos1 + key_size
        let pos2 := value_pos + value_size
        let e : KeydirEntry := ⟨file_id, value_size, value_pos, timestampOf buf1⟩
        let kd1 := if 0 < value_size then (kdPut kd key e).1 else kdRemove kd key
        ingestLoop file_id contents fuel pos2 buf1 kd1
      else .error .ioError

/-- `DiskStorage::ingest_log` on a freshly opened file: position 0 and a
zero-initialised header buffer. -/
def ingestLog (file_id : Nat) (contents : Bytes) (kd : Keydir) :
    Except StorageError (Keydir × Nat) :=
  ingestLoop file_id contents (contents.length + 1) 0 (List.replicate HEADER_SIZE 0) kd

/-- A directory: segment ids with the byte contents of their files, in
ascending id order (the order in which `BTreeMap` iteration visits the
files collected by `read_dir`). -/
abbrev Dir := List (Nat × Bytes)

/-- The ingestion loop of `build_keydir`: ingest every discovered segment
in ascending id order, recording a fresh stats binding for each, and
collect the opened files (whose positions are left where ingestion
stopped). -/
def ingestAll (dir : Dir) (kd : Keydir) (st : List (Nat × Nat)) :
    Except StorageError (Keydir × List (Nat × FileM) × List (Nat × Nat)) :=
  match dir with
  | [] => .ok (kd, [], st)
  | (i, c) :: rest =>
    match ingestLog i c kd with
    | .error e => .error e
    | .ok (kd1, pos) =>
      match ingestAll rest kd1 (newLogEntry st i) with
      | .error e => .error e
      | .ok (kd2, files, st2) => .ok (kd2, (i, ⟨c, pos⟩) :: files, st2)

/-- `DiskStorage::build_keydir`: ingest all segments, then walk the
keydir once, incrementing the stats count of each referenced segment;
create segment 0 when the directory holds no segment. -/
def buildKeydir (dir : Dir) :
    Except StorageError (Keydir × List (Nat × FileM) × List (Nat × Nat)) :=
  match ingestAll dir [] [] with
  | .error e => .error e
  | .ok (kd, files, st) =>
    let st1 := kd.foldl (fun s p => incStat s p.2.file_id) st
    let files1 := if files.isEmpty then [(0, ⟨[], 0⟩)] else files
    .ok (kd, files1, st1)

/-- `DiskStorage::_open` minus lock handling: build the keydir and run
the garbage-collection pass. -/
def openDir (max_log_file_size : Nat) (dir : Dir) : Except StorageError DB :=
  match buildKeydir dir with
  | .error e => .error e
  | .ok (kd, files, st) =>
    .ok (gcPass { keydir := kd, log_files := files, stats := st,
                  max_log_file_size := max_log_file_size })

/-- The directory left behind when a handle is dropped: the contents of
its segment files (the drop flushes file buffers, which is a no-op at
this level of abstraction). -/
def dirOf (db : DB) : Dir := db.log_files.map (fun p => (p.1, p.2.contents))

/-- Close the handle and re-open the same directory. -/
def reopen (db : DB) : Except StorageError DB :=
  openDir db.max_log_file_size (dirOf db)

/-! ## The abstract last-write-wins mapping -/

/-- How one operation updates the abstract value of key `k`. -/
def stepK (k : Bytes) (m : Option Bytes) (op : Op) : Option Bytes :=
  match op with
  | .put k2 v _ => if k2 = k then some v else m
  | .remove k2 _ => if k2 = k then none else m

/-- The logical key-to-value mapping denoted by a sequence of operations:
the value of the last `put` with no later `remove`, absent otherwise. -/
def specLast (ops : List Op) (k : Bytes) : Option Bytes :=
  ops.foldl (stepK k) none

/-- Whether an operation mentions key `k` at all. -/
def touches (op : Op) (k : Bytes) : Prop :=
  match op with
  | .put k2 _ _ => k2 = k
  | .remove k2 _ => k2 = k

instance (op : Op) (k : Bytes) : Decidable (touches op k) := by
  cases op <;> simp [touches] <;> infer_instance

/-- Keys and values strictly shorter than `2^32` bytes, so that the
`usize`-to-`u32` casts in the write path are lossless. -/
def ValidOp : Op → Prop
  | .put k v _ => k.length < U32 ∧ v.length < U32
  | .remove k _ => k.length < U32

instance (op : Op) : Decidable (ValidOp op) := by
  cases op <;> simp [ValidOp] <;> infer_instance

/-- Operations whose `put` values are non-empty (an empty value collides
with the tombstone encoding on disk, see the C2/C10 theorems). -/
def nonEmptyPut : Op → Prop
  | .put _ v _ => v ≠ []
  | .remove _ _ => True

instance (op : Op) : Decidable (nonEmptyPut op) := by
  cases op <;> simp [nonEmptyPut] <;> infer_instance

/-! ## Ghost records: the byte-level history of the segment files -/

/-- One record appended to a segment file: the key and value bytes passed
to the write path, the wall-clock stamp passed to `Header::new`, and
whether the record is the tombstone written by the inner `put` of
`remove` (the byte encoding does not distinguish the two; the tag only
tracks provenance, for the stats accounting). -/
structure Rec where
  key : Bytes
  value : Bytes
  ts : Nat
  fromRemove : Bool
  deriving DecidableEq, Repr

/-- The bytes a record occupies on disk: header, key bytes, value bytes
(exactly the three sequential `write_all` calls of `put`). -/
def encodeRec (r : Rec) : Bytes :=
  headerNew r.ts r.key.length r.value.length ++ r.key ++ r.value

/-- The contents of a segment file holding the given records. -/
def encodeRecs : List Rec → Bytes
  | [] => []
  | r :: rs => encodeRec r ++ encodeRecs rs

/-- The record history of every segment, keyed by segment id (ascending,
mirroring `log_files`). -/
abbrev RL := List (Nat × List Rec)

/-- Records written by the engine: sizes fit in `u32` (so the header
round-trips) and tombstones carry the empty value. -/
def wfRec (r : Rec) : Prop :=
  r.key.length < U32 ∧ r.value.length < U32 ∧ (r.fromRemove = true → r.value = [])

/-- Number of remove-tombstones in a record list. -/
def tombCount (rs : List Rec) : Nat := rs.countP (fun r => r.fromRemove)

/-- Number of remove-tombstones in segment `s` (0 when the segment does
not exist). -/
def tombAt (rl : RL) (s : Nat) : Nat :=
  ((lookupA rl s).map tombCount).getD 0

/-- The last record with key `k` in one segment, if any. -/
def segLast : List Rec → Bytes → Option Rec
  | [], _ => none
  | r :: rs, k =>
    match segLast rs k with
    | some x => some x
    | none => if r.key = k then some r else none

/-- The last record with key `k` across all segments in ingestion order
(ascending segment id, ascending offset within a segment), together with
its segment id. -/
def lastRecFor : RL → Bytes → Option (Nat × Rec)
  | [], _ => none
  | (i, rs) :: rest, k =>
    match lastRecFor rest k with
    | some x => some x
    | none => (segLast rs k).map (fun r => (i, r))

/-- The last record with key `k` in one segment together with its byte
offset, when the segment's records start at offset `pos`. -/
def segLastP : List Rec → Nat → Bytes → Option (Nat × Rec)
  | [], _, _ => none
  | r :: rs, pos, k =>
    match segLastP rs (pos + HEADER_SIZE + r.key.length + r.value.length) k with
    | some x => some x
    | none => if r.key = k then some (pos, r) else none

/-- The last record with key `k` across all segments, with its segment id
and byte offset. -/
def lastRecForP : RL → Bytes → Option (Nat × Nat × Rec)
  | [], _ => none
  | (i, rs) :: rest, k =>
    match lastRecForP rest k with
    | some x => some x
    | none => (segLastP rs 0 k).map (fun pr => (i, pr.1, pr.2))

/-- How the last record about a key, the keydir binding of the key and
the abstract value of the key relate in every reachable state: no record
means no binding; a tombstone from `remove` means no binding; a record
written by a (public) `put` means the abstract value is its value bytes
and the binding points into its segment. -/
def ghostRel (lr : Option (Nat × Rec)) (e? : Option KeydirEntry)
    (m : Option Bytes) : Prop :=
  match lr with
  | none => e? = none ∧ m = none
  | some (i, r) =>
    if r.fromRemove = true then e? = none ∧ m = none
    else m = some r.value ∧ ∃ e, e? = some e ∧ e.file_id = i

/-- The keydir produced by replaying the records of segment `i` whose
bytes start at offset `pos`: exactly the keydir updates `ingest_log`
performs on that segment. -/
def replaySeg (i : Nat) : List Rec → Nat → Keydir → Keydir
  | [], _, kd => kd
  | r :: rs, pos, kd =>
    replaySeg i rs (pos + HEADER_SIZE + r.key.length + r.value.length)
      (if 0 < r.value.length then
        (kdPut kd r.key
          ⟨i, r.value.length, pos + HEADER_SIZE + r.key.length, r.ts % U32⟩).1
       else kdRemove kd r.key)

/-- Replaying every segment in ascending id order (the order
`build_keydir` ingests them). -/
def replayAll : RL → Keydir → Keydir
  | [], kd => kd
  | (i, rs) :: rest, kd => replayAll rest (replaySeg i rs 0 kd)

/-- Ghost image of `rotate_log`: a fresh empty segment on rotation, then
the erasure mirroring the garbage-collection pass. -/
def ghostRotate (db : DB) (rl : RL) (k_size v_size : Nat) : RL :=
  let active := activeEntry db
  let rl1 :=
    if db.max_log_file_size < active.2.pos + (k_size + v_size + HEADER_SIZE) then
      insertA rl (active.1 + 1) []
    else rl
  eraseKeys rl1 (staleIds db.stats)

/-- Ghost image of the record append of `put`: the record lands at the
end of the active segment's history. -/
def ghostAppend (db : DB) (rl : RL) (r : Rec) : RL :=
  modifyA rl (activeEntry db).1 (fun rs => rs ++ [r])

/-- Ghost image of one engine operation on the record histories. -/
def ghostOp (db : DB) (rl : RL) : Op → RL
  | .put k v ts =>
    ghostAppend (rotateLog db k.length v.length)
      (ghostRotate db rl k.length v.length) ⟨k, v, ts, false⟩
  | .remove k ts =>
    if (kdGet db.keydir k).isSome then
      ghostAppend (rotateLog db k.length 0)
        (ghostRotate db rl k.length 0) ⟨k, [], ts, true⟩
    else rl

/-- The engine state and its ghost record history, evolved in parallel. -/
def foldDR (db : DB) (rl : RL) (ops : List Op) : DB × RL :=
  ops.foldl (fun s op => (applyOp s.1 op, ghostOp s.1 s.2 op)) (db, rl)

/-- A fresh handle after a sequence of operations, with the ghost record
history of its segment files. -/
def runGhost (opts : Nat) (ops : List Op) : DB × RL :=
  foldDR (openEmpty opts) [(0, [])] ops

/-- A segment's record history matches its file: same id, and the file
contents are exactly the record encodings. -/
def recsMatch (g : Nat × List Rec) (f : Nat × FileM) : Prop :=
  g.1 = f.1 ∧ f.2.contents = encodeRecs g.2

/-- The ghost invariant: the record history matches the engine state.
Segment ids coincide, file contents are the record encodings, records
are well-formed, every stats count is the segment's live-key count plus
its tombstone count, and for every key the keydir binding, the abstract
value and the last record agree. -/
structure InvB (db : DB) (rl : RL) (M : Bytes → Option Bytes) : Prop where
  contentsEq : List.Forall₂ recsMatch rl db.log_files
  wf : ∀ p ∈ rl, ∀ r ∈ p.2, wfRec r
  statsEq : ∀ s, statsCount db.stats s = liveCount db.keydir s + tombAt rl s
  rel : ∀ k, ghostRel (lastRecFor rl k) (kdGet db.keydir k) (M k)

/-! ## Lemmas: the header codec -/

theorem toLe4_mod (n : Nat) : toLe4 (n % U32) = toLe4 n := by
  simp only [toLe4, List.cons.injEq, and_true]
  refine ⟨?_, ?_, ?_, ?_⟩ <;> · simp only [U32]; omega

theorem fromLe4_toLe4 (n : Nat) : fromLe4 (toLe4 n) = n % U32 := by
  simp only [toLe4, fromLe4, List.getD_cons_zero, List.getD_cons_succ]
  have h : n % U32 < U32 := Nat.mod_lt _ (by decide)
  simp only [U32] at *
  omega

@[simp] theorem toLe4_length (n : Nat) : (toLe4 n).length = 4 := by
  simp [toLe4]

@[simp] theorem headerNew_length (a b c : Nat) : (headerNew a b c).length = 12 := by
  simp [headerNew]

theorem timestampOf_headerNew (a b c : Nat) :
    timestampOf (headerNew a b c) = a % U32 := by
  have h : (headerNew a b c).take 4 = toLe4 a := by
    simp [headerNew, List.take_append_of_le_length, List.take_length (l := toLe4 a)]
  rw [timestampOf, h, fromLe4_toLe4]

theorem keySizeOf_headerNew (a b c : Nat) :
    keySizeOf (headerNew a b c) = b % U32 := by
  have h : ((headerNew a b c).drop 4).take 4 = toLe4 b := by
    have h1 : headerNew a b c = toLe4 a ++ (toLe4 b ++ toLe4 c) := by
      simp [headerNew]
    rw [h1]
    rw [show (4 : Nat) = (toLe4 a).length by simp, List.drop_left]
    simp [List.take_append_of_le_length, List.take_length (l := toLe4 b)]
  rw [keySizeOf, h, fromLe4_toLe4]

theorem valueSizeOf_headerNew (a b c : Nat) :
    valueSizeOf (headerNew a b c) = c % U32 := by
  have h : ((headerNew a b c).drop 8).take 4 = toLe4 c := by
    have h1 : headerNew a b c = (toLe4 a ++ toLe4 b) ++ toLe4 c := by
      simp [headerNew]
    rw [h1]
    rw [show (8 : Nat) = ((toLe4 a ++ toLe4 b)).length by simp, List.drop_left]
    simp [List.take_length (l := toLe4 c)]
  rw [valueSizeOf, h, fromLe4_toLe4]

theorem headerNew_mod_ts (a b c : Nat) : headerNew (a % U32) b c = headerNew a b c := by
  simp [headerNew, toLe4_mod]

/-! ## Lemmas: slices of byte lists -/

theorem slice_append (l m : List Nat) (p n : Nat) (h : p + n ≤ l.length) :
    ((l ++ m).drop p).take n = (l.drop p).take n := by
  rw [List.drop_append_of_le_length (by omega)]
  rw [List.take_append_of_le_length (by simp; omega)]

theorem slice_exact (l d m : List Nat) :
    (((l ++ d ++ m).drop l.length).take d.length) = d := by
  rw [show l ++ d ++ m = l ++ (d ++ m) by simp, List.drop_left]
  rw [List.take_append_of_le_length (by omega), List.take_length (l := d)]

/-! ## Lemmas: the keydir -/

/-- Keys of a keydir are pairwise distinct (maintained by every engine
operation; gives the map semantics of the underlying `HashMap`). -/
def KeysNodup (kd : Keydir) : Prop :=
  kd.Pairwise (fun p q => p.1 ≠ q.1)

@[simp] theorem kdGet_nil (k : Bytes) : kdGet [] k = none := rfl

theorem kdGet_cons_eq (k : Bytes) (e0 : KeydirEntry) (t : Keydir) :
    kdGet ((k, e0) :: t) k = some e0 := by
  simp [kdGet]

theorem kdGet_cons_ne (k0 k : Bytes) (e0 : KeydirEntry) (t : Keydir) (h : k0 ≠ k) :
    kdGet ((k0, e0) :: t) k = kdGet t k := by
  simp [kdGet, h]

theorem kdPut_cons_eq (k : Bytes) (e0 e : KeydirEntry) (t : Keydir) :
    kdPut ((k, e0) :: t) k e = ((k, e) :: t, some e0) := by
  simp [kdPut]

theorem kdPut_cons_ne (k0 k : Bytes) (e0 e : KeydirEntry) (t : Keydir) (h : k0 ≠ k) :
    kdPut ((k0, e0) :: t) k e = ((k0, e0) :: (kdPut t k e).1, (kdPut t k e).2) := by
  simp [kdPut, h]

theorem kdRemove_nil (k : Bytes) : kdRemove [] k = [] := rfl

theorem kdRemove_cons_eq (k : Bytes) (e0 : KeydirEntry) (t : Keydir) :
    kdRemove ((k, e0) :: t) k = kdRemove t k := by
  simp [kdRemove, List.filter_cons]

theorem kdRemove_cons_ne (k0 k : Bytes) (e0 : KeydirEntry) (t : Keydir) (h : k0 ≠ k) :
    kdRemove ((k0, e0) :: t) k = (k0, e0) :: kdRemove t k := by
  simp [kdRemove, List.filter_cons, h]

theorem kdPut_get_self (kd : Keydir) (k : Bytes) (e : KeydirEntry) :
    kdGet (kdPut kd k e).1 k = some e := by
  induction kd with
  | nil => simp [kdPut, kdGet]
  | cons p t ih =>
    obtain ⟨k0, e0⟩ := p
    by_cases h : k0 = k
    · subst h
      rw [kdPut_cons_eq, kdGet_cons_eq]
    · rw [kdPut_cons_ne _ _ _ _ _ h, kdGet_cons_ne _ _ _ _ h]
      exact ih

theorem kdPut_get_other (kd : Keydir) (k j : Bytes) (e : KeydirEntry) (h : j ≠ k) :
    kdGet (kdPut kd k e).1 j = kdGet kd j := by
  induction kd with
  | nil => simp [kdPut, kdGet, Ne.symm h]
  | cons p t ih =>
    obtain ⟨k0, e0⟩ := p
    by_cases h0 : k0 = k
    · subst h0
      rw [kdPut_cons_eq, kdGet_cons_ne _ _ _ _ (Ne.symm h), kdGet_cons_ne _ _ _ _ (Ne.symm h)]
    · rw [kdPut_cons_ne _ _ _ _ _ h0]
      by_cases h1 : k0 = j
      · subst h1
        rw [kdGet_cons_eq, kdGet_cons_eq]
      · rw [kdGet_cons_ne _ _ _ _ h1, kdGet_cons_ne _ _ _ _ h1]
        exact ih

theorem kdPut_snd (kd : Keydir) (k : Bytes) (e : KeydirEntry) :
    (kdPut kd k e).2 = kdGet kd k := by
  induction kd with
  | nil => simp [kdPut, kdGet]
  | cons p t ih =>
    obtain ⟨k0, e0⟩ := p
    by_cases h : k0 = k
    · subst h
      rw [kdPut_cons_eq, kdGet_cons_eq]
    · rw [kdPut_cons_ne _ _ _ _ _ h, kdGet_cons_ne _ _ _ _ h]
      exact ih

theorem kdPut_mem (kd : Keydir) (k : Bytes) (e : KeydirEntry) (q : Bytes × KeydirEntry)
    (h : q ∈ (kdPut kd k e).1) : q = (k, e) ∨ q ∈ kd := by
  induction kd with
  | nil =>
    simp only [kdPut, List.mem_singleton] at h
    exact Or.inl h
  | cons p t ih =>
    obtain ⟨k0, e0⟩ := p
    by_cases h0 : k0 = k
    · subst h0
      rw [kdPut_cons_eq] at h
      rcases List.mem_cons.mp h with h | h
      · exact Or.inl h
      · exact Or.inr (List.mem_cons_of_mem _ h)
    · rw [kdPut_cons_ne _ _ _ _ _ h0] at h
      rcases List.mem_cons.mp h with h | h
      · exact Or.inr (h ▸ List.mem_cons_self _ _)
      · rcases ih h with h1 | h1
        · exact Or.inl h1
        · exact Or.inr (List.mem_cons_of_mem _ h1)

theorem kdGet_mem (kd : Keydir) (k : Bytes) (e : KeydirEntry) (h : kdGet kd k = some e) :
    (k, e) ∈ kd := by
  induction kd with
  | nil => simp [kdGet] at h
  | cons p t ih =>
    obtain ⟨k0, e0⟩ := p
    by_cases h0 : k0 = k
    · subst h0
      rw [kdGet_cons_eq] at h
      injection h with h
      exact h ▸ List.mem_cons_self _ _
    · rw [kdGet_cons_ne _ _ _ _ h0] at h
      exact List.mem_cons_of_mem _ (ih h)

theorem kdPut_nodup (kd : Keydir) (k : Bytes) (e : KeydirEntry) (h : KeysNodup kd) :
    KeysNodup (kdPut kd k e).1 := by
  induction kd with
  | nil => simp [kdPut, KeysNodup]
  | cons p t ih =>
    obtain ⟨k0, e0⟩ := p
    rw [KeysNodup, List.pairwise_cons] at h
    by_cases h0 : k0 = k
    · subst h0
      rw [kdPut_cons_eq]
      rw [KeysNodup, List.pairwise_cons]
      exact ⟨h.1, h.2⟩
    · rw [kdPut_cons_ne _ _ _ _ _ h0]
      rw [KeysNodup, List.pairwise_cons]
      refine ⟨?_, ih h.2⟩
      intro q hq
      rcases kdPut_mem t k e q hq with h1 | h1
      · rw [h1]
        exact h0
      · exact h.1 q h1

theorem kdRemove_nodup (kd : Keydir) (k : Bytes) (h : KeysNodup kd) :
    KeysNodup (kdRemove kd k) :=
  List.Pairwise.sublist (List.filter_sublist kd) h

theorem kdRemove_get_self (kd : Keydir) (k : Bytes) : kdGet (kdRemove kd k) k = none := by
  induction kd with
  | nil => simp [kdRemove]
  | cons p t ih =>
    obtain ⟨k0, e0⟩ := p
    by_cases h0 : k0 = k
    · subst h0
      rw [kdRemove_cons_eq]
      exact ih
    · rw [kdRemove_cons_ne _ _ _ _ h0, kdGet_cons_ne _ _ _ _ h0]
      exact ih

theorem kdRemove_get_other (kd : Keydir) (k j : Bytes) (h : j ≠ k) :
    kdGet (kdRemove kd k) j = kdGet kd j := by
  induction kd with
  | nil => simp [kdRemove]
  | cons p t ih =>
    obtain ⟨k0, e0⟩ := p
    by_cases h0 : k0 = k
    · subst h0
      rw [kdRemove_cons_eq, kdGet_cons_ne _ _ _ _ (Ne.symm h)]
      exact ih
    · rw [kdRemove_cons_ne _ _ _ _ h0]
      by_cases h1 : k0 = j
      · subst h1
        rw [kdGet_cons_eq, kdGet_cons_eq]
      · rw [kdGet_cons_ne _ _ _ _ h1, kdGet_cons_ne _ _ _ _ h1]
        exact ih

theorem kdRemove_of_none (kd : Keydir) (k : Bytes) (h : kdGet kd k = none) :
    kdRemove kd k = kd := by
  induction kd with
  | nil => simp [kdRemove]
  | cons p t ih =>
    obtain ⟨k0, e0⟩ := p
    by_cases h0 : k0 = k
    · subst h0
      rw [kdGet_cons_eq] at h
      simp at h
    · rw [kdGet_cons_ne _ _ _ _ h0] at h
      rw [kdRemove_cons_ne _ _ _ _ h0, ih h]

@[simp] theorem liveCount_nil (s : Nat) : liveCount [] s = 0 := rfl

theorem liveCount_cons (p : Bytes × KeydirEntry) (kd : Keydir) (s : Nat) :
    liveCount (p :: kd) s = liveCount kd s + (if p.2.file_id = s then 1 else 0) := by
  simp [liveCount, List.countP_cons]

theorem liveCount_pos (kd : Keydir) (k : Bytes) (e : KeydirEntry)
    (h : kdGet kd k = some e) : 1 ≤ liveCount kd e.file_id :=
  List.countP_pos_iff.mpr ⟨(k, e), kdGet_mem kd k e h, by simp⟩

theorem liveCount_kdPut_none (kd : Keydir) (k : Bytes) (e : KeydirEntry) (s : Nat)
    (h : kdGet kd k = none) :
    liveCount (kdPut kd k e).1 s = liveCount kd s + (if e.file_id = s then 1 else 0) := by
  induction kd with
  | nil => simp [kdPut, liveCount, List.countP_cons]
  | cons p t ih =>
    obtain ⟨k0, e0⟩ := p
    by_cases h0 : k0 = k
    · subst h0
      rw [kdGet_cons_eq] at h
      simp at h
    · rw [kdGet_cons_ne _ _ _ _ h0] at h
      rw [kdPut_cons_ne _ _ _ _ _ h0, liveCount_cons, liveCount_cons, ih h]
      dsimp only
      omega

theorem liveCount_kdPut_some (kd : Keydir) (k : Bytes) (e e0 : KeydirEntry) (s : Nat)
    (h : kdGet kd k = some e0) :
    liveCount (kdPut kd k e).1 s + (if e0.file_id = s then 1 else 0) =
      liveCount kd s + (if e.file_id = s then 1 else 0) := by
  induction kd with
  | nil => simp [kdGet] at h
  | cons p t ih =>
    obtain ⟨k0, e1⟩ := p
    by_cases h0 : k0 = k
    · subst h0
      rw [kdGet_cons_eq] at h
      injection h with h
      subst h
      rw [kdPut_cons_eq, liveCount_cons, liveCount_cons]
      dsimp only
      omega
    · rw [kdGet_cons_ne _ _ _ _ h0] at h
      rw [kdPut_cons_ne _ _ _ _ _ h0, liveCount_cons, liveCount_cons]
      have := ih h
      dsimp only at *
      omega

theorem liveCount_kdRemove_some (kd : Keydir) (k : Bytes) (e0 : KeydirEntry) (s : Nat)
    (hn : KeysNodup kd) (h : kdGet kd k = some e0) :
    liveCount (kdRemove kd k) s + (if e0.file_id = s then 1 else 0) = liveCount kd s := by
  induction kd with
  | nil => simp [kdGet] at h
  | cons p t ih =>
    obtain ⟨k0, e1⟩ := p
    rw [KeysNodup, List.pairwise_cons] at hn
    by_cases h0 : k0 = k
    · subst h0
      rw [kdGet_cons_eq] at h
      injection h with h
      subst h
      have hnone : kdGet t k0 = none := by
        cases hg : kdGet t k0 with
        | none => rfl
        | some e2 => exact absurd rfl (hn.1 (k0, e2) (kdGet_mem t k0 e2 hg))
      rw [kdRemove_cons_eq, kdRemove_of_none t k0 hnone, liveCount_cons]
    · rw [kdGet_cons_ne _ _ _ _ h0] at h
      rw [kdRemove_cons_ne _ _ _ _ h0, liveCount_cons, liveCount_cons]
      have := ih hn.2 h
      dsimp only at *
      omega



/-! ## Lemmas: sorted association lists and the stats map -/

/-- Strictly ascending keys: the representation invariant of `BTreeMap`. -/
def SortedKeys {α : Type} (l : List (Nat × α)) : Prop :=
  l.Pairwise (fun p q => p.1 < q.1)

instance {α : Type} (l : List (Nat × α)) : Decidable (SortedKeys l) :=
  inferInstanceAs (Decidable (l.Pairwise _))

@[simp] theorem lookupA_nil {α : Type} (i : Nat) : lookupA ([] : List (Nat × α)) i = none := rfl

theorem lookupA_cons_eq {α : Type} (i : Nat) (a : α) (t : List (Nat × α)) :
    lookupA ((i, a) :: t) i = some a := by
  simp [lookupA]

theorem lookupA_cons_ne {α : Type} (j i : Nat) (a : α) (t : List (Nat × α)) (h : j ≠ i) :
    lookupA ((j, a) :: t) i = lookupA t i := by
  simp [lookupA, h]

theorem insertA_cons_lt {α : Type} (j i : Nat) (b a : α) (t : List (Nat × α)) (h : i < j) :
    insertA ((j, b) :: t) i a = (i, a) :: (j, b) :: t := by
  simp [insertA, h]

theorem insertA_cons_eq {α : Type} (i : Nat) (b a : α) (t : List (Nat × α)) :
    insertA ((i, b) :: t) i a = (i, a) :: t := by
  simp [insertA]

theorem insertA_cons_gt {α : Type} (j i : Nat) (b a : α) (t : List (Nat × α)) (h : j < i) :
    insertA ((j, b) :: t) i a = (j, b) :: insertA t i a := by
  have h1 : ¬ i < j := by omega
  have h2 : ¬ i = j := by omega
  simp [insertA, h1, h2]

theorem modifyA_cons_eq {α : Type} (i : Nat) (b : α) (f : α → α) (t : List (Nat × α)) :
    modifyA ((i, b) :: t) i f = (i, f b) :: modifyA t i f := by
  simp [modifyA]

theorem modifyA_cons_ne {α : Type} (j i : Nat) (b : α) (f : α → α) (t : List (Nat × α))
    (h : j ≠ i) : modifyA ((j, b) :: t) i f = (j, b) :: modifyA t i f := by
  simp [modifyA, h]

theorem setA_cons_eq {α : Type} (i : Nat) (b a : α) (t : List (Nat × α)) :
    setA ((i, b) :: t) i a = (i, a) :: setA t i a := by
  simp [setA]

theorem setA_cons_ne {α : Type} (j i : Nat) (b a : α) (t : List (Nat × α))
    (h : j ≠ i) : setA ((j, b) :: t) i a = (j, b) :: setA t i a := by
  simp [setA, h]

theorem lookupA_insertA_self {α : Type} (l : List (Nat × α)) (i : Nat) (a : α) :
    lookupA (insertA l i a) i = some a := by
  induction l with
  | nil => simp [insertA, lookupA]
  | cons p t ih =>
    obtain ⟨j, b⟩ := p
    rcases Nat.lt_trichotomy i j with h1 | h1 | h1
    · rw [insertA_cons_lt _ _ _ _ _ h1, lookupA_cons_eq]
    · subst h1
      rw [insertA_cons_eq, lookupA_cons_eq]
    · rw [insertA_cons_gt _ _ _ _ _ h1, lookupA_cons_ne _ _ _ _ (by omega)]
      exact ih

theorem lookupA_insertA_other {α : Type} (l : List (Nat × α)) (i j : Nat) (a : α)
    (h : j ≠ i) : lookupA (insertA l i a) j = lookupA l j := by
  induction l with
  | nil => simp [insertA, lookupA, Ne.symm h]
  | cons p t ih =>
    obtain ⟨j0, b⟩ := p
    rcases Nat.lt_trichotomy i j0 with h1 | h1 | h1
    · rw [insertA_cons_lt _ _ _ _ _ h1, lookupA_cons_ne _ _ _ _ (Ne.symm h)]
    · subst h1
      rw [insertA_cons_eq, lookupA_cons_ne _ _ _ _ (Ne.symm h),
        lookupA_cons_ne _ _ _ _ (Ne.symm h)]
    · rw [insertA_cons_gt _ _ _ _ _ h1]
      by_cases h2 : j0 = j
      · subst h2
        rw [lookupA_cons_eq, lookupA_cons_eq]
      · rw [lookupA_cons_ne _ _ _ _ h2, lookupA_cons_ne _ _ _ _ h2]
        exact ih

theorem insertA_mem {α : Type} (l : List (Nat × α)) (i : Nat) (a : α) (q : Nat × α)
    (h : q ∈ insertA l i a) : q = (i, a) ∨ q ∈ l := by
  induction l with
  | nil =>
    simp only [insertA, List.mem_singleton] at h
    exact Or.inl h
  | cons p t ih =>
    obtain ⟨j, b⟩ := p
    rcases Nat.lt_trichotomy i j with h1 | h1 | h1
    · rw [insertA_cons_lt _ _ _ _ _ h1] at h
      rcases List.mem_cons.mp h with h | h
      · exact Or.inl h
      · exact Or.inr h
    · subst h1
      rw [insertA_cons_eq] at h
      rcases List.mem_cons.mp h with h | h
      · exact Or.inl h
      · exact Or.inr (List.mem_cons_of_mem _ h)
    · rw [insertA_cons_gt _ _ _ _ _ h1] at h
      rcases List.mem_cons.mp h with h | h
      · exact Or.inr (h ▸ List.mem_cons_self _ _)
      · rcases ih h with h3 | h3
        · exact Or.inl h3
        · exact Or.inr (List.mem_cons_of_mem _ h3)

theorem insertA_sorted {α : Type} (l : List (Nat × α)) (i : Nat) (a : α)
    (h : SortedKeys l) : SortedKeys (insertA l i a) := by
  induction l with
  | nil => simp [insertA, SortedKeys]
  | cons p t ih =>
    obtain ⟨j, b⟩ := p
    rw [SortedKeys, List.pairwise_cons] at h
    rcases Nat.lt_trichotomy i j with h1 | h1 | h1
    · rw [insertA_cons_lt _ _ _ _ _ h1, SortedKeys, List.pairwise_cons]
      constructor
      · intro q hq
        rcases List.mem_cons.mp hq with h2 | h2
        · rw [h2]; exact h1
        · exact lt_trans h1 (h.1 q h2)
      · rw [SortedKeys] at *
        exact List.pairwise_cons.mpr h
    · subst h1
      rw [insertA_cons_eq, SortedKeys, List.pairwise_cons]
      exact ⟨h.1, h.2⟩
    · rw [insertA_cons_gt _ _ _ _ _ h1, SortedKeys, List.pairwise_cons]
      constructor
      · intro q hq
        rcases insertA_mem t i a q hq with h3 | h3
        · rw [h3]; exact h1
        · exact h.1 q h3
      · exact ih h.2

theorem insertA_append_of_lt {α : Type} (l : List (Nat × α)) (i : Nat) (a : α)
    (h : ∀ p ∈ l, p.1 < i) : insertA l i a = l ++ [(i, a)] := by
  induction l with
  | nil => simp [insertA]
  | cons p t ih =>
    obtain ⟨j, b⟩ := p
    have hj : j < i := h (j, b) (List.mem_cons_self _ _)
    rw [insertA_cons_gt _ _ _ _ _ hj, ih (fun q hq => h q (List.mem_cons_of_mem _ hq))]
    simp

theorem modifyA_keys {α : Type} (l : List (Nat × α)) (i : Nat) (f : α → α) :
    (modifyA l i f).map Prod.fst = l.map Prod.fst := by
  induction l with
  | nil => rfl
  | cons p t ih =>
    obtain ⟨j, b⟩ := p
    by_cases h : j = i
    · subst h
      rw [modifyA_cons_eq, List.map_cons, List.map_cons, ih]
    · rw [modifyA_cons_ne _ _ _ _ _ h, List.map_cons, List.map_cons, ih]

theorem lookupA_modifyA_self {α : Type} (l : List (Nat × α)) (i : Nat) (f : α → α) :
    lookupA (modifyA l i f) i = (lookupA l i).map f := by
  induction l with
  | nil => rfl
  | cons p t ih =>
    obtain ⟨j, b⟩ := p
    by_cases h : j = i
    · subst h
      rw [modifyA_cons_eq, lookupA_cons_eq, lookupA_cons_eq]
      rfl
    · rw [modifyA_cons_ne _ _ _ _ _ h, lookupA_cons_ne _ _ _ _ h,
        lookupA_cons_ne _ _ _ _ h]
      exact ih

theorem lookupA_modifyA_other {α : Type} (l : List (Nat × α)) (i j : Nat) (f : α → α)
    (h : j ≠ i) : lookupA (modifyA l i f) j = lookupA l j := by
  induction l with
  | nil => rfl
  | cons p t ih =>
    obtain ⟨j0, b⟩ := p
    by_cases h0 : j0 = i
    · subst h0
      rw [modifyA_cons_eq, lookupA_cons_ne _ _ _ _ (Ne.symm h),
        lookupA_cons_ne _ _ _ _ (Ne.symm h)]
      exact ih
    · rw [modifyA_cons_ne _ _ _ _ _ h0]
      by_cases h1 : j0 = j
      · subst h1
        rw [lookupA_cons_eq, lookupA_cons_eq]
      · rw [lookupA_cons_ne _ _ _ _ h1, lookupA_cons_ne _ _ _ _ h1]
        exact ih

theorem setA_keys {α : Type} (l : List (Nat × α)) (i : Nat) (a : α) :
    (setA l i a).map Prod.fst = l.map Prod.fst := by
  induction l with
  | nil => rfl
  | cons p t ih =>
    obtain ⟨j, b⟩ := p
    by_cases h : j = i
    · subst h
      rw [setA_cons_eq, List.map_cons, List.map_cons, ih]
    · rw [setA_cons_ne _ _ _ _ _ h, List.map_cons, List.map_cons, ih]

theorem lookupA_setA_self {α : Type} (l : List (Nat × α)) (i : Nat) (a : α) :
    lookupA (setA l i a) i = (lookupA l i).map (fun _ => a) := by
  induction l with
  | nil => rfl
  | cons p t ih =>
    obtain ⟨j, b⟩ := p
    by_cases h : j = i
    · subst h
      rw [setA_cons_eq, lookupA_cons_eq, lookupA_cons_eq]
      rfl
    · rw [setA_cons_ne _ _ _ _ _ h, lookupA_cons_ne _ _ _ _ h, lookupA_cons_ne _ _ _ _ h]
      exact ih

theorem lookupA_setA_other {α : Type} (l : List (Nat × α)) (i j : Nat) (a : α)
    (h : j ≠ i) : lookupA (setA l i a) j = lookupA l j := by
  induction l with
  | nil => rfl
  | cons p t ih =>
    obtain ⟨j0, b⟩ := p
    by_cases h0 : j0 = i
    · subst h0
      rw [setA_cons_eq, lookupA_cons_ne _ _ _ _ (Ne.symm h),
        lookupA_cons_ne _ _ _ _ (Ne.symm h)]
      exact ih
    · rw [setA_cons_ne _ _ _ _ _ h0]
      by_cases h1 : j0 = j
      · subst h1
        rw [lookupA_cons_eq, lookupA_cons_eq]
      · rw [lookupA_cons_ne _ _ _ _ h1, lookupA_cons_ne _ _ _ _ h1]
        exact ih

theorem lookupA_eraseKeys {α : Type} (l : List (Nat × α)) (ids : List Nat) (j : Nat) :
    lookupA (eraseKeys l ids) j = if j ∈ ids then none else lookupA l j := by
  induction l with
  | nil => simp [eraseKeys]
  | cons p t ih =>
    obtain ⟨j0, b⟩ := p
    by_cases hm : j0 ∈ ids
    · rw [show eraseKeys ((j0, b) :: t) ids = eraseKeys t ids by
        simp [eraseKeys, List.filter_cons, List.elem_iff, hm]]
      rw [ih]
      by_cases hj : j ∈ ids
      · simp [hj]
      · have hne : j0 ≠ j := fun hh => hj (hh ▸ hm)
        simp [hj, lookupA_cons_ne _ _ _ _ hne]
    · rw [show eraseKeys ((j0, b) :: t) ids = (j0, b) :: eraseKeys t ids by
        simp [eraseKeys, List.filter_cons, hm, List.elem_iff]]
      by_cases h1 : j0 = j
      · subst h1
        rw [lookupA_cons_eq, lookupA_cons_eq, if_neg hm]
      · rw [lookupA_cons_ne _ _ _ _ h1, lookupA_cons_ne _ _ _ _ h1]
        exact ih

theorem eraseKeys_sublist {α : Type} (l : List (Nat × α)) (ids : List Nat) :
    List.Sublist (eraseKeys l ids) l :=
  List.filter_sublist l

theorem eraseKeys_sorted {α : Type} (l : List (Nat × α)) (ids : List Nat)
    (h : SortedKeys l) : SortedKeys (eraseKeys l ids) :=
  List.Pairwise.sublist (eraseKeys_sublist l ids) h

theorem eraseKeys_mem {α : Type} (l : List (Nat × α)) (ids : List Nat) (q : Nat × α)
    (h : q ∈ eraseKeys l ids) : q ∈ l ∧ q.1 ∉ ids := by
  refine ⟨List.mem_of_mem_filter h, ?_⟩
  have := List.of_mem_filter h
  simpa [List.elem_iff] using this

theorem mem_eraseKeys {α : Type} (l : List (Nat × α)) (ids : List Nat) (q : Nat × α)
    (hq : q ∈ l) (hid : q.1 ∉ ids) : q ∈ eraseKeys l ids := by
  refine List.mem_filter.mpr ⟨hq, ?_⟩
  simpa [List.elem_iff] using hid


theorem statsCount_incStat_self (st : List (Nat × Nat)) (i : Nat) :
    statsCount (incStat st i) i = statsCount st i + 1 := by
  unfold incStat
  by_cases h : (lookupA st i).isSome
  · rw [if_pos h, statsCount, statsCount, lookupA_modifyA_self]
    obtain ⟨c, hc⟩ := Option.isSome_iff_exists.mp h
    rw [hc]
    rfl
  · rw [if_neg h, statsCount, statsCount, lookupA_insertA_self]
    rw [Option.not_isSome_iff_eq_none] at h
    rw [h]
    rfl

theorem statsCount_incStat_other (st : List (Nat × Nat)) (i j : Nat) (h : j ≠ i) :
    statsCount (incStat st i) j = statsCount st j := by
  unfold incStat
  by_cases h0 : (lookupA st i).isSome
  · rw [if_pos h0, statsCount, statsCount, lookupA_modifyA_other _ _ _ _ h]
  · rw [if_neg h0, statsCount, statsCount, lookupA_insertA_other _ _ _ _ h]

theorem statsCount_decStat_self (st : List (Nat × Nat)) (i : Nat) :
    statsCount (decStat st i) i = statsCount st i - 1 := by
  rw [decStat, statsCount, statsCount, lookupA_modifyA_self]
  cases lookupA st i <;> rfl

theorem statsCount_decStat_other (st : List (Nat × Nat)) (i j : Nat) (h : j ≠ i) :
    statsCount (decStat st i) j = statsCount st j := by
  rw [decStat, statsCount, statsCount, lookupA_modifyA_other _ _ _ _ h]

theorem statsCount_newLogEntry_other (st : List (Nat × Nat)) (i j : Nat) (h : j ≠ i) :
    statsCount (newLogEntry st i) j = statsCount st j := by
  unfold newLogEntry
  by_cases h0 : (lookupA st i).isSome
  · rw [if_pos h0]
  · rw [if_neg h0, statsCount, statsCount, lookupA_insertA_other _ _ _ _ h]

theorem statsCount_newLogEntry_self (st : List (Nat × Nat)) (i : Nat) :
    statsCount (newLogEntry st i) i = statsCount st i := by
  unfold newLogEntry
  by_cases h0 : (lookupA st i).isSome
  · rw [if_pos h0]
  · rw [if_neg h0, statsCount, statsCount, lookupA_insertA_self]
    rw [Option.not_isSome_iff_eq_none] at h0
    rw [h0]
    rfl

theorem sortedKeys_of_modifyA {α : Type} (st : List (Nat × α)) (i : Nat) (f : α → α)
    (h : SortedKeys st) : SortedKeys (modifyA st i f) := by
  induction st with
  | nil => exact h
  | cons p t ih =>
    obtain ⟨j, b⟩ := p
    rw [SortedKeys, List.pairwise_cons] at h
    by_cases h0 : j = i
    · rw [h0] at h ⊢
      rw [modifyA_cons_eq, SortedKeys, List.pairwise_cons]
      refine ⟨?_, ih h.2⟩
      intro q hq
      have hk := modifyA_keys t i f
      have : q.1 ∈ (modifyA t i f).map Prod.fst := List.mem_map_of_mem _ hq
      rw [hk] at this
      obtain ⟨q0, hq0, hq1⟩ := List.mem_map.mp this
      exact hq1 ▸ h.1 q0 hq0
    · rw [modifyA_cons_ne _ _ _ _ _ h0, SortedKeys, List.pairwise_cons]
      refine ⟨?_, ih h.2⟩
      intro q hq
      have hk := modifyA_keys t i f
      have : q.1 ∈ (modifyA t i f).map Prod.fst := List.mem_map_of_mem _ hq
      rw [hk] at this
      obtain ⟨q0, hq0, hq1⟩ := List.mem_map.mp this
      exact hq1 ▸ h.1 q0 hq0

theorem incStat_sorted (st : List (Nat × Nat)) (i : Nat) (h : SortedKeys st) :
    SortedKeys (incStat st i) := by
  unfold incStat
  by_cases h0 : (lookupA st i).isSome
  · rw [if_pos h0]
    exact sortedKeys_of_modifyA st i _ h
  · rw [if_neg h0]
    exact insertA_sorted st i 1 h

theorem decStat_sorted (st : List (Nat × Nat)) (i : Nat) (h : SortedKeys st) :
    SortedKeys (decStat st i) :=
  sortedKeys_of_modifyA st i _ h

theorem newLogEntry_sorted (st : List (Nat × Nat)) (i : Nat) (h : SortedKeys st) :
    SortedKeys (newLogEntry st i) := by
  unfold newLogEntry
  by_cases h0 : (lookupA st i).isSome
  · rw [if_pos h0]; exact h
  · rw [if_neg h0]; exact insertA_sorted st i 0 h

theorem modifyA_mem {α : Type} (l : List (Nat × α)) (i : Nat) (f : α → α) (q : Nat × α)
    (h : q ∈ modifyA l i f) : ∃ q0 ∈ l, q.1 = q0.1 := by
  rw [modifyA] at h
  obtain ⟨q0, hq0, hq1⟩ := List.mem_map.mp h
  refine ⟨q0, hq0, ?_⟩
  by_cases h0 : q0.1 = i
  · rw [← hq1, if_pos h0]
  · rw [← hq1, if_neg h0]

theorem incStat_mem (st : List (Nat × Nat)) (i : Nat) (q : Nat × Nat)
    (h : q ∈ incStat st i) : q.1 = i ∨ ∃ q0 ∈ st, q.1 = q0.1 := by
  unfold incStat at h
  by_cases h0 : (lookupA st i).isSome
  · rw [if_pos h0] at h
    exact Or.inr (modifyA_mem st i _ q h)
  · rw [if_neg h0] at h
    rcases insertA_mem st i 1 q h with h1 | h1
    · exact Or.inl (by rw [h1])
    · exact Or.inr ⟨q, h1, rfl⟩

theorem decStat_mem (st : List (Nat × Nat)) (i : Nat) (q : Nat × Nat)
    (h : q ∈ decStat st i) : ∃ q0 ∈ st, q.1 = q0.1 :=
  modifyA_mem st i _ q h

theorem isSome_of_statsCount_pos (st : List (Nat × Nat)) (i : Nat)
    (h : 1 ≤ statsCount st i) : (lookupA st i).isSome := by
  rw [statsCount] at h
  cases h0 : lookupA st i with
  | none => rw [h0] at h; simp at h
  | some c => rfl

/-! ## Lemmas: last binding of a sorted association list -/

theorem decomposeLast {α : Type} (l : List α) (p : α) (h : l.getLast? = some p) :
    l.dropLast ++ [p] = l := by
  have hne : l ≠ [] := by
    intro he
    rw [he] at h
    simp at h
  have h1 := List.getLast?_eq_getLast l hne
  rw [h1] at h
  injection h with h
  rw [← h]
  exact List.dropLast_concat_getLast hne

theorem sorted_dropLast_lt_last {α : Type} (l : List (Nat × α)) (p q : Nat × α)
    (hs : SortedKeys l) (hl : l.getLast? = some p) (hq : q ∈ l.dropLast) : q.1 < p.1 := by
  have hd := decomposeLast l p hl
  rw [SortedKeys, ← hd, List.pairwise_append] at hs
  exact hs.2.2 q hq p (List.mem_singleton.mpr rfl)

theorem sorted_le_last {α : Type} (l : List (Nat × α)) (p q : Nat × α)
    (hs : SortedKeys l) (hl : l.getLast? = some p) (hq : q ∈ l) : q.1 ≤ p.1 := by
  have hd := decomposeLast l p hl
  rw [← hd] at hq
  rcases List.mem_append.mp hq with h | h
  · exact le_of_lt (sorted_dropLast_lt_last l p q hs hl h)
  · rw [List.mem_singleton.mp h]

theorem mem_dropLast_of_ne_last {α : Type} (l : List (Nat × α)) (p q : Nat × α)
    (hl : l.getLast? = some p) (hq : q ∈ l) (hne : q.1 ≠ p.1) : q ∈ l.dropLast := by
  have hd := decomposeLast l p hl
  rw [← hd] at hq
  rcases List.mem_append.mp hq with h | h
  · exact h
  · rw [List.mem_singleton.mp h] at hne
    exact absurd rfl hne

theorem lookupA_of_mem_sorted {α : Type} (l : List (Nat × α)) (i : Nat) (a : α)
    (hs : SortedKeys l) (h : (i, a) ∈ l) : lookupA l i = some a := by
  induction l with
  | nil => simp at h
  | cons p t ih =>
    obtain ⟨j, b⟩ := p
    rw [SortedKeys, List.pairwise_cons] at hs
    rcases List.mem_cons.mp h with h | h
    · injection h with h1 h2
      rw [← h1, ← h2, lookupA_cons_eq]
    · have : j < i := hs.1 (i, a) h
      rw [lookupA_cons_ne _ _ _ _ (by omega)]
      exact ih hs.2 h

/-! ## Lemmas: the stale-segment query -/

theorem staleIds_mem (st : List (Nat × Nat)) (i : Nat) (h : i ∈ staleIds st) :
    (i, 0) ∈ st.dropLast := by
  rw [staleIds] at h
  obtain ⟨p, hp, he⟩ := List.mem_filterMap.mp h
  by_cases h0 : p.2 = 0
  · rw [if_pos h0] at he
    injection he with he
    have : p = (i, 0) := by
      obtain ⟨a, b⟩ := p
      simp at h0 he
      rw [h0, he]
    exact this ▸ hp
  · rw [if_neg h0] at he
    simp at he

theorem mem_staleIds (st : List (Nat × Nat)) (i : Nat) (h : (i, 0) ∈ st.dropLast) :
    i ∈ staleIds st := by
  rw [staleIds]
  exact List.mem_filterMap.mpr ⟨(i, 0), h, by simp⟩

/-! ## Lemmas: the write path -/

theorem writeAll_append (f : FileM) (data : Bytes) (h : f.pos = f.contents.length) :
    writeAll f data = ⟨f.contents ++ data, f.contents.length + data.length⟩ := by
  rw [writeAll, h]
  congr 1
  rw [List.take_length (l := f.contents), Nat.sub_self, List.replicate_zero,
    List.drop_eq_nil_of_le (by omega)]
  simp


/-! ## Auxiliary lemmas for the engine state -/

theorem lookupA_append_left {α : Type} (l m : List (Nat × α)) (i : Nat) (a : α)
    (h : lookupA l i = some a) : lookupA (l ++ m) i = some a := by
  induction l with
  | nil => simp at h
  | cons p t ih =>
    obtain ⟨j, b⟩ := p
    by_cases h0 : j = i
    · subst h0
      rw [lookupA_cons_eq] at h
      rw [List.cons_append, lookupA_cons_eq]
      exact h
    · rw [lookupA_cons_ne _ _ _ _ h0] at h
      rw [List.cons_append, lookupA_cons_ne _ _ _ _ h0]
      exact ih h

theorem setA_mem {α : Type} (l : List (Nat × α)) (i : Nat) (x : α) (q : Nat × α)
    (h : q ∈ setA l i x) : q ∈ l ∨ q = (i, x) := by
  induction l with
  | nil => simp [setA] at h
  | cons p t ih =>
    obtain ⟨j, b⟩ := p
    by_cases h0 : j = i
    · subst h0
      rw [setA_cons_eq] at h
      rcases List.mem_cons.mp h with h | h
      · exact Or.inr h
      · rcases ih h with h1 | h1
        · exact Or.inl (List.mem_cons_of_mem _ h1)
        · exact Or.inr h1
    · rw [setA_cons_ne _ _ _ _ _ h0] at h
      rcases List.mem_cons.mp h with h | h
      · exact Or.inl (h ▸ List.mem_cons_self _ _)
      · rcases ih h with h1 | h1
        · exact Or.inl (List.mem_cons_of_mem _ h1)
        · exact Or.inr h1

theorem getLast?_some {α : Type} (l : List α) (h : l ≠ []) : ∃ p, l.getLast? = some p :=
  ⟨l.getLast h, List.getLast?_eq_getLast l h⟩

theorem getLast?_mem {α : Type} (l : List α) (p : α) (h : l.getLast? = some p) : p ∈ l := by
  have hd := decomposeLast l p h
  rw [← hd]
  exact List.mem_append_right _ (List.mem_singleton.mpr rfl)

theorem eraseKeys_getLast {α : Type} (l : List (Nat × α)) (ids : List Nat) (p : Nat × α)
    (h : l.getLast? = some p) (hp : p.1 ∉ ids) :
    (eraseKeys l ids).getLast? = some p := by
  have hd := decomposeLast l p h
  rw [← hd, eraseKeys, List.filter_append]
  have h1 : List.filter (fun q => ¬ ids.contains q.1) [p] = [p] := by
    simp [List.filter_cons, List.elem_iff, hp]
  rw [h1]
  simp

/-! ## The main reachable-state invariant -/

/-- The invariant relating an engine state to the abstract mapping `M`.
All conjuncts are maintained by `put` and `remove` starting from a fresh
handle on an empty directory. -/
structure InvA (db : DB) (M : Bytes → Option Bytes) : Prop where
  logsNe : db.log_files ≠ []
  logsSorted : SortedKeys db.log_files
  posLen : ∀ p ∈ db.log_files, p.2.pos = p.2.contents.length
  kdNodup : KeysNodup db.keydir
  noneIff : ∀ k, kdGet db.keydir k = none ↔ M k = none
  entryOk : ∀ k e, kdGet db.keydir k = some e →
    ∃ f, lookupA db.log_files e.file_id = some f ∧
      e.value_pos + e.value_size ≤ f.contents.length ∧
      ∀ v, M k = some v → v.length < U32 →
        e.value_size = v.length ∧ (f.contents.drop e.value_pos).take e.value_size = v
  statsLe : ∀ s, liveCount db.keydir s ≤ statsCount db.stats s
  statsDom : ∀ q ∈ db.stats, q.1 ∈ db.log_files.map Prod.fst
  statsSorted : SortedKeys db.stats

theorem openEmpty_invA (opts : Nat) : InvA (openEmpty opts) (fun _ => none) := by
  refine ⟨?_, ?_, ?_, ?_, ?_, ?_, ?_, ?_, ?_⟩
  · simp [openEmpty]
  · simp [openEmpty, SortedKeys]
  · intro p hp
    simp [openEmpty] at hp
    rw [hp]
    rfl
  · simp [openEmpty, KeysNodup]
  · intro k
    simp [openEmpty]
  · intro k e h
    simp [openEmpty] at h
  · intro s
    simp [openEmpty, statsCount]
  · intro q hq
    simp [openEmpty] at hq
  · simp [openEmpty, SortedKeys]

theorem stale_lookup (st : List (Nat × Nat)) (i : Nat) (hs : SortedKeys st)
    (h : i ∈ staleIds st) : lookupA st i = some 0 := by
  have h1 := staleIds_mem st i h
  have h2 : (i, 0) ∈ st := (List.dropLast_sublist st).subset h1
  exact lookupA_of_mem_sorted st i 0 hs h2

theorem stale_count_pos_not_mem (st : List (Nat × Nat)) (i : Nat) (hs : SortedKeys st)
    (h : 1 ≤ statsCount st i) : i ∉ staleIds st := by
  intro hmem
  have := stale_lookup st i hs hmem
  rw [statsCount, this] at h
  simp at h

/-- The greatest id present in the stats map is at most the active id. -/
theorem stats_last_le_active (db : DB)
    (hlogs : SortedKeys db.log_files)
    (hdom : ∀ q ∈ db.stats, q.1 ∈ db.log_files.map Prod.fst)
    (q : Nat × Nat) (hq : q ∈ db.stats) (p : Nat × FileM)
    (hp : db.log_files.getLast? = some p) : q.1 ≤ p.1 := by
  have h1 := hdom q hq
  obtain ⟨p0, hp0, hfst⟩ := List.mem_map.mp h1
  rw [← hfst]
  exact sorted_le_last db.log_files p p0 hlogs hp hp0

/-- The active id is never selected by the stale query. -/
theorem active_not_stale (db : DB)
    (hlogs : SortedKeys db.log_files) (hst : SortedKeys db.stats)
    (hdom : ∀ q ∈ db.stats, q.1 ∈ db.log_files.map Prod.fst)
    (p : Nat × FileM) (hp : db.log_files.getLast? = some p) :
    p.1 ∉ staleIds db.stats := by
  intro hmem
  have h1 := staleIds_mem db.stats p.1 hmem
  have hne : db.stats ≠ [] := by
    intro he
    rw [he] at h1
    simp at h1
  obtain ⟨q, hq⟩ := getLast?_some db.stats hne
  have h2 : (p.1 : Nat) < q.1 :=
    sorted_dropLast_lt_last db.stats q (p.1, 0) hst hq h1
  have h3 : q.1 ≤ p.1 :=
    stats_last_le_active db hlogs hdom q (getLast?_mem _ _ hq) p hp
  omega

/-- Everything the garbage-collection pass does, stated against `InvA`. -/
theorem gcPass_spec (db : DB) (M : Bytes → Option Bytes) (h : InvA db M) :
    InvA (gcPass db) M ∧
    (gcPass db).keydir = db.keydir ∧
    (gcPass db).max_log_file_size = db.max_log_file_size ∧
    (gcPass db).log_files.getLast? = db.log_files.getLast? ∧
    (∀ j, j ∈ segIds (gcPass db) → j ∈ segIds db) ∧
    (∀ j, 1 ≤ statsCount db.stats j →
      lookupA (gcPass db).log_files j = lookupA db.log_files j ∧
      statsCount (gcPass db).stats j = statsCount db.stats j) := by
  obtain ⟨pa, hpa⟩ := getLast?_some db.log_files h.logsNe
  have hnot := active_not_stale db h.logsSorted h.statsSorted h.statsDom pa hpa
  have hlast : (gcPass db).log_files.getLast? = db.log_files.getLast? := by
    rw [hpa]
    exact eraseKeys_getLast db.log_files _ pa hpa hnot
  have hlook : ∀ j, 1 ≤ statsCount db.stats j →
      lookupA (gcPass db).log_files j = lookupA db.log_files j ∧
      statsCount (gcPass db).stats j = statsCount db.stats j := by
    intro j hj
    have hns : j ∉ staleIds db.stats := stale_count_pos_not_mem db.stats j h.statsSorted hj
    constructor
    · rw [show (gcPass db).log_files = eraseKeys db.log_files (staleIds db.stats) from rfl]
      rw [lookupA_eraseKeys, if_neg hns]
    · rw [show (gcPass db).stats = eraseKeys db.stats (staleIds db.stats) from rfl]
      rw [statsCount, statsCount, lookupA_eraseKeys, if_neg hns]
  refine ⟨⟨?_, ?_, ?_, ?_, ?_, ?_, ?_, ?_, ?_⟩, rfl, rfl, hlast, ?_, hlook⟩
  · intro he
    rw [he] at hlast
    simp at hlast
    have : (none : Option (Nat × FileM)) = some pa := hlast.trans hpa
    simp at this
  · exact eraseKeys_sorted db.log_files _ h.logsSorted
  · intro p hp
    exact h.posLen p (eraseKeys_mem _ _ _ hp).1
  · exact h.kdNodup
  · exact h.noneIff
  · intro k e hk
    obtain ⟨f, hf, hb, hv⟩ := h.entryOk k e hk
    refine ⟨f, ?_, hb, hv⟩
    have hlive : 1 ≤ liveCount db.keydir e.file_id := liveCount_pos db.keydir k e hk
    have hcnt : 1 ≤ statsCount db.stats e.file_id := le_trans hlive (h.statsLe e.file_id)
    rw [(hlook e.file_id hcnt).1]
    exact hf
  · intro s
    by_cases hs : s ∈ staleIds db.stats
    · have h0 := stale_lookup db.stats s h.statsSorted hs
      have : statsCount db.stats s = 0 := by rw [statsCount, h0]; rfl
      have hl : liveCount db.keydir s = 0 := by
        have := h.statsLe s
        omega
      rw [show (gcPass db).keydir = db.keydir from rfl, hl]
      exact Nat.zero_le _
    · rw [show (gcPass db).stats = eraseKeys db.stats (staleIds db.stats) from rfl,
        show (gcPass db).keydir = db.keydir from rfl,
        statsCount, lookupA_eraseKeys, if_neg hs, ← statsCount]
      exact h.statsLe s
  · intro q hq
    have h1 := eraseKeys_mem db.stats _ q hq
    have h2 := h.statsDom q h1.1
    obtain ⟨p0, hp0, hfst⟩ := List.mem_map.mp h2
    refine List.mem_map.mpr ⟨p0, ?_, hfst⟩
    exact mem_eraseKeys db.log_files _ p0 hp0 (by rw [hfst]; exact h1.2)
  · exact eraseKeys_sorted db.stats _ h.statsSorted
  · intro j hj
    rw [segIds] at hj ⊢
    obtain ⟨p0, hp0, hfst⟩ := List.mem_map.mp hj
    exact List.mem_map.mpr ⟨p0, (eraseKeys_mem _ _ _ hp0).1, hfst⟩


theorem activeEntry_getLast (db : DB) (h : db.log_files ≠ []) :
    db.log_files.getLast? = some (activeEntry db) := by
  obtain ⟨p, hp⟩ := getLast?_some db.log_files h
  rw [hp, activeEntry, hp]
  rfl

theorem activeEntry_mem (db : DB) (h : db.log_files ≠ []) :
    activeEntry db ∈ db.log_files :=
  getLast?_mem _ _ (activeEntry_getLast db h)

theorem activeEntry_lookup (db : DB) (M : Bytes → Option Bytes) (h : InvA db M) :
    lookupA db.log_files (activeEntry db).1 = some (activeEntry db).2 :=
  lookupA_of_mem_sorted _ _ _ h.logsSorted (by
    have := activeEntry_mem db h.logsNe
    simpa using this)

theorem setA_eq_modifyA {α : Type} (l : List (Nat × α)) (i : Nat) (a : α) :
    setA l i a = modifyA l i (fun _ => a) := rfl

theorem setA_sorted {α : Type} (l : List (Nat × α)) (i : Nat) (a : α)
    (h : SortedKeys l) : SortedKeys (setA l i a) := by
  rw [setA_eq_modifyA]
  exact sortedKeys_of_modifyA l i _ h

/-- Everything the rotation check does, stated against `InvA`: the
invariant is preserved, keydir and options are untouched, and the active
entry either becomes the fresh segment `active + 1` (when the estimated
record overflows the size limit) or is unchanged (and then no segment id
is added). -/
theorem rotateLog_spec (db : DB) (M : Bytes → Option Bytes) (ks vs : Nat)
    (h : InvA db M) :
    InvA (rotateLog db ks vs) M ∧
    (rotateLog db ks vs).keydir = db.keydir ∧
    (rotateLog db ks vs).max_log_file_size = db.max_log_file_size ∧
    (if db.max_log_file_size < (activeEntry db).2.pos + (ks + vs + HEADER_SIZE)
     then activeEntry (rotateLog db ks vs) = ((activeEntry db).1 + 1, ⟨[], 0⟩)
     else activeEntry (rotateLog db ks vs) = activeEntry db ∧
       (∀ j, j ∈ segIds (rotateLog db ks vs) → j ∈ segIds db)) := by
  by_cases hc : db.max_log_file_size < (activeEntry db).2.pos + (ks + vs + HEADER_SIZE)
  · have hrot : rotateLog db ks vs =
        gcPass { db with
          log_files := insertA db.log_files ((activeEntry db).1 + 1) ⟨[], 0⟩ } := by
      rw [rotateLog]
      simp only [if_pos hc]
    have hall : ∀ p ∈ db.log_files, p.1 < (activeEntry db).1 + 1 := by
      intro p hp
      have := sorted_le_last db.log_files (activeEntry db) p h.logsSorted
        (activeEntry_getLast db h.logsNe) hp
      omega
    have hins : insertA db.log_files ((activeEntry db).1 + 1) (⟨[], 0⟩ : FileM) =
        db.log_files ++ [((activeEntry db).1 + 1, ⟨[], 0⟩)] :=
      insertA_append_of_lt _ _ _ hall
    set db1 : DB :=
      { db with log_files := insertA db.log_files ((activeEntry db).1 + 1) ⟨[], 0⟩ }
      with hdb1
    have h1 : InvA db1 M := by
      refine ⟨?_, ?_, ?_, h.kdNodup, h.noneIff, ?_, h.statsLe, ?_, h.statsSorted⟩
      · show insertA db.log_files _ _ ≠ []
        rw [hins]
        simp
      · exact insertA_sorted _ _ _ h.logsSorted
      · intro p hp
        rw [show db1.log_files = insertA db.log_files ((activeEntry db).1 + 1) ⟨[], 0⟩
          from rfl, hins] at hp
        rcases List.mem_append.mp hp with h2 | h2
        · exact h.posLen p h2
        · rw [List.mem_singleton.mp h2]
          rfl
      · intro k e hk
        obtain ⟨f, hf, hb, hv⟩ := h.entryOk k e hk
        refine ⟨f, ?_, hb, hv⟩
        rw [show db1.log_files = insertA db.log_files ((activeEntry db).1 + 1) ⟨[], 0⟩
          from rfl, hins]
        exact lookupA_append_left _ _ _ _ hf
      · intro q hq
        have h2 := h.statsDom q hq
        rw [show db1.log_files = insertA db.log_files ((activeEntry db).1 + 1) ⟨[], 0⟩
          from rfl, hins, List.map_append]
        exact List.mem_append_left _ h2
    have hlast1 : db1.log_files.getLast? = some ((activeEntry db).1 + 1, ⟨[], 0⟩) := by
      rw [show db1.log_files = insertA db.log_files ((activeEntry db).1 + 1) ⟨[], 0⟩
        from rfl, hins]
      simp
    obtain ⟨hInv, hkd, hmax, hlast, hsub, hcnt⟩ := gcPass_spec db1 M h1
    rw [hrot]
    refine ⟨hInv, hkd, hmax, ?_⟩
    rw [if_pos hc]
    rw [activeEntry, hlast, hlast1]
    rfl
  · have hrot : rotateLog db ks vs = gcPass db := by
      rw [rotateLog]
      simp only [if_neg hc]
    obtain ⟨hInv, hkd, hmax, hlast, hsub, hcnt⟩ := gcPass_spec db M h
    rw [hrot]
    refine ⟨hInv, hkd, hmax, ?_⟩
    rw [if_neg hc]
    refine ⟨?_, hsub⟩
    rw [activeEntry, hlast, ← activeEntry]


theorem handleKeydirPut_none (st : List (Nat × Nat)) (new : Nat) :
    handleKeydirPut st new none = incStat st new := rfl

theorem handleKeydirPut_some_eq (st : List (Nat × Nat)) (new : Nat) :
    handleKeydirPut st new (some new) = st := by
  simp [handleKeydirPut]

theorem handleKeydirPut_some_ne (st : List (Nat × Nat)) (new old : Nat) (h : new ≠ old) :
    handleKeydirPut st new (some old) = decStat (incStat st new) old := by
  simp [handleKeydirPut, h]

theorem putCore_invA (db : DB) (M : Bytes → Option Bytes) (k v : Bytes) (ts : Nat)
    (h : InvA db M) :
    InvA (putCore db k v ts) (fun j => if k = j then some v else M j) := by
  have hmemA := activeEntry_mem db h.logsNe
  have hpos : (activeEntry db).2.pos = (activeEntry db).2.contents.length :=
    h.posLen _ hmemA
  have hlk := activeEntry_lookup db M h
  set data := headerNew ts k.length v.length ++ k ++ v with hdata
  have hf1 : writeAll (activeEntry db).2 data =
      ⟨(activeEntry db).2.contents ++ data,
        (activeEntry db).2.contents.length + data.length⟩ :=
    writeAll_append _ _ hpos
  have hdlen : data.length = 12 + k.length + v.length := by
    rw [hdata]
    simp only [List.length_append, headerNew_length]
  have hvs : v.length % U32 ≤ v.length := Nat.mod_le _ _
  have hpe : putEntry db k v ts =
      ⟨(activeEntry db).1, v.length % U32,
        (activeEntry db).2.contents.length + data.length - v.length % U32, ts % U32⟩ := by
    rw [putEntry, ← hdata, hf1]
  have hamem : (activeEntry db).1 ∈ db.log_files.map Prod.fst :=
    List.mem_map.mpr ⟨activeEntry db, hmemA, rfl⟩
  refine ⟨?_, ?_, ?_, ?_, ?_, ?_, ?_, ?_, ?_⟩
  · -- logsNe
    intro he
    apply h.logsNe
    apply List.eq_nil_of_length_eq_zero
    have h2 := congrArg List.length he
    rw [show (putCore db k v ts).log_files =
        setA db.log_files (activeEntry db).1 (writeAll (activeEntry db).2
          (headerNew ts k.length v.length ++ k ++ v)) from rfl] at h2
    simpa [setA] using h2
  · -- logsSorted
    exact setA_sorted _ _ _ h.logsSorted
  · -- posLen
    intro p hp
    rcases setA_mem _ _ _ _ hp with h1 | h1
    · exact h.posLen p h1
    · rw [h1]
      show (writeAll (activeEntry db).2 data).pos = _
      rw [hf1]
      dsimp only
      simp only [List.length_append, headerNew_length]
  · -- kdNodup
    exact kdPut_nodup _ _ _ h.kdNodup
  · -- noneIff
    intro j
    by_cases hj : k = j
    · subst hj
      show kdGet (kdPut db.keydir k (putEntry db k v ts)).1 k = none ↔ _
      rw [kdPut_get_self]
      simp
    · show kdGet (kdPut db.keydir k (putEntry db k v ts)).1 j = none ↔ _
      rw [kdPut_get_other db.keydir k j _ (Ne.symm hj), if_neg hj]
      exact h.noneIff j
  · -- entryOk
    intro k0 e0 hk0
    show ∃ f, lookupA (setA db.log_files (activeEntry db).1
        (writeAll (activeEntry db).2 data)) e0.file_id = some f ∧ _
    by_cases hkk : k = k0
    · subst hkk
      rw [show kdGet (putCore db k v ts).keydir k =
          kdGet (kdPut db.keydir k (putEntry db k v ts)).1 k from rfl,
        kdPut_get_self] at hk0
      injection hk0 with hk0
      subst hk0
      refine ⟨writeAll (activeEntry db).2 data, ?_, ?_, ?_⟩
      · rw [show (putEntry db k v ts).file_id = (activeEntry db).1 by rw [hpe],
          lookupA_setA_self, hlk]
        rfl
      · rw [hpe, hf1]
        dsimp only
        simp only [List.length_append, headerNew_length]
        omega
      · intro v0 hm0 hlen0
        rw [if_pos rfl] at hm0
        injection hm0 with hm0
        subst hm0
        have hmod : v.length % U32 = v.length := Nat.mod_eq_of_lt hlen0
        constructor
        · rw [hpe]
          exact hmod
        · rw [hpe, hf1]
          dsimp only
          rw [hmod]
          have hsplit : (activeEntry db).2.contents ++ data =
              ((activeEntry db).2.contents ++ headerNew ts k.length v.length ++ k) ++ v := by
            rw [hdata]
            simp [List.append_assoc]
          rw [hsplit]
          have hlen2 : (activeEntry db).2.contents.length + data.length - v.length =
              ((activeEntry db).2.contents ++ headerNew ts k.length v.length ++ k).length := by
            simp only [List.length_append, headerNew_length, hdlen]
            omega
          rw [hlen2, List.drop_left]
          exact List.take_length (l := v)
    · rw [show kdGet (putCore db k v ts).keydir k0 =
          kdGet (kdPut db.keydir k (putEntry db k v ts)).1 k0 from rfl,
        kdPut_get_other db.keydir k k0 _ (Ne.symm hkk)] at hk0
      obtain ⟨f0, hf0, hb0, hv0⟩ := h.entryOk k0 e0 hk0
      by_cases hfid : e0.file_id = (activeEntry db).1
      · have hf0A : f0 = (activeEntry db).2 := by
          rw [hfid, hlk] at hf0
          injection hf0 with hf0
          exact hf0.symm
        rw [hf0A] at hb0
        refine ⟨writeAll (activeEntry db).2 data, ?_, ?_, ?_⟩
        · rw [hfid, lookupA_setA_self, hlk]
          rfl
        · rw [hf1]
          dsimp only
          simp only [List.length_append, headerNew_length]
          omega
        · intro v0 hm0 hlen0
          rw [if_neg hkk] at hm0
          obtain ⟨hsz, hsl⟩ := hv0 v0 hm0 hlen0
          refine ⟨hsz, ?_⟩
          rw [hf1]
          dsimp only
          rw [slice_append _ _ _ _ (by omega)]
          rw [hf0A] at hsl
          exact hsl
      · refine ⟨f0, ?_, hb0, ?_⟩
        · rw [lookupA_setA_other _ _ _ _ hfid]
          exact hf0
        · intro v0 hm0 hlen0
          rw [if_neg hkk] at hm0
          exact hv0 v0 hm0 hlen0
  · -- statsLe
    intro s
    show liveCount (kdPut db.keydir k (putEntry db k v ts)).1 s ≤
      statsCount (handleKeydirPut db.stats (activeEntry db).1
        (((kdPut db.keydir k (putEntry db k v ts)).2).map (fun e0 => e0.file_id))) s
    rw [kdPut_snd]
    have hple : (putEntry db k v ts).file_id = (activeEntry db).1 := by rw [hpe]
    cases hold : kdGet db.keydir k with
    | none =>
      rw [show (none : Option KeydirEntry).map (fun e0 => e0.file_id) = none from rfl,
        handleKeydirPut_none, liveCount_kdPut_none db.keydir k _ s hold, hple]
      by_cases hs : (activeEntry db).1 = s
      · subst hs
        rw [if_pos rfl, statsCount_incStat_self]
        have := h.statsLe (activeEntry db).1
        omega
      · rw [if_neg hs, statsCount_incStat_other _ _ _ (Ne.symm hs)]
        have := h.statsLe s
        omega
    | some e1 =>
      rw [show (some e1).map (fun e0 => e0.file_id) = some e1.file_id from rfl]
      have heq := liveCount_kdPut_some db.keydir k (putEntry db k v ts) e1 s hold
      rw [hple] at heq
      by_cases hao : (activeEntry db).1 = e1.file_id
      · rw [← hao, handleKeydirPut_some_eq]
        rw [← hao] at heq
        have := h.statsLe s
        omega
      · rw [handleKeydirPut_some_ne _ _ _ hao]
        have hl1 : 1 ≤ liveCount db.keydir e1.file_id := liveCount_pos db.keydir k e1 hold
        have hsle1 := h.statsLe e1.file_id
        by_cases hs1 : s = e1.file_id
        · subst hs1
          rw [if_pos rfl, if_neg hao] at heq
          rw [statsCount_decStat_self,
            statsCount_incStat_other _ _ _ (fun hh => hao hh.symm)]
          omega
        · rw [if_neg (fun hh => hs1 hh.symm)] at heq
          rw [statsCount_decStat_other _ _ _ hs1]
          by_cases hsa : (activeEntry db).1 = s
          · subst hsa
            rw [if_pos rfl] at heq
            rw [statsCount_incStat_self]
            have := h.statsLe (activeEntry db).1
            omega
          · rw [if_neg hsa] at heq
            rw [statsCount_incStat_other _ _ _ (Ne.symm hsa)]
            have := h.statsLe s
            omega
  · -- statsDom
    intro q hq
    show q.1 ∈ (setA db.log_files (activeEntry db).1 _).map Prod.fst
    rw [setA_keys]
    revert hq
    show q ∈ handleKeydirPut db.stats (activeEntry db).1
        (((kdPut db.keydir k (putEntry db k v ts)).2).map (fun e0 => e0.file_id)) →
      q.1 ∈ db.log_files.map Prod.fst
    cases hold : ((kdPut db.keydir k (putEntry db k v ts)).2).map (fun e0 => e0.file_id) with
    | none =>
      rw [handleKeydirPut_none]
      intro hq
      rcases incStat_mem _ _ _ hq with h1 | ⟨q0, hq0, h1⟩
      · rw [h1]
        exact hamem
      · rw [h1]
        exact h.statsDom q0 hq0
    | some o =>
      by_cases hao : (activeEntry db).1 = o
      · rw [← hao, handleKeydirPut_some_eq]
        intro hq
        exact h.statsDom q hq
      · rw [handleKeydirPut_some_ne _ _ _ hao]
        intro hq
        rcases decStat_mem _ _ _ hq with ⟨q1, hq1, he1⟩
        rcases incStat_mem _ _ _ hq1 with h1 | ⟨q0, hq0, h1⟩
        · rw [he1, h1]
          exact hamem
        · rw [he1, h1]
          exact h.statsDom q0 hq0
  · -- statsSorted
    show SortedKeys (handleKeydirPut db.stats (activeEntry db).1
        (((kdPut db.keydir k (putEntry db k v ts)).2).map (fun e0 => e0.file_id)))
    cases hold : ((kdPut db.keydir k (putEntry db k v ts)).2).map (fun e0 => e0.file_id) with
    | none =>
      rw [handleKeydirPut_none]
      exact incStat_sorted _ _ h.statsSorted
    | some o =>
      by_cases hao : (activeEntry db).1 = o
      · rw [← hao, handleKeydirPut_some_eq]
        exact h.statsSorted
      · rw [handleKeydirPut_some_ne _ _ _ hao]
        exact decStat_sorted _ _ (incStat_sorted _ _ h.statsSorted)

theorem put_invA (db : DB) (M : Bytes → Option Bytes) (k v : Bytes) (ts : Nat)
    (h : InvA db M) :
    InvA (put db k v ts) (fun j => if k = j then some v else M j) := by
  obtain ⟨h1, _, _, _⟩ := rotateLog_spec db M k.length v.length h
  exact putCore_invA _ M k v ts h1


theorem remove_invA (db : DB) (M : Bytes → Option Bytes) (k : Bytes) (ts : Nat)
    (h : InvA db M) :
    InvA (remove db k ts) (fun j => if k = j then none else M j) := by
  by_cases hp : (kdGet db.keydir k).isSome
  · have hstep : remove db k ts =
        { put db k [] ts with keydir := kdRemove (put db k [] ts).keydir k } := by
      simp only [remove, hp, if_true]
    have h1 := put_invA db M k [] ts h
    have hsome : ∃ e1, kdGet (put db k [] ts).keydir k = some e1 := by
      cases hg : kdGet (put db k [] ts).keydir k with
      | none =>
        have := (h1.noneIff k).mp hg
        simp at this
      | some e1 => exact ⟨e1, rfl⟩
    obtain ⟨e1, he1⟩ := hsome
    rw [hstep]
    refine ⟨h1.logsNe, h1.logsSorted, h1.posLen, ?_, ?_, ?_, ?_, h1.statsDom,
      h1.statsSorted⟩
    · exact kdRemove_nodup _ _ h1.kdNodup
    · intro j
      by_cases hj : k = j
      · subst hj
        rw [show ({ put db k [] ts with
            keydir := kdRemove (put db k [] ts).keydir k } : DB).keydir =
          kdRemove (put db k [] ts).keydir k from rfl, kdRemove_get_self]
        simp
      · rw [show ({ put db k [] ts with
            keydir := kdRemove (put db k [] ts).keydir k } : DB).keydir =
          kdRemove (put db k [] ts).keydir k from rfl,
          kdRemove_get_other _ _ _ (Ne.symm hj), if_neg hj]
        have := h1.noneIff j
        rw [if_neg hj] at this
        exact this
    · intro k0 e0 hk0
      rw [show ({ put db k [] ts with
          keydir := kdRemove (put db k [] ts).keydir k } : DB).keydir =
        kdRemove (put db k [] ts).keydir k from rfl] at hk0
      by_cases hkk : k = k0
      · subst hkk
        rw [kdRemove_get_self] at hk0
        simp at hk0
      · rw [kdRemove_get_other _ _ _ (Ne.symm hkk)] at hk0
        obtain ⟨f, hf, hb, hv⟩ := h1.entryOk k0 e0 hk0
        refine ⟨f, hf, hb, ?_⟩
        intro v0 hm0 hlen0
        rw [if_neg hkk] at hm0
        exact hv v0 (by rw [if_neg hkk]; exact hm0) hlen0
    · intro s
      have heq := liveCount_kdRemove_some (put db k [] ts).keydir k e1 s h1.kdNodup he1
      have := h1.statsLe s
      rw [show ({ put db k [] ts with
          keydir := kdRemove (put db k [] ts).keydir k } : DB).keydir =
        kdRemove (put db k [] ts).keydir k from rfl]
      rw [show ({ put db k [] ts with
          keydir := kdRemove (put db k [] ts).keydir k } : DB).stats =
        (put db k [] ts).stats from rfl]
      omega
  · have hnone : kdGet db.keydir k = none := by
      cases hg : kdGet db.keydir k with
      | none => rfl
      | some e1 =>
        rw [hg] at hp
        simp at hp
    have hstep : remove db k ts = { db with keydir := kdRemove db.keydir k } := by
      simp only [remove, hp, if_false]
      simp [hp]
    rw [hstep, kdRemove_of_none db.keydir k hnone]
    refine ⟨h.logsNe, h.logsSorted, h.posLen, h.kdNodup, ?_, ?_, h.statsLe, h.statsDom,
      h.statsSorted⟩
    · intro j
      by_cases hj : k = j
      · subst hj
        simp [hnone]
      · rw [if_neg hj]
        exact h.noneIff j
    · intro k0 e0 hk0
      by_cases hkk : k = k0
      · subst hkk
        rw [show ({ db with keydir := db.keydir } : DB).keydir = db.keydir from rfl,
          hnone] at hk0
        simp at hk0
      · obtain ⟨f, hf, hb, hv⟩ := h.entryOk k0 e0 hk0
        refine ⟨f, hf, hb, ?_⟩
        intro v0 hm0 hlen0
        rw [if_neg hkk] at hm0
        exact hv v0 hm0 hlen0

theorem applyOp_invA (db : DB) (M : Bytes → Option Bytes) (op : Op) (h : InvA db M) :
    InvA (applyOp db op) (fun k => stepK k (M k) op) := by
  cases op with
  | put k2 v2 ts2 => exact put_invA db M k2 v2 ts2 h
  | remove k2 ts2 => exact remove_invA db M k2 ts2 h

theorem foldl_invA (ops : List Op) (db : DB) (M : Bytes → Option Bytes)
    (h : InvA db M) :
    InvA (ops.foldl applyOp db) (fun k => ops.foldl (stepK k) (M k)) := by
  induction ops generalizing db M with
  | nil => exact h
  | cons op rest ih =>
    simp only [List.foldl_cons]
    exact ih (applyOp db op) (fun k => stepK k (M k) op) (applyOp_invA db M op h)

/-- Every reachable state of a fresh handle satisfies the invariant
against the abstract last-write-wins mapping. -/
theorem run_invA (opts : Nat) (ops : List Op) : InvA (run opts ops) (specLast ops) :=
  foldl_invA ops (openEmpty opts) (fun _ => none) (openEmpty_invA opts)

/-! ## Reading through the invariant -/

theorem get_some_of_invA (db : DB) (M : Bytes → Option Bytes) (k v : Bytes)
    (h : InvA db M) (hm : M k = some v) (hlen : v.length < U32) :
    get db k = .ok (some v) := by
  cases hg : kdGet db.keydir k with
  | none =>
    have := (h.noneIff k).mp hg
    rw [hm] at this
    simp at this
  | some e =>
    obtain ⟨f, hf, hb, hv⟩ := h.entryOk k e hg
    obtain ⟨hsz, hsl⟩ := hv v hm hlen
    simp only [get, hg, hf]
    rw [if_pos (Or.inr hb), hsl]

theorem get_none_of_invA (db : DB) (M : Bytes → Option Bytes) (k : Bytes)
    (h : InvA db M) (hm : M k = none) : get db k = .ok none := by
  have hg : kdGet db.keydir k = none := (h.noneIff k).mpr hm
  simp only [get, hg]

/-! ## Computing the abstract mapping -/

theorem specLast_append (l r : List Op) (k : Bytes) :
    specLast (l ++ r) k = r.foldl (stepK k) (specLast l k) := by
  rw [specLast, specLast, List.foldl_append]

theorem foldl_stepK_untouched (r : List Op) (k : Bytes) (m : Option Bytes)
    (h : ∀ op ∈ r, ¬ touches op k) : r.foldl (stepK k) m = m := by
  induction r generalizing m with
  | nil => rfl
  | cons op rest ih =>
    rw [List.foldl_cons]
    have hstep : stepK k m op = m := by
      cases op with
      | put k2 v2 ts2 =>
        have := h _ (List.mem_cons_self _ _)
        rw [touches] at this
        simp [stepK, this]
      | remove k2 ts2 =>
        have := h _ (List.mem_cons_self _ _)
        rw [touches] at this
        simp [stepK, this]
    rw [hstep]
    exact ih m (fun op2 hop2 => h op2 (List.mem_cons_of_mem _ hop2))

theorem foldl_stepK_no_put (r : List Op) (k : Bytes)
    (h : ∀ op ∈ r, ∀ v2 ts2, op ≠ Op.put k v2 ts2) :
    r.foldl (stepK k) none = none := by
  induction r with
  | nil => rfl
  | cons op rest ih =>
    rw [List.foldl_cons]
    have hstep : stepK k none op = none := by
      cases op with
      | put k2 v2 ts2 =>
        have hne : ¬ k2 = k := by
          intro he
          exact h _ (List.mem_cons_self _ _) v2 ts2 (by rw [he])
        simp [stepK, hne]
      | remove k2 ts2 =>
        by_cases he : k2 = k <;> simp [stepK, he]
    rw [hstep]
    exact ih (fun op2 hop2 => h op2 (List.mem_cons_of_mem _ hop2))

theorem specLast_last_put (l r : List Op) (k v : Bytes) (ts : Nat)
    (h : ∀ op ∈ r, ¬ touches op k) :
    specLast (l ++ Op.put k v ts :: r) k = some v := by
  rw [show l ++ Op.put k v ts :: r = (l ++ [Op.put k v ts]) ++ r by simp,
    specLast_append, foldl_stepK_untouched r k _ h, specLast_append]
  simp [stepK]

theorem specLast_last_remove (l r : List Op) (k : Bytes) (ts : Nat)
    (h : ∀ op ∈ r, ∀ v2 ts2, op ≠ Op.put k v2 ts2) :
    specLast (l ++ Op.remove k ts :: r) k = none := by
  rw [show l ++ Op.remove k ts :: r = (l ++ [Op.remove k ts]) ++ r by simp,
    specLast_append]
  have hmid : specLast (l ++ [Op.remove k ts]) k = none := by
    rw [specLast_append]
    simp [stepK]
  rw [hmid]
  exact foldl_stepK_no_put r k h


/-! ## Rotation behaviour of the write path -/

theorem lookupA_mem {α : Type} (l : List (Nat × α)) (i : Nat) (a : α)
    (h : lookupA l i = some a) : (i, a) ∈ l := by
  induction l with
  | nil => simp at h
  | cons p t ih =>
    obtain ⟨j, b⟩ := p
    by_cases h0 : j = i
    · subst h0
      rw [lookupA_cons_eq] at h
      injection h with h
      exact h ▸ List.mem_cons_self _ _
    · rw [lookupA_cons_ne _ _ _ _ h0] at h
      exact List.mem_cons_of_mem _ (ih h)

theorem lookupA_none_of_not_mem {α : Type} (l : List (Nat × α)) (i : Nat)
    (h : ∀ q ∈ l, q.1 ≠ i) : lookupA l i = none := by
  cases hg : lookupA l i with
  | none => rfl
  | some a => exact absurd rfl (h (i, a) (lookupA_mem l i a hg))

theorem segIds_putCore (db : DB) (k v : Bytes) (ts : Nat) :
    segIds (putCore db k v ts) = segIds db := by
  rw [segIds, segIds, show (putCore db k v ts).log_files = setA db.log_files
    (activeEntry db).1 (writeAll (activeEntry db).2
      (headerNew ts k.length v.length ++ k ++ v)) from rfl, setA_keys]

theorem activeId_setA (l : List (Nat × FileM)) (i : Nat) (x : FileM) :
    ((setA l i x).getLast?.getD (0, ⟨[], 0⟩)).1 = (l.getLast?.getD (0, ⟨[], 0⟩)).1 := by
  rw [setA, List.getLast?_map]
  cases l.getLast? with
  | none => rfl
  | some p =>
    by_cases h : p.1 = i <;> simp [h]

theorem activeId_putCore (db : DB) (k v : Bytes) (ts : Nat) :
    activeId (putCore db k v ts) = activeId db := by
  rw [activeId, activeId, activeEntry, activeEntry,
    show (putCore db k v ts).log_files = setA db.log_files
      (activeEntry db).1 (writeAll (activeEntry db).2
        (headerNew ts k.length v.length ++ k ++ v)) from rfl]
  exact activeId_setA _ _ _

theorem activeId_mem_segIds (db : DB) (h : db.log_files ≠ []) :
    activeId db ∈ segIds db :=
  List.mem_map.mpr ⟨activeEntry db, activeEntry_mem db h, rfl⟩

/-- Rotation behaviour of `put`, stated on the engine state: when the
size check fires, the active segment id advances by exactly one and the
new segment is in the segment set; otherwise the active id is unchanged
and no segment id appears that was not already present. -/
theorem put_rotation (db : DB) (M : Bytes → Option Bytes) (k v : Bytes) (ts : Nat)
    (h : InvA db M) :
    (if db.max_log_file_size < (activeEntry db).2.pos + (k.length + v.length + HEADER_SIZE)
     then activeId (put db k v ts) = activeId db + 1 ∧
          activeId (put db k v ts) ∈ segIds (put db k v ts)
     else activeId (put db k v ts) = activeId db ∧
          (∀ j, j ∈ segIds (put db k v ts) → j ∈ segIds db)) := by
  obtain ⟨h1, hkd, hmax, hrot⟩ := rotateLog_spec db M k.length v.length h
  have hmemP : activeId (put db k v ts) ∈ segIds (put db k v ts) := by
    apply activeId_mem_segIds
    exact (putCore_invA _ M k v ts h1).logsNe
  by_cases hc : db.max_log_file_size <
      (activeEntry db).2.pos + (k.length + v.length + HEADER_SIZE)
  · rw [if_pos hc]
    rw [if_pos hc] at hrot
    refine ⟨?_, hmemP⟩
    rw [show put db k v ts = putCore (rotateLog db k.length v.length) k v ts from rfl,
      activeId_putCore, activeId, hrot]
    rfl
  · rw [if_neg hc]
    rw [if_neg hc] at hrot
    constructor
    · rw [show put db k v ts = putCore (rotateLog db k.length v.length) k v ts from rfl,
        activeId_putCore, activeId, hrot.1]
      rfl
    · intro j hj
      rw [show put db k v ts = putCore (rotateLog db k.length v.length) k v ts from rfl,
        segIds_putCore] at hj
      exact hrot.2 j hj

theorem put_active_mono (db : DB) (M : Bytes → Option Bytes) (k v : Bytes) (ts : Nat)
    (h : InvA db M) : activeId db ≤ activeId (put db k v ts) := by
  have := put_rotation db M k v ts h
  by_cases hc : db.max_log_file_size <
      (activeEntry db).2.pos + (k.length + v.length + HEADER_SIZE)
  · rw [if_pos hc] at this
    omega
  · rw [if_neg hc] at this
    omega

theorem applyOp_active_mono (db : DB) (M : Bytes → Option Bytes) (op : Op)
    (h : InvA db M) : activeId db ≤ activeId (applyOp db op) := by
  cases op with
  | put k2 v2 ts2 => exact put_active_mono db M k2 v2 ts2 h
  | remove k2 ts2 =>
    by_cases hp : (kdGet db.keydir k2).isSome
    · have hstep : remove db k2 ts2 =
          { put db k2 [] ts2 with keydir := kdRemove (put db k2 [] ts2).keydir k2 } := by
        simp only [remove, hp, if_true]
      have : activeId (applyOp db (Op.remove k2 ts2)) = activeId (put db k2 [] ts2) := by
        rw [show applyOp db (Op.remove k2 ts2) = remove db k2 ts2 from rfl, hstep]
        rfl
      rw [this]
      exact put_active_mono db M k2 [] ts2 h
    · have hstep : remove db k2 ts2 = { db with keydir := kdRemove db.keydir k2 } := by
        simp [remove, hp]
      rw [show applyOp db (Op.remove k2 ts2) = remove db k2 ts2 from rfl, hstep]
      exact Nat.le_refl _

/-- After a rotation, the fresh segment id has no stats binding: the
rotation check does not register the new segment in stats (it only
enters stats when the first record lands in it). -/
theorem rotateLog_new_id_not_in_stats (db : DB) (M : Bytes → Option Bytes)
    (ks vs : Nat) (h : InvA db M)
    (hc : db.max_log_file_size < (activeEntry db).2.pos + (ks + vs + HEADER_SIZE)) :
    lookupA (rotateLog db ks vs).stats ((activeEntry db).1 + 1) = none := by
  have hnone : lookupA db.stats ((activeEntry db).1 + 1) = none := by
    apply lookupA_none_of_not_mem
    intro q hq
    have h1 := h.statsDom q hq
    obtain ⟨p0, hp0, hfst⟩ := List.mem_map.mp h1
    have h2 : p0.1 ≤ (activeEntry db).1 :=
      sorted_le_last db.log_files (activeEntry db) p0 h.logsSorted
        (activeEntry_getLast db h.logsNe) hp0
    omega
  have hrw : rotateLog db ks vs =
      gcPass { db with
        log_files := insertA db.log_files ((activeEntry db).1 + 1) ⟨[], 0⟩ } := by
    rw [rotateLog]
    simp only [if_pos hc]
  rw [hrw]
  rw [show (gcPass { db with
      log_files := insertA db.log_files ((activeEntry db).1 + 1) ⟨[], 0⟩ }).stats =
    eraseKeys db.stats (staleIds db.stats) from rfl]
  rw [lookupA_eraseKeys]
  by_cases hm : (activeEntry db).1 + 1 ∈ staleIds db.stats
  · rw [if_pos hm]
  · rw [if_neg hm]
    exact hnone

/-! ## Recovery: stats built at open time -/

theorem ingestLoop_succ (file_id : Nat) (contents : Bytes) (fuel pos : Nat)
    (buf : Bytes) (kd : Keydir) :
    ingestLoop file_id contents (fuel + 1) pos buf kd =
      (if min HEADER_SIZE (contents.length - pos) = 0 then .ok (kd, pos)
       else
        (fun n buf1 =>
          if pos + n + keySizeOf buf1 ≤ contents.length then
            ingestLoop file_id contents fuel
              (pos + n + keySizeOf buf1 + valueSizeOf buf1) buf1
              (if 0 < valueSizeOf buf1 then
                (kdPut kd ((contents.drop (pos + n)).take (keySizeOf buf1))
                  ⟨file_id, valueSizeOf buf1, pos + n + keySizeOf buf1,
                    timestampOf buf1⟩).1
               else kdRemove kd ((contents.drop (pos + n)).take (keySizeOf buf1)))
          else .error .ioError)
          (min HEADER_SIZE (contents.length - pos))
          (((contents.drop pos).take (min HEADER_SIZE (contents.length - pos)))
            ++ buf.drop (min HEADER_SIZE (contents.length - pos)))) := rfl

theorem mem_fst_lookup_isSome {α : Type} (l : List (Nat × α)) (i : Nat)
    (h : i ∈ l.map Prod.fst) : (lookupA l i).isSome := by
  induction l with
  | nil => simp at h
  | cons p t ih =>
    obtain ⟨j, b⟩ := p
    by_cases h0 : j = i
    · subst h0
      rw [lookupA_cons_eq]
      rfl
    · rw [lookupA_cons_ne _ _ _ _ h0]
      rcases List.mem_map.mp h with ⟨q, hq, hfst⟩
      rcases List.mem_cons.mp hq with h1 | h1
      · rw [h1] at hfst
        exact absurd hfst h0
      · exact ih (List.mem_map.mpr ⟨q, h1, hfst⟩)

theorem ingestLoop_fids (file_id : Nat) (contents : Bytes) (P : Nat → Prop)
    (hf : P file_id) :
    ∀ fuel pos buf kd kd2 pos2, (∀ p ∈ kd, P p.2.file_id) →
      ingestLoop file_id contents fuel pos buf kd = .ok (kd2, pos2) →
      ∀ p ∈ kd2, P p.2.file_id := by
  intro fuel
  induction fuel with
  | zero =>
    intro pos buf kd kd2 pos2 hkd h
    rw [show ingestLoop file_id contents 0 pos buf kd = .error .ioError from rfl] at h
    simp at h
  | succ fuel ih =>
    intro pos buf kd kd2 pos2 hkd h
    rw [ingestLoop_succ] at h
    by_cases hn : min HEADER_SIZE (contents.length - pos) = 0
    · rw [if_pos hn] at h
      simp at h
      rw [← h.1]
      exact hkd
    · rw [if_neg hn] at h
      simp only [] at h
      by_cases hk : pos + min HEADER_SIZE (contents.length - pos) +
          keySizeOf (((contents.drop pos).take (min HEADER_SIZE (contents.length - pos)))
            ++ buf.drop (min HEADER_SIZE (contents.length - pos))) ≤ contents.length
      · rw [if_pos hk] at h
        refine ih _ _ _ kd2 pos2 ?_ h
        by_cases hv : 0 < valueSizeOf
            (((contents.drop pos).take (min HEADER_SIZE (contents.length - pos)))
              ++ buf.drop (min HEADER_SIZE (contents.length - pos)))
        · rw [if_pos hv]
          intro p hp
          rcases kdPut_mem _ _ _ p hp with h1 | h1
          · rw [h1]
            exact hf
          · exact hkd p h1
        · rw [if_neg hv]
          intro p hp
          exact hkd p (List.mem_of_mem_filter hp)
      · rw [if_neg hk] at h
        simp at h

theorem ingestAll_spec (dir : Dir) :
    ∀ kd st kd2 files st2,
      ingestAll dir kd st = .ok (kd2, files, st2) →
      files.map Prod.fst = dir.map Prod.fst ∧
      st2 = dir.foldl (fun s p => newLogEntry s p.1) st ∧
      (∀ P : Nat → Prop, (∀ p ∈ kd, P p.2.file_id) → (∀ q ∈ dir, P q.1) →
        ∀ p ∈ kd2, P p.2.file_id) ∧
      List.Forall₂ (fun (d : Nat × Bytes) (f : Nat × FileM) =>
        f.1 = d.1 ∧ f.2.contents = d.2) dir files := by
  induction dir with
  | nil =>
    intro kd st kd2 files st2 h
    rw [show ingestAll [] kd st = .ok (kd, [], st) from rfl] at h
    simp at h
    obtain ⟨h1, h2, h3⟩ := h
    subst h1; subst h2; subst h3
    exact ⟨rfl, rfl, fun P hkd _ => hkd, List.Forall₂.nil⟩
  | cons d rest ih =>
    intro kd st kd2 files st2 h
    obtain ⟨i, c⟩ := d
    rw [show ingestAll ((i, c) :: rest) kd st =
      (match ingestLog i c kd with
       | .error e => .error e
       | .ok (kd1, pos) =>
         match ingestAll rest kd1 (newLogEntry st i) with
         | .error e => .error e
         | .ok (kd3, files3, st3) => .ok (kd3, (i, ⟨c, pos⟩) :: files3, st3)) from rfl] at h
    cases hlog : ingestLog i c kd with
    | error e => rw [hlog] at h; simp at h
    | ok r =>
      obtain ⟨kd1, pos⟩ := r
      rw [hlog] at h
      dsimp only at h
      cases hrest : ingestAll rest kd1 (newLogEntry st i) with
      | error e => rw [hrest] at h; simp at h
      | ok r2 =>
        obtain ⟨kd3, files3, st3⟩ := r2
        rw [hrest] at h
        dsimp only at h
        injection h with h
        simp only [Prod.mk.injEq] at h
        obtain ⟨ha, hb, hc⟩ := h
        subst ha
        subst hc
        rw [← hb]
        obtain ⟨h1, h2, h3, h4⟩ := ih kd1 (newLogEntry st i) kd3 files3 st3 hrest
        refine ⟨?_, ?_, ?_, ?_⟩
        · simp [h1]
        · rw [List.foldl_cons]
          exact h2
        · intro P hkd hdir
          refine h3 P ?_ (fun q hq => hdir q (List.mem_cons_of_mem _ hq))
          intro p hp
          exact ingestLoop_fids i c P (hdir (i, c) (List.mem_cons_self _ _)) _ _ _ _ _ _
            hkd hlog p hp
        · exact List.Forall₂.cons ⟨rfl, rfl⟩ h4

theorem foldNew_append (dir : Dir) :
    ∀ st : List (Nat × Nat), SortedKeys dir →
      (∀ p ∈ dir, ∀ q ∈ st, q.1 < p.1) →
      dir.foldl (fun s p => newLogEntry s p.1) st = st ++ dir.map (fun p => (p.1, 0)) := by
  induction dir with
  | nil => intro st _ _; simp
  | cons d rest ih =>
    intro st hd hlt
    rw [List.foldl_cons]
    have hlook : lookupA st d.1 = none := by
      apply lookupA_none_of_not_mem
      intro q hq
      have := hlt d (List.mem_cons_self _ _) q hq
      omega
    have hnew : newLogEntry st d.1 = st ++ [(d.1, 0)] := by
      rw [newLogEntry, hlook]
      simp only [Option.isSome_none, Bool.false_eq_true, if_false]
      apply insertA_append_of_lt
      intro q hq
      exact hlt d (List.mem_cons_self _ _) q hq
    rw [hnew]
    rw [SortedKeys, List.pairwise_cons] at hd
    rw [ih (st ++ [(d.1, 0)]) hd.2 ?_]
    · simp
    · intro p hp q hq
      rcases List.mem_append.mp hq with h1 | h1
      · have h2 := hlt p (List.mem_cons_of_mem _ hp) q h1
        omega
      · rw [List.mem_singleton.mp h1]
        exact hd.1 p hp

theorem lookupA_mapZero (dir : Dir) (i : Nat) :
    lookupA (dir.map (fun p => (p.1, (0 : Nat)))) i =
      if i ∈ dir.map Prod.fst then some 0 else none := by
  induction dir with
  | nil => simp
  | cons d rest ih =>
    by_cases h0 : d.1 = i
    · subst h0
      rw [List.map_cons, lookupA_cons_eq]
      simp
    · rw [List.map_cons, lookupA_cons_ne _ _ _ _ h0, ih]
      by_cases hm : i ∈ rest.map Prod.fst
      · simp [hm]
      · rw [if_neg hm, if_neg ?_]
        intro hc
        rw [List.map_cons, List.mem_cons] at hc
        rcases hc with h1 | h1
        · exact h0 h1.symm
        · exact hm h1

theorem statsCount_mapZero (dir : Dir) (i : Nat) :
    statsCount (dir.map (fun p => (p.1, (0 : Nat)))) i = 0 := by
  rw [statsCount, lookupA_mapZero]
  by_cases hm : i ∈ dir.map Prod.fst <;> simp [hm]

theorem sortedKeys_iff {α : Type} (l : List (Nat × α)) :
    SortedKeys l ↔ List.Pairwise (· < ·) (l.map Prod.fst) := by
  rw [SortedKeys, List.pairwise_map]

theorem sortedKeys_of_map_fst_eq {α β : Type} (l1 : List (Nat × α)) (l2 : List (Nat × β))
    (h : l1.map Prod.fst = l2.map Prod.fst) (hs : SortedKeys l2) : SortedKeys l1 := by
  rw [sortedKeys_iff, h, ← sortedKeys_iff]
  exact hs

theorem foldInc_count (kd : Keydir) :
    ∀ st0 : List (Nat × Nat), ∀ s : Nat,
      statsCount (kd.foldl (fun st p => incStat st p.2.file_id) st0) s =
        statsCount st0 s + liveCount kd s := by
  induction kd with
  | nil => intro st0 s; simp
  | cons p t ih =>
    intro st0 s
    rw [List.foldl_cons, ih, liveCount_cons]
    by_cases hs : p.2.file_id = s
    · rw [if_pos hs, hs, statsCount_incStat_self]
      omega
    · rw [if_neg hs, statsCount_incStat_other _ _ _ (fun hh => hs hh.symm)]
      omega

theorem foldInc_keys (kd : Keydir) :
    ∀ st0 : List (Nat × Nat),
      (∀ p ∈ kd, p.2.file_id ∈ st0.map Prod.fst) →
      (kd.foldl (fun st p => incStat st p.2.file_id) st0).map Prod.fst =
        st0.map Prod.fst := by
  induction kd with
  | nil => intro st0 _; rfl
  | cons p t ih =>
    intro st0 h
    rw [List.foldl_cons]
    have hsome : (lookupA st0 p.2.file_id).isSome :=
      mem_fst_lookup_isSome _ _ (h p (List.mem_cons_self _ _))
    have hinc : incStat st0 p.2.file_id = modifyA st0 p.2.file_id (fun c => c + 1) := by
      rw [incStat, if_pos hsome]
    have hkeys : (incStat st0 p.2.file_id).map Prod.fst = st0.map Prod.fst := by
      rw [hinc, modifyA_keys]
    rw [ih (incStat st0 p.2.file_id) ?_, hkeys]
    intro q hq
    rw [hkeys]
    exact h q (List.mem_cons_of_mem _ hq)

theorem foldInc_sorted (kd : Keydir) :
    ∀ st0 : List (Nat × Nat), SortedKeys st0 →
      SortedKeys (kd.foldl (fun st p => incStat st p.2.file_id) st0) := by
  induction kd with
  | nil => intro st0 h; exact h
  | cons p t ih =>
    intro st0 h
    rw [List.foldl_cons]
    exact ih _ (incStat_sorted _ _ h)

theorem forall2_contents (dir : Dir) (files : List (Nat × FileM))
    (h : List.Forall₂ (fun (d : Nat × Bytes) (f : Nat × FileM) =>
      f.1 = d.1 ∧ f.2.contents = d.2) dir files)
    (q : Nat × FileM) (hq : q ∈ files) : (q.1, q.2.contents) ∈ dir := by
  induction h with
  | nil => simp at hq
  | cons hdf t ih =>
    rcases List.mem_cons.mp hq with h1 | h1
    · subst h1
      rw [hdf.1, hdf.2]
      exact List.mem_cons_self _ _
    · exact List.mem_cons_of_mem _ (ih h1)

theorem eraseKeys_nil {α : Type} (l : List (Nat × α)) : eraseKeys l [] = l := by
  simp [eraseKeys]

theorem gcPass_stats_nil (db : DB) (h : db.stats = []) : gcPass db = db := by
  have hstale : staleIds db.stats = [] := by
    rw [h]
    rfl
  show { db with log_files := eraseKeys db.log_files (staleIds db.stats),
                 stats := dropStats db.stats (staleIds db.stats) } = db
  rw [hstale, eraseKeys_nil, dropStats, eraseKeys_nil]

/-- Garbage collection never removes the active (greatest-id) segment. -/
theorem gc_keeps_active (db : DB)
    (hlogs : SortedKeys db.log_files) (hst : SortedKeys db.stats)
    (hdom : ∀ q ∈ db.stats, q.1 ∈ db.log_files.map Prod.fst)
    (hne : db.log_files ≠ []) :
    activeId (gcPass db) = activeId db ∧ activeId db ∈ segIds (gcPass db) := by
  have hpa := activeEntry_getLast db hne
  have hnot := active_not_stale db hlogs hst hdom (activeEntry db) hpa
  have hlast : (gcPass db).log_files.getLast? = some (activeEntry db) :=
    eraseKeys_getLast db.log_files _ (activeEntry db) hpa hnot
  constructor
  · rw [activeId, activeEntry, hlast]
    rfl
  · exact List.mem_map.mpr ⟨activeEntry db, getLast?_mem _ _ hlast, rfl⟩

/-- After the garbage-collection pass at open, every non-active segment
still in the set has at least one live key; and the active segment is in
the set. -/
theorem openDir_nonactive_live (opts : Nat) (dir : Dir) (σ : DB)
    (hd : SortedKeys dir) (h : openDir opts dir = .ok σ) :
    (∀ q ∈ σ.log_files, q.1 ≠ activeId σ → 1 ≤ liveCount σ.keydir q.1) ∧
    σ.log_files ≠ [] ∧ activeId σ ∈ segIds σ := by
  rw [openDir] at h
  cases hb : buildKeydir dir with
  | error e => rw [hb] at h; simp at h
  | ok r =>
    obtain ⟨kd, files1, st1⟩ := r
    rw [hb] at h
    dsimp only at h
    injection h with h
    rw [buildKeydir] at hb
    cases hi : ingestAll dir [] [] with
    | error e => rw [hi] at hb; simp at hb
    | ok r2 =>
      obtain ⟨kd0, files, st0⟩ := r2
      rw [hi] at hb
      dsimp only at hb
      injection hb with hb
      simp only [Prod.mk.injEq] at hb
      obtain ⟨hbkd, hbfiles, hbst⟩ := hb
      obtain ⟨hfst, hst2, hfids, hcont⟩ := ingestAll_spec dir [] [] kd0 files st0 hi
      by_cases hfe : files.isEmpty
      · -- empty directory: a fresh segment 0 is created, no non-active segments
        have hfnil : files = [] := by
          cases files with
          | nil => rfl
          | cons a b => simp [List.isEmpty] at hfe
        have hdnil : dir = [] := by
          rw [hfnil] at hfst
          cases dir with
          | nil => rfl
          | cons a b => simp at hfst
        subst hdnil
        rw [show ingestAll [] ([] : Keydir) ([] : List (Nat × Nat)) =
          .ok ([], [], []) from rfl] at hi
        simp only [Except.ok.injEq, Prod.mk.injEq] at hi
        obtain ⟨hia, hib, hic⟩ := hi
        have hkdnil : kd = [] := by rw [← hbkd, ← hia]
        have hst1nil : st1 = [] := by
          rw [← hbst, ← hia, ← hic]
          rfl
        have hfiles1 : files1 = [(0, ⟨[], 0⟩)] := by
          rw [← hbfiles, hfnil]
          rfl
        have hgc : gcPass { keydir := kd, log_files := files1, stats := st1,
                            max_log_file_size := opts } =
            { keydir := kd, log_files := files1, stats := st1,
              max_log_file_size := opts } :=
          gcPass_stats_nil _ hst1nil
        rw [hgc] at h
        rw [← h, hkdnil, hfiles1]
        refine ⟨?_, by simp, ?_⟩
        · intro q hq hne2
          exfalso
          apply hne2
          have hq0 : q = (0, (⟨[], 0⟩ : FileM)) := by simpa using hq
          rw [hq0]
          rfl
        · show activeId _ ∈ segIds _
          simp [activeId, activeEntry, segIds]
      · -- non-empty directory
        have hfiles1 : files1 = files := by
          rw [← hbfiles, if_neg (by simpa using hfe)]
        have hfne : files ≠ [] := by
          intro he
          rw [he] at hfe
          simp at hfe
        have hstmap : st0 = dir.map (fun p => (p.1, 0)) := by
          rw [hst2, foldNew_append dir [] hd (by intro p _ q hq; simp at hq)]
          simp
        have hzero : ∀ s, statsCount st0 s = 0 := by
          intro s
          rw [hstmap]
          exact statsCount_mapZero dir s
        have hfidsin : ∀ p ∈ kd0, p.2.file_id ∈ dir.map Prod.fst := by
          refine hfids (fun i => i ∈ dir.map Prod.fst) (by intro p hp; simp at hp) ?_
          intro q hq
          exact List.mem_map.mpr ⟨q, hq, rfl⟩
        have hst0keys : st0.map Prod.fst = dir.map Prod.fst := by
          rw [hstmap, List.map_map]
          rfl
        have hst1keys : st1.map Prod.fst = dir.map Prod.fst := by
          rw [← hbst, foldInc_keys kd0 st0 (by
            intro p hp
            rw [hst0keys]
            exact hfidsin p hp), hst0keys]
        have hst1count : ∀ s, statsCount st1 s = liveCount kd0 s := by
          intro s
          rw [← hbst, foldInc_count kd0 st0 s, hzero]
          omega
        have hst0sorted : SortedKeys st0 := by
          rw [hstmap]
          exact sortedKeys_of_map_fst_eq _ dir (by rw [List.map_map]; rfl) hd
        have hst1sorted : SortedKeys st1 := by
          rw [← hbst]
          exact foldInc_sorted kd0 st0 hst0sorted
        have hfsorted : SortedKeys files :=
          sortedKeys_of_map_fst_eq files dir hfst hd
        -- the state before gc
        rw [hfiles1, ← hbkd] at h
        obtain ⟨pf, hpf⟩ := getLast?_some files hfne
        set σ0 : DB := { keydir := kd0, log_files := files, stats := st1,
                         max_log_file_size := opts } with hσ0
        have hdomσ : ∀ q ∈ σ0.stats, q.1 ∈ σ0.log_files.map Prod.fst := by
          intro q hq
          show q.1 ∈ files.map Prod.fst
          rw [hfst, ← hst1keys]
          exact List.mem_map.mpr ⟨q, hq, rfl⟩
        have hpaσ : σ0.log_files.getLast? = some pf := hpf
        have hnot := active_not_stale σ0 hfsorted hst1sorted hdomσ pf hpaσ
        have hlastσ : (gcPass σ0).log_files.getLast? = some pf :=
          eraseKeys_getLast files _ pf hpf hnot
        have hσ : σ = gcPass σ0 := by rw [← h]
        have hactive : activeId σ = pf.1 := by
          rw [hσ, activeId, activeEntry, hlastσ]
          rfl
        refine ⟨?_, ?_, ?_⟩
        · intro q hq hqa
          by_contra hlc
          have hlive : liveCount σ.keydir q.1 = 0 := by omega
          have hkdσ : σ.keydir = kd0 := by
            rw [hσ]
            rfl
          rw [hkdσ] at hlive
          have hqfiles := eraseKeys_mem _ _ _ (by rw [hσ] at hq; exact hq)
          have hcnt : statsCount st1 q.1 = 0 := by rw [hst1count, hlive]
          have hq1mem : q.1 ∈ st1.map Prod.fst := by
            rw [hst1keys, ← hfst]
            exact List.mem_map.mpr ⟨q, hqfiles.1, rfl⟩
          have hlook : lookupA st1 q.1 = some 0 := by
            have hsome := mem_fst_lookup_isSome st1 q.1 hq1mem
            cases hg : lookupA st1 q.1 with
            | none => rw [hg] at hsome; simp at hsome
            | some c =>
              have : c = 0 := by
                have := hcnt
                rw [statsCount, hg] at this
                simpa using this
              rw [this]
          have hmem1 : (q.1, 0) ∈ st1 := lookupA_mem _ _ _ hlook
          -- the greatest stats id is the active id
          have hstlast : (st1.map Prod.fst).getLast? = some pf.1 := by
            rw [hst1keys, ← hfst, List.getLast?_map, hpf]
            rfl
          have hst1ne : st1 ≠ [] := by
            intro he
            rw [he] at hstlast
            simp at hstlast
          obtain ⟨qlast, hqlast⟩ := getLast?_some st1 hst1ne
          have hqlast1 : qlast.1 = pf.1 := by
            have := List.getLast?_map Prod.fst st1
            rw [hqlast] at this
            rw [this] at hstlast
            simpa using hstlast
          have hmemdl : (q.1, 0) ∈ st1.dropLast := by
            apply mem_dropLast_of_ne_last st1 qlast (q.1, 0) hqlast hmem1
            rw [hqlast1]
            rw [hactive] at hqa
            exact hqa
          exact hqfiles.2 (mem_staleIds st1 q.1 hmemdl)
        · intro he
          rw [hσ] at he
          rw [he] at hlastσ
          simp at hlastσ
        · rw [hσ]
          apply activeId_mem_segIds
          intro he
          rw [he] at hlastσ
          simp at hlastσ

/-! ## Lemmas: record encodings and last-record queries -/

theorem encodeRec_length (r : Rec) :
    (encodeRec r).length = HEADER_SIZE + r.key.length + r.value.length := by
  simp only [encodeRec, List.length_append, headerNew_length, HEADER_SIZE]

theorem encodeRecs_nil : encodeRecs [] = [] := rfl

theorem encodeRecs_cons (r : Rec) (rs : List Rec) :
    encodeRecs (r :: rs) = encodeRec r ++ encodeRecs rs := rfl

theorem encodeRecs_length_ge (rs : List Rec) :
    rs.length ≤ (encodeRecs rs).length := by
  induction rs with
  | nil => simp [encodeRecs_nil]
  | cons r t ih =>
    rw [encodeRecs_cons, List.length_append, encodeRec_length]
    simp only [List.length_cons, HEADER_SIZE]
    omega

theorem segLast_nil (k : Bytes) : segLast [] k = none := rfl

theorem segLast_cons (r0 : Rec) (t : List Rec) (k : Bytes) :
    segLast (r0 :: t) k =
      match segLast t k with
      | some x => some x
      | none => if r0.key = k then some r0 else none := rfl

theorem segLast_key (rs : List Rec) (k : Bytes) (r : Rec)
    (h : segLast rs k = some r) : r.key = k := by
  induction rs with
  | nil => simp [segLast_nil] at h
  | cons r0 t ih =>
    rw [segLast_cons] at h
    cases hg : segLast t k with
    | some x =>
      rw [hg] at h
      dsimp only at h
      injection h with h
      subst h
      exact ih hg
    | none =>
      rw [hg] at h
      dsimp only at h
      by_cases hk : r0.key = k
      · rw [if_pos hk] at h
        injection h with h
        rw [← h]
        exact hk
      · rw [if_neg hk] at h
        simp at h

theorem segLast_mem (rs : List Rec) (k : Bytes) (r : Rec)
    (h : segLast rs k = some r) : r ∈ rs := by
  induction rs with
  | nil => simp [segLast_nil] at h
  | cons r0 t ih =>
    rw [segLast_cons] at h
    cases hg : segLast t k with
    | some x =>
      rw [hg] at h
      dsimp only at h
      injection h with h
      subst h
      exact List.mem_cons_of_mem _ (ih hg)
    | none =>
      rw [hg] at h
      dsimp only at h
      by_cases hk : r0.key = k
      · rw [if_pos hk] at h
        injection h with h
        rw [← h]
        exact List.mem_cons_self _ _
      · rw [if_neg hk] at h
        simp at h

theorem segLast_append (a b : List Rec) (k : Bytes) :
    segLast (a ++ b) k =
      match segLast b k with
      | some x => some x
      | none => segLast a k := by
  induction a with
  | nil =>
    rw [List.nil_append]
    cases segLast b k <;> rfl
  | cons r t ih =>
    rw [List.cons_append, segLast_cons, ih, segLast_cons]
    cases segLast b k <;> cases segLast t k <;> rfl

theorem segLast_snoc (rs : List Rec) (r : Rec) (k : Bytes) :
    segLast (rs ++ [r]) k = if r.key = k then some r else segLast rs k := by
  rw [segLast_append]
  rw [show segLast [r] k = if r.key = k then some r else none from rfl]
  by_cases hk : r.key = k
  · rw [if_pos hk, if_pos hk]
  · rw [if_neg hk, if_neg hk]

theorem lastRecFor_nil (k : Bytes) : lastRecFor [] k = none := rfl

theorem lastRecFor_cons (i : Nat) (rs : List Rec) (rest : RL) (k : Bytes) :
    lastRecFor ((i, rs) :: rest) k =
      match lastRecFor rest k with
      | some x => some x
      | none => (segLast rs k).map (fun r => (i, r)) := rfl

theorem lastRecFor_append (a b : RL) (k : Bytes) :
    lastRecFor (a ++ b) k =
      match lastRecFor b k with
      | some x => some x
      | none => lastRecFor a k := by
  induction a with
  | nil =>
    rw [List.nil_append]
    cases lastRecFor b k <;> rfl
  | cons p t ih =>
    obtain ⟨i, rs⟩ := p
    rw [List.cons_append, lastRecFor_cons, ih, lastRecFor_cons]
    cases lastRecFor b k <;> cases lastRecFor t k <;> rfl

theorem lastRecFor_none_iff (rl : RL) (k : Bytes) :
    lastRecFor rl k = none ↔ ∀ p ∈ rl, segLast p.2 k = none := by
  induction rl with
  | nil => simp [lastRecFor_nil]
  | cons p t ih =>
    obtain ⟨i, rs⟩ := p
    rw [lastRecFor_cons]
    constructor
    · intro h
      cases hg : lastRecFor t k with
      | some x =>
        rw [hg] at h
        simp at h
      | none =>
        rw [hg] at h
        dsimp only at h
        intro q hq
        rcases List.mem_cons.mp hq with h1 | h1
        · subst h1
          dsimp only
          cases hs : segLast rs k with
          | none => rfl
          | some r =>
            rw [hs] at h
            simp at h
        · exact (ih.mp hg) q h1
    · intro h
      have ht : lastRecFor t k = none :=
        ih.mpr (fun q hq => h q (List.mem_cons_of_mem _ hq))
      rw [ht]
      dsimp only
      rw [show segLast rs k = none from h (i, rs) (List.mem_cons_self _ _)]
      rfl

theorem lastRecFor_mem (rl : RL) (k : Bytes) (i : Nat) (r : Rec)
    (h : lastRecFor rl k = some (i, r)) :
    ∃ rs, (i, rs) ∈ rl ∧ segLast rs k = some r := by
  induction rl with
  | nil => simp [lastRecFor_nil] at h
  | cons p t ih =>
    obtain ⟨j, rs0⟩ := p
    rw [lastRecFor_cons] at h
    cases hg : lastRecFor t k with
    | some x =>
      rw [hg] at h
      dsimp only at h
      injection h with h
      subst h
      obtain ⟨rs, h1, h2⟩ := ih hg
      exact ⟨rs, List.mem_cons_of_mem _ h1, h2⟩
    | none =>
      rw [hg] at h
      dsimp only at h
      rw [Option.map_eq_some'] at h
      obtain ⟨r0, hs, heq⟩ := h
      injection heq with ha hb
      subst ha
      subst hb
      exact ⟨rs0, List.mem_cons_self _ _, hs⟩

theorem lastRecFor_decomp (rl : RL) (k : Bytes) (i : Nat) (r : Rec)
    (h : lastRecFor rl k = some (i, r)) :
    ∃ pre rs suf, rl = pre ++ (i, rs) :: suf ∧ segLast rs k = some r ∧
      ∀ p ∈ suf, segLast p.2 k = none := by
  induction rl with
  | nil => simp [lastRecFor_nil] at h
  | cons p t ih =>
    obtain ⟨j, rs0⟩ := p
    rw [lastRecFor_cons] at h
    cases hg : lastRecFor t k with
    | some x =>
      rw [hg] at h
      dsimp only at h
      injection h with h
      subst h
      obtain ⟨pre, rs, suf, h1, h2, h3⟩ := ih hg
      exact ⟨(j, rs0) :: pre, rs, suf, by rw [h1, List.cons_append], h2, h3⟩
    | none =>
      rw [hg] at h
      dsimp only at h
      rw [Option.map_eq_some'] at h
      obtain ⟨r0, hs, heq⟩ := h
      injection heq with ha hb
      subst ha
      subst hb
      exact ⟨[], rs0, t, rfl, hs, (lastRecFor_none_iff t k).mp hg⟩

theorem eraseKeys_append {α : Type} (l m : List (Nat × α)) (ids : List Nat) :
    eraseKeys (l ++ m) ids = eraseKeys l ids ++ eraseKeys m ids := by
  simp [eraseKeys, List.filter_append]

theorem eraseKeys_cons_of_not_mem {α : Type} (p : Nat × α) (t : List (Nat × α))
    (ids : List Nat) (h : p.1 ∉ ids) :
    eraseKeys (p :: t) ids = p :: eraseKeys t ids := by
  simp [eraseKeys, List.filter_cons, List.elem_iff, h]

theorem lastRecFor_eraseKeys_none (rl : RL) (ids : List Nat) (k : Bytes)
    (h : lastRecFor rl k = none) : lastRecFor (eraseKeys rl ids) k = none := by
  rw [lastRecFor_none_iff] at h ⊢
  intro p hp
  exact h p (eraseKeys_mem _ _ _ hp).1

theorem lastRecFor_eraseKeys_some (rl : RL) (ids : List Nat) (k : Bytes) (i : Nat)
    (r : Rec) (h : lastRecFor rl k = some (i, r)) (hid : i ∉ ids) :
    lastRecFor (eraseKeys rl ids) k = some (i, r) := by
  obtain ⟨pre, rs, suf, h1, h2, h3⟩ := lastRecFor_decomp rl k i r h
  have hsuf : lastRecFor (eraseKeys suf ids) k = none := by
    rw [lastRecFor_none_iff]
    intro p hp
    exact h3 p (eraseKeys_mem _ _ _ hp).1
  have hmid : lastRecFor ((i, rs) :: eraseKeys suf ids) k = some (i, r) := by
    rw [lastRecFor_cons, hsuf]
    dsimp only
    rw [h2]
    rfl
  rw [h1, eraseKeys_append, eraseKeys_cons_of_not_mem _ _ _ hid,
    lastRecFor_append, hmid]

theorem segLastP_nil (pos : Nat) (k : Bytes) : segLastP [] pos k = none := rfl

theorem segLastP_cons (r0 : Rec) (t : List Rec) (pos : Nat) (k : Bytes) :
    segLastP (r0 :: t) pos k =
      match segLastP t (pos + HEADER_SIZE + r0.key.length + r0.value.length) k with
      | some x => some x
      | none => if r0.key = k then some (pos, r0) else none := rfl

theorem segLastP_map_snd (rs : List Rec) (k : Bytes) :
    ∀ pos : Nat, (segLastP rs pos k).map Prod.snd = segLast rs k := by
  induction rs with
  | nil => intro pos; rfl
  | cons r t ih =>
    intro pos
    rw [segLastP_cons, segLast_cons]
    have h2 := ih (pos + HEADER_SIZE + r.key.length + r.value.length)
    cases hg : segLastP t (pos + HEADER_SIZE + r.key.length + r.value.length) k with
    | some x =>
      rw [hg] at h2
      simp only [Option.map_some'] at h2
      rw [← h2]
      rfl
    | none =>
      rw [hg] at h2
      simp only [Option.map_none'] at h2
      rw [← h2]
      dsimp only
      by_cases hk : r.key = k
      · rw [if_pos hk, if_pos hk]
        rfl
      · rw [if_neg hk, if_neg hk]
        rfl

theorem segLastP_decomp (k : Bytes) (rs : List Rec) :
    ∀ pos p : Nat, ∀ r : Rec, segLastP rs pos k = some (p, r) →
      ∃ pre suf, encodeRecs rs = pre ++ encodeRec r ++ suf ∧ pos + pre.length = p := by
  induction rs with
  | nil =>
    intro pos p r h
    simp [segLastP_nil] at h
  | cons r0 t ih =>
    intro pos p r h
    rw [segLastP_cons] at h
    cases hg : segLastP t (pos + HEADER_SIZE + r0.key.length + r0.value.length) k with
    | some x =>
      rw [hg] at h
      dsimp only at h
      injection h with h
      subst h
      obtain ⟨pre, suf, h1, h2⟩ := ih _ p r hg
      refine ⟨encodeRec r0 ++ pre, suf, ?_, ?_⟩
      · rw [encodeRecs_cons, h1]
        simp [List.append_assoc]
      · rw [List.length_append, encodeRec_length]
        omega
    | none =>
      rw [hg] at h
      dsimp only at h
      by_cases hk : r0.key = k
      · rw [if_pos hk] at h
        injection h with h
        injection h with ha hb
        subst ha
        subst hb
        refine ⟨[], encodeRecs t, ?_, by simp⟩
        rw [encodeRecs_cons]
        simp
      · rw [if_neg hk] at h
        simp at h

theorem lastRecForP_nil (k : Bytes) : lastRecForP [] k = none := rfl

theorem lastRecForP_cons (i : Nat) (rs : List Rec) (rest : RL) (k : Bytes) :
    lastRecForP ((i, rs) :: rest) k =
      match lastRecForP rest k with
      | some x => some x
      | none => (segLastP rs 0 k).map (fun pr => (i, pr.1, pr.2)) := rfl

theorem lastRecForP_map (rl : RL) (k : Bytes) :
    (lastRecForP rl k).map (fun x => (x.1, x.2.2)) = lastRecFor rl k := by
  induction rl with
  | nil => rfl
  | cons p t ih =>
    obtain ⟨i, rs⟩ := p
    rw [lastRecForP_cons, lastRecFor_cons]
    cases hg : lastRecForP t k with
    | some x =>
      rw [hg] at ih
      simp only [Option.map_some'] at ih
      rw [← ih]
      rfl
    | none =>
      rw [hg] at ih
      simp only [Option.map_none'] at ih
      rw [← ih]
      dsimp only
      rw [← segLastP_map_snd rs k 0]
      cases segLastP rs 0 k <;> rfl

theorem lastRecForP_mem (rl : RL) (k : Bytes) (i p : Nat) (r : Rec)
    (h : lastRecForP rl k = some (i, p, r)) :
    ∃ rs, (i, rs) ∈ rl ∧ segLastP rs 0 k = some (p, r) := by
  induction rl with
  | nil => simp [lastRecForP_nil] at h
  | cons q t ih =>
    obtain ⟨j, rs0⟩ := q
    rw [lastRecForP_cons] at h
    cases hg : lastRecForP t k with
    | some x =>
      rw [hg] at h
      dsimp only at h
      injection h with h
      subst h
      obtain ⟨rs, h1, h2⟩ := ih hg
      exact ⟨rs, List.mem_cons_of_mem _ h1, h2⟩
    | none =>
      rw [hg] at h
      dsimp only at h
      rw [Option.map_eq_some'] at h
      obtain ⟨pr, hs, heq⟩ := h
      injection heq with ha hb
      subst ha
      injection hb with hb1 hb2
      refine ⟨rs0, List.mem_cons_self _ _, ?_⟩
      rw [hs, ← hb1, ← hb2]

/-! ## Lemmas: assorted helpers for the ghost development -/

theorem ghostRel_none (e? : Option KeydirEntry) (m : Option Bytes) :
    ghostRel none e? m ↔ (e? = none ∧ m = none) := Iff.rfl

theorem ghostRel_some (i : Nat) (r : Rec) (e? : Option KeydirEntry)
    (m : Option Bytes) :
    ghostRel (some (i, r)) e? m ↔
      (if r.fromRemove = true then e? = none ∧ m = none
       else m = some r.value ∧ ∃ e, e? = some e ∧ e.file_id = i) := Iff.rfl

theorem lookupA_append {α : Type} (l m : List (Nat × α)) (i : Nat) :
    lookupA (l ++ m) i =
      match lookupA l i with
      | some a => some a
      | none => lookupA m i := by
  induction l with
  | nil =>
    rw [List.nil_append]
    rfl
  | cons p t ih =>
    obtain ⟨j, b⟩ := p
    by_cases hj : j = i
    · subst hj
      rw [List.cons_append, lookupA_cons_eq, lookupA_cons_eq]
    · rw [List.cons_append, lookupA_cons_ne _ _ _ _ hj, lookupA_cons_ne _ _ _ _ hj, ih]

theorem kdGet_of_mem_nodup (kd : Keydir) (p : Bytes × KeydirEntry)
    (hn : KeysNodup kd) (hp : p ∈ kd) : kdGet kd p.1 = some p.2 := by
  induction kd with
  | nil => simp at hp
  | cons q t ih =>
    obtain ⟨k0, e0⟩ := q
    rw [KeysNodup, List.pairwise_cons] at hn
    rcases List.mem_cons.mp hp with h1 | h1
    · subst h1
      dsimp only
      exact kdGet_cons_eq _ _ _
    · rw [kdGet_cons_ne _ _ _ _ (hn.1 p h1)]
      exact ih hn.2 h1

theorem liveCount_zero_of_no_file (kd : Keydir) (s : Nat)
    (h : ∀ p ∈ kd, p.2.file_id ≠ s) : liveCount kd s = 0 := by
  rw [liveCount, List.countP_eq_zero]
  intro p hp
  simpa using h p hp

theorem forall2_snoc {α β : Type} (R : α → β → Prop) (l : List α) (m : List β)
    (x : α) (y : β) (h1 : List.Forall₂ R l m) (h2 : R x y) :
    List.Forall₂ R (l ++ [x]) (m ++ [y]) := by
  induction h1 with
  | nil => exact List.Forall₂.cons h2 List.Forall₂.nil
  | cons ha hb ih => exact List.Forall₂.cons ha ih

theorem recsMatch_keys (rl : RL) (fs : List (Nat × FileM))
    (h : List.Forall₂ recsMatch rl fs) : rl.map Prod.fst = fs.map Prod.fst := by
  induction h with
  | nil => rfl
  | cons h1 h2 ih =>
    simp only [List.map_cons, ih, h1.1]

theorem recsMatch_eraseKeys (ids : List Nat) (rl : RL) (fs : List (Nat × FileM))
    (h : List.Forall₂ recsMatch rl fs) :
    List.Forall₂ recsMatch (eraseKeys rl ids) (eraseKeys fs ids) := by
  induction h with
  | nil => exact List.Forall₂.nil
  | cons h1 h2 ih =>
    rename_i g f t1 t2
    by_cases hm : g.1 ∈ ids
    · have hmf : f.1 ∈ ids := by rw [← h1.1]; exact hm
      rw [show eraseKeys (g :: t1) ids = eraseKeys t1 ids by
          simp [eraseKeys, List.filter_cons, List.elem_iff, hm],
        show eraseKeys (f :: t2) ids = eraseKeys t2 ids by
          simp [eraseKeys, List.filter_cons, List.elem_iff, hmf]]
      exact ih
    · have hmf : f.1 ∉ ids := by rw [← h1.1]; exact hm
      rw [show eraseKeys (g :: t1) ids = g :: eraseKeys t1 ids by
          simp [eraseKeys, List.filter_cons, List.elem_iff, hm],
        show eraseKeys (f :: t2) ids = f :: eraseKeys t2 ids by
          simp [eraseKeys, List.filter_cons, List.elem_iff, hmf]]
      exact List.Forall₂.cons h1 ih

theorem dirOf_of_recsMatch (rl : RL) (fs : List (Nat × FileM))
    (h : List.Forall₂ recsMatch rl fs) :
    fs.map (fun p => (p.1, p.2.contents)) = rl.map (fun p => (p.1, encodeRecs p.2)) := by
  induction h with
  | nil => rfl
  | cons h1 h2 ih =>
    simp only [List.map_cons, ih]
    rw [h1.1, h1.2]

theorem lookupA_map_val {α β : Type} (g : α → β) (l : List (Nat × α)) (i : Nat) :
    lookupA (l.map (fun p => (p.1, g p.2))) i = (lookupA l i).map g := by
  induction l with
  | nil => rfl
  | cons p t ih =>
    obtain ⟨j, b⟩ := p
    by_cases hj : j = i
    · subst hj
      rw [List.map_cons]
      dsimp only
      rw [lookupA_cons_eq, lookupA_cons_eq]
      rfl
    · rw [List.map_cons]
      dsimp only
      rw [lookupA_cons_ne _ _ _ _ hj, lookupA_cons_ne _ _ _ _ hj, ih]

theorem tombCount_nil : tombCount [] = 0 := rfl

theorem tombCount_snoc (rs : List Rec) (r : Rec) :
    tombCount (rs ++ [r]) = tombCount rs + (if r.fromRemove = true then 1 else 0) := by
  simp [tombCount, List.countP_append, List.countP_cons]

theorem tombCount_pos_of_mem (rs : List Rec) (r : Rec) (hr : r ∈ rs)
    (hfr : r.fromRemove = true) : 1 ≤ tombCount rs := by
  rw [tombCount]
  exact List.countP_pos_iff.mpr ⟨r, hr, hfr⟩

/-! ## Lemmas: replaying record histories (the recovery characterisation) -/

theorem replaySeg_nil (i pos : Nat) (kd : Keydir) : replaySeg i [] pos kd = kd := rfl

theorem replaySeg_cons (i : Nat) (r0 : Rec) (t : List Rec) (pos : Nat) (kd : Keydir) :
    replaySeg i (r0 :: t) pos kd =
      replaySeg i t (pos + HEADER_SIZE + r0.key.length + r0.value.length)
        (if 0 < r0.value.length then
          (kdPut kd r0.key
            ⟨i, r0.value.length, pos + HEADER_SIZE + r0.key.length, r0.ts % U32⟩).1
         else kdRemove kd r0.key) := rfl

theorem replayAll_nil (kd : Keydir) : replayAll [] kd = kd := rfl

theorem replayAll_cons (i : Nat) (rs : List Rec) (rest : RL) (kd : Keydir) :
    replayAll ((i, rs) :: rest) kd = replayAll rest (replaySeg i rs 0 kd) := rfl

theorem replaySeg_get (i : Nat) (k : Bytes) (rs : List Rec) :
    ∀ (pos : Nat) (kd : Keydir),
      kdGet (replaySeg i rs pos kd) k =
        match segLastP rs pos k with
        | some pr =>
          if 0 < pr.2.value.length then
            some ⟨i, pr.2.value.length, pr.1 + HEADER_SIZE + pr.2.key.length,
              pr.2.ts % U32⟩
          else none
        | none => kdGet kd k := by
  induction rs with
  | nil => intro pos kd; rfl
  | cons r0 t ih =>
    intro pos kd
    rw [replaySeg_cons, segLastP_cons, ih]
    cases hg : segLastP t (pos + HEADER_SIZE + r0.key.length + r0.value.length) k with
    | some x => rfl
    | none =>
      dsimp only
      by_cases hk : r0.key = k
      · rw [if_pos hk]
        dsimp only
        by_cases hv : 0 < r0.value.length
        · rw [if_pos hv, if_pos hv, ← hk, kdPut_get_self]
        · rw [if_neg hv, if_neg hv, ← hk, kdRemove_get_self]
      · rw [if_neg hk]
        have hne : k ≠ r0.key := fun hh => hk hh.symm
        by_cases hv : 0 < r0.value.length
        · rw [if_pos hv, kdPut_get_other _ _ _ _ hne]
        · rw [if_neg hv, kdRemove_get_other _ _ _ hne]

theorem replayAll_get (k : Bytes) (rl : RL) :
    ∀ kd : Keydir,
      kdGet (replayAll rl kd) k =
        match lastRecForP rl k with
        | some x =>
          if 0 < x.2.2.value.length then
            some ⟨x.1, x.2.2.value.length, x.2.1 + HEADER_SIZE + x.2.2.key.length,
              x.2.2.ts % U32⟩
          else none
        | none => kdGet kd k := by
  induction rl with
  | nil => intro kd; rfl
  | cons q t ih =>
    obtain ⟨i, rs⟩ := q
    intro kd
    rw [replayAll_cons, ih, lastRecForP_cons]
    cases hg : lastRecForP t k with
    | some x => rfl
    | none =>
      dsimp only
      rw [replaySeg_get]
      cases hs : segLastP rs 0 k with
      | some pr => rfl
      | none => rfl

/-! ## Lemmas: ingesting an encoded record history -/

theorem ingestLoop_encoded (i : Nat) (contents : Bytes) (rs : List Rec) :
    ∀ (pre buf : Bytes) (kd : Keydir) (fuel : Nat),
      contents = pre ++ encodeRecs rs → rs.length < fuel →
      buf.length = HEADER_SIZE → (∀ r ∈ rs, wfRec r) →
      ingestLoop i contents fuel pre.length buf kd =
        .ok (replaySeg i rs pre.length kd, pre.length + (encodeRecs rs).length) := by
  induction rs with
  | nil =>
    intro pre buf kd fuel hc hf hb hwf
    cases fuel with
    | zero => omega
    | succ f =>
      rw [ingestLoop_succ]
      have hn : min HEADER_SIZE (contents.length - pre.length) = 0 := by
        rw [hc]
        simp [encodeRecs_nil]
      rw [if_pos hn, replaySeg_nil]
      rw [show (encodeRecs ([] : List Rec)).length = 0 from rfl, Nat.add_zero]
  | cons r t ih =>
    intro pre buf kd fuel hc hf hb hwf
    cases fuel with
    | zero => simp at hf
    | succ f =>
      obtain ⟨hk32, hv32, _⟩ := hwf r (List.mem_cons_self _ _)
      have hclen : contents.length =
          pre.length + (HEADER_SIZE + r.key.length + r.value.length) +
            (encodeRecs t).length := by
        rw [hc, encodeRecs_cons]
        simp only [List.length_append, encodeRec_length]
        omega
      have hn : min HEADER_SIZE (contents.length - pre.length) = HEADER_SIZE := by
        simp only [HEADER_SIZE] at hclen ⊢
        omega
      rw [ingestLoop_succ, if_neg (by rw [hn]; simp [HEADER_SIZE])]
      simp only []
      rw [hn]
      have hsplit : contents = pre ++ headerNew r.ts r.key.length r.value.length ++
          (r.key ++ (r.value ++ encodeRecs t)) := by
        rw [hc, encodeRecs_cons, encodeRec]
        simp [List.append_assoc]
      have hdrop : buf.drop HEADER_SIZE = [] := by
        rw [← hb]
        simp
      have hslice : (contents.drop pre.length).take HEADER_SIZE =
          headerNew r.ts r.key.length r.value.length := by
        rw [hsplit,
          show HEADER_SIZE = (headerNew r.ts r.key.length r.value.length).length from
            (headerNew_length _ _ _).symm]
        exact slice_exact pre _ _
      rw [show (contents.drop pre.length).take HEADER_SIZE ++ buf.drop HEADER_SIZE =
          headerNew r.ts r.key.length r.value.length by
        rw [hslice, hdrop, List.append_nil]]
      rw [keySizeOf_headerNew, valueSizeOf_headerNew, timestampOf_headerNew,
        Nat.mod_eq_of_lt hk32, Nat.mod_eq_of_lt hv32]
      rw [if_pos (by omega :
        pre.length + HEADER_SIZE + r.key.length ≤ contents.length)]
      have hkey : (contents.drop (pre.length + HEADER_SIZE)).take r.key.length =
          r.key := by
        have h2 : contents = (pre ++ headerNew r.ts r.key.length r.value.length) ++
            r.key ++ (r.value ++ encodeRecs t) := by
          rw [hsplit]
          simp [List.append_assoc]
        rw [h2, show pre.length + HEADER_SIZE =
          (pre ++ headerNew r.ts r.key.length r.value.length).length by
            simp [headerNew_length, HEADER_SIZE]]
        exact slice_exact _ _ _
      rw [hkey]
      have hc' : contents = (pre ++ encodeRec r) ++ encodeRecs t := by
        rw [hc, encodeRecs_cons]
        simp [List.append_assoc]
      have hlen' : (pre ++ encodeRec r).length =
          pre.length + HEADER_SIZE + r.key.length + r.value.length := by
        rw [List.length_append, encodeRec_length]
        omega
      have hrec := ih (pre ++ encodeRec r)
        (headerNew r.ts r.key.length r.value.length)
        (if 0 < r.value.length then
          (kdPut kd r.key
            ⟨i, r.value.length, pre.length + HEADER_SIZE + r.key.length,
              r.ts % U32⟩).1
         else kdRemove kd r.key)
        f hc' (by simp at hf; omega)
        (by simp [headerNew_length, HEADER_SIZE])
        (fun r' hr' => hwf r' (List.mem_cons_of_mem _ hr'))
      rw [hlen'] at hrec
      rw [hrec, replaySeg_cons]
      rw [show pre.length + (encodeRecs (r :: t)).length =
          pre.length + HEADER_SIZE + r.key.length + r.value.length +
            (encodeRecs t).length by
        rw [encodeRecs_cons, List.length_append, encodeRec_length]
        omega]

theorem ingestLog_encoded (i : Nat) (rs : List Rec) (kd : Keydir)
    (hwf : ∀ r ∈ rs, wfRec r) :
    ingestLog i (encodeRecs rs) kd =
      .ok (replaySeg i rs 0 kd, (encodeRecs rs).length) := by
  have h := ingestLoop_encoded i (encodeRecs rs) rs [] (List.replicate HEADER_SIZE 0)
    kd ((encodeRecs rs).length + 1) (by simp)
    (by have := encodeRecs_length_ge rs; omega) (by simp) hwf
  rw [ingestLog]
  simpa using h

theorem ingestAll_encoded (rl : RL) :
    ∀ (kd : Keydir) (st : List (Nat × Nat)), (∀ p ∈ rl, ∀ r ∈ p.2, wfRec r) →
      ingestAll (rl.map (fun p => (p.1, encodeRecs p.2))) kd st =
        .ok (replayAll rl kd,
          rl.map (fun p =>
            (p.1, (⟨encodeRecs p.2, (encodeRecs p.2).length⟩ : FileM))),
          (rl.map (fun p => (p.1, encodeRecs p.2))).foldl
            (fun s q => newLogEntry s q.1) st) := by
  induction rl with
  | nil =>
    intro kd st _
    rfl
  | cons p t ih =>
    obtain ⟨i, rs⟩ := p
    intro kd st hwf
    rw [List.map_cons]
    rw [show ingestAll ((i, encodeRecs rs) :: t.map (fun p => (p.1, encodeRecs p.2)))
        kd st =
      (match ingestLog i (encodeRecs rs) kd with
       | .error e => .error e
       | .ok (kd1, pos) =>
         match ingestAll (t.map (fun p => (p.1, encodeRecs p.2))) kd1
             (newLogEntry st i) with
         | .error e => .error e
         | .ok (kd2, files, st2) =>
           .ok (kd2, (i, ⟨encodeRecs rs, pos⟩) :: files, st2)) from rfl]
    rw [ingestLog_encoded i rs kd (hwf (i, rs) (List.mem_cons_self _ _))]
    dsimp only
    rw [ih (replaySeg i rs 0 kd) (newLogEntry st i)
      (fun q hq => hwf q (List.mem_cons_of_mem _ hq))]
    rfl

/-! ## Lemmas: the ghost invariant is maintained by every operation -/

theorem encodeRecs_append (a b : List Rec) :
    encodeRecs (a ++ b) = encodeRecs a ++ encodeRecs b := by
  induction a with
  | nil => simp [encodeRecs_nil]
  | cons r t ih =>
    rw [List.cons_append, encodeRecs_cons, encodeRecs_cons, ih, List.append_assoc]

theorem encodeRecs_singleton (r : Rec) : encodeRecs [r] = encodeRec r := by
  rw [encodeRecs_cons, encodeRecs_nil, List.append_nil]

theorem modifyA_snoc {α : Type} (l : List (Nat × α)) (a : Nat) (x : α) (f : α → α)
    (h : ∀ p ∈ l, p.1 ≠ a) :
    modifyA (l ++ [(a, x)]) a f = l ++ [(a, f x)] := by
  induction l with
  | nil => simp [modifyA]
  | cons p t ih =>
    rw [List.cons_append,
      show modifyA (p :: (t ++ [(a, x)])) a f =
        (if p.1 = a then (p.1, f p.2) else p) :: modifyA (t ++ [(a, x)]) a f from rfl,
      if_neg (h p (List.mem_cons_self _ _)),
      ih (fun q hq => h q (List.mem_cons_of_mem _ hq)), List.cons_append]

theorem recsMatch_update (a : Nat) (r : Rec) (fA : FileM) (x : FileM)
    (hx : x.contents = fA.contents ++ encodeRec r) :
    ∀ (rl : RL) (fs : List (Nat × FileM)), List.Forall₂ recsMatch rl fs →
      (∀ q ∈ fs, q.1 = a → q.2 = fA) →
      List.Forall₂ recsMatch (modifyA rl a (fun rs => rs ++ [r])) (setA fs a x) := by
  intro rl fs h
  induction h with
  | nil =>
    intro _
    exact List.Forall₂.nil
  | cons h1 h2 ih =>
    rename_i g f t1 t2
    intro huniq
    rw [show modifyA (g :: t1) a (fun rs => rs ++ [r]) =
        (if g.1 = a then (g.1, g.2 ++ [r]) else g) ::
          modifyA t1 a (fun rs => rs ++ [r]) from rfl,
      show setA (f :: t2) a x = (if f.1 = a then (f.1, x) else f) :: setA t2 a x
        from rfl]
    refine List.Forall₂.cons ?_ (ih (fun q hq => huniq q (List.mem_cons_of_mem _ hq)))
    by_cases hga : g.1 = a
    · have hfa : f.1 = a := by rw [← h1.1]; exact hga
      rw [if_pos hga, if_pos hfa]
      refine ⟨h1.1, ?_⟩
      show x.contents = encodeRecs (g.2 ++ [r])
      rw [encodeRecs_append, encodeRecs_singleton, hx, ← h1.2,
        huniq f (List.mem_cons_self _ _) hfa]
    · have hfa : ¬ f.1 = a := by rw [← h1.1]; exact hga
      rw [if_neg hga, if_neg hfa]
      exact h1

theorem openEmpty_invB (opts : Nat) :
    InvB (openEmpty opts) [(0, [])] (fun _ => none) := by
  refine ⟨?_, ?_, ?_, ?_⟩
  · show List.Forall₂ recsMatch [(0, [])] [(0, ⟨[], 0⟩)]
    exact List.Forall₂.cons ⟨rfl, rfl⟩ List.Forall₂.nil
  · intro p hp r hr
    rw [List.mem_singleton.mp hp] at hr
    simp at hr
  · intro s
    show statsCount [] s = liveCount [] s + tombAt [(0, [])] s
    by_cases hs : (0 : Nat) = s
    · rw [tombAt, ← hs, lookupA_cons_eq]
      rfl
    · rw [tombAt, lookupA_cons_ne _ _ _ _ hs]
      rfl
  · intro k
    show ghostRel (lastRecFor [(0, [])] k) (kdGet [] k) none
    rw [show lastRecFor [(0, ([] : List Rec))] k = none from rfl]
    exact ⟨rfl, rfl⟩

theorem gc_invB (db : DB) (rl : RL) (M : Bytes → Option Bytes)
    (hstSorted : SortedKeys db.stats) (hrlSorted : SortedKeys rl)
    (hB : InvB db rl M) :
    InvB (gcPass db) (eraseKeys rl (staleIds db.stats)) M := by
  have hzero : ∀ i ∈ staleIds db.stats,
      liveCount db.keydir i = 0 ∧ tombAt rl i = 0 := by
    intro i hi
    have hlook := stale_lookup db.stats i hstSorted hi
    have hcnt : statsCount db.stats i = 0 := by
      rw [statsCount, hlook]
      rfl
    have := hB.statsEq i
    omega
  refine ⟨?_, ?_, ?_, ?_⟩
  · show List.Forall₂ recsMatch (eraseKeys rl (staleIds db.stats))
      (eraseKeys db.log_files (staleIds db.stats))
    exact recsMatch_eraseKeys _ rl db.log_files hB.contentsEq
  · intro p hp r hr
    exact hB.wf p (eraseKeys_mem _ _ _ hp).1 r hr
  · intro s
    show statsCount (eraseKeys db.stats (staleIds db.stats)) s =
      liveCount db.keydir s + tombAt (eraseKeys rl (staleIds db.stats)) s
    by_cases hs : s ∈ staleIds db.stats
    · have h1 : statsCount (eraseKeys db.stats (staleIds db.stats)) s = 0 := by
        rw [statsCount, lookupA_eraseKeys, if_pos hs]
        rfl
      have h2 : tombAt (eraseKeys rl (staleIds db.stats)) s = 0 := by
        rw [tombAt, lookupA_eraseKeys, if_pos hs]
        rfl
      obtain ⟨hl0, _⟩ := hzero s hs
      rw [h1, h2, hl0]
    · have h1 : statsCount (eraseKeys db.stats (staleIds db.stats)) s =
          statsCount db.stats s := by
        rw [statsCount, statsCount, lookupA_eraseKeys, if_neg hs]
      have h2 : tombAt (eraseKeys rl (staleIds db.stats)) s = tombAt rl s := by
        rw [tombAt, tombAt, lookupA_eraseKeys, if_neg hs]
      rw [h1, h2]
      exact hB.statsEq s
  · intro k
    show ghostRel (lastRecFor (eraseKeys rl (staleIds db.stats)) k)
      (kdGet db.keydir k) (M k)
    have hrel := hB.rel k
    cases hlr : lastRecFor rl k with
    | none =>
      rw [hlr] at hrel
      rw [lastRecFor_eraseKeys_none rl _ k hlr]
      exact hrel
    | some x =>
      obtain ⟨i, r⟩ := x
      rw [hlr] at hrel
      have hi : i ∉ staleIds db.stats := by
        intro hmem
        obtain ⟨hl0, ht0⟩ := hzero i hmem
        rw [ghostRel_some] at hrel
        by_cases hfr : r.fromRemove = true
        · obtain ⟨rs, hmem2, hsl⟩ := lastRecFor_mem rl k i r hlr
          have hrin : r ∈ rs := segLast_mem rs k r hsl
          have hlook2 : lookupA rl i = some rs :=
            lookupA_of_mem_sorted rl i rs hrlSorted hmem2
          have hpos2 : 1 ≤ tombCount rs := tombCount_pos_of_mem rs r hrin hfr
          rw [tombAt, hlook2] at ht0
          simp only [Option.map_some', Option.getD_some] at ht0
          omega
        · rw [if_neg hfr] at hrel
          obtain ⟨hm, e, he, hefid⟩ := hrel
          have hlp := liveCount_pos db.keydir k e he
          rw [hefid] at hlp
          omega
      rw [lastRecFor_eraseKeys_some rl _ k i r hlr hi]
      exact hrel

theorem rotIns_invB (db : DB) (rl : RL) (M : Bytes → Option Bytes)
    (hA : InvA db M) (hB : InvB db rl M) :
    InvB { db with
        log_files := insertA db.log_files ((activeEntry db).1 + 1) ⟨[], 0⟩ }
      (insertA rl ((activeEntry db).1 + 1) []) M := by
  have hkeys := recsMatch_keys rl db.log_files hB.contentsEq
  have hallf : ∀ p ∈ db.log_files, p.1 < (activeEntry db).1 + 1 := by
    intro p hp
    have := sorted_le_last db.log_files (activeEntry db) p hA.logsSorted
      (activeEntry_getLast db hA.logsNe) hp
    omega
  have hallr : ∀ p ∈ rl, p.1 < (activeEntry db).1 + 1 := by
    intro p hp
    have hmem : p.1 ∈ db.log_files.map Prod.fst := by
      rw [← hkeys]
      exact List.mem_map.mpr ⟨p, hp, rfl⟩
    obtain ⟨q, hq, hfst⟩ := List.mem_map.mp hmem
    have := hallf q hq
    omega
  have hinsf := insertA_append_of_lt db.log_files ((activeEntry db).1 + 1)
    (⟨[], 0⟩ : FileM) hallf
  have hinsr := insertA_append_of_lt rl ((activeEntry db).1 + 1)
    ([] : List Rec) hallr
  refine ⟨?_, ?_, ?_, ?_⟩
  · show List.Forall₂ recsMatch (insertA rl ((activeEntry db).1 + 1) [])
      (insertA db.log_files ((activeEntry db).1 + 1) ⟨[], 0⟩)
    rw [hinsf, hinsr]
    exact forall2_snoc _ _ _ _ _ hB.contentsEq ⟨rfl, rfl⟩
  · intro p hp r hr
    rw [hinsr] at hp
    rcases List.mem_append.mp hp with h1 | h1
    · exact hB.wf p h1 r hr
    · rw [List.mem_singleton.mp h1] at hr
      simp at hr
  · intro s
    show statsCount db.stats s =
      liveCount db.keydir s + tombAt (insertA rl ((activeEntry db).1 + 1) []) s
    by_cases hs : s = (activeEntry db).1 + 1
    · have hlook : lookupA db.stats s = none := by
        apply lookupA_none_of_not_mem
        intro q hq
        have h1 := hA.statsDom q hq
        obtain ⟨p0, hp0, hfst⟩ := List.mem_map.mp h1
        have h2 := hallf p0 hp0
        omega
      have hstat : statsCount db.stats s = 0 := by
        rw [statsCount, hlook]
        rfl
      have hlive : liveCount db.keydir s = 0 := by
        apply liveCount_zero_of_no_file
        intro p hp
        have hg := kdGet_of_mem_nodup db.keydir p hA.kdNodup hp
        obtain ⟨f, hf, _⟩ := hA.entryOk p.1 p.2 hg
        intro heq
        rw [heq, hs] at hf
        have hm := lookupA_mem db.log_files ((activeEntry db).1 + 1) f hf
        have := hallf _ hm
        omega
      have htmb : tombAt (insertA rl ((activeEntry db).1 + 1) []) s = 0 := by
        have hnor : lookupA rl s = none := by
          apply lookupA_none_of_not_mem
          intro q hq
          have := hallr q hq
          omega
        rw [tombAt, hinsr, lookupA_append, hnor]
        dsimp only
        rw [hs, lookupA_cons_eq]
        rfl
      rw [hstat, hlive, htmb]
    · have h1 : tombAt (insertA rl ((activeEntry db).1 + 1) []) s = tombAt rl s := by
        rw [tombAt, tombAt, hinsr, lookupA_append]
        cases hg : lookupA rl s with
        | some x => rfl
        | none =>
          dsimp only
          rw [lookupA_cons_ne _ _ _ _ (fun hh => hs hh.symm)]
          rfl
      rw [h1]
      exact hB.statsEq s
  · intro k
    show ghostRel (lastRecFor (insertA rl ((activeEntry db).1 + 1) []) k)
      (kdGet db.keydir k) (M k)
    rw [hinsr, lastRecFor_append,
      show lastRecFor [((activeEntry db).1 + 1, ([] : List Rec))] k = none from rfl]
    exact hB.rel k

theorem rotateLog_invB (db : DB) (rl : RL) (M : Bytes → Option Bytes) (ks vs : Nat)
    (hA : InvA db M) (hB : InvB db rl M) :
    InvB (rotateLog db ks vs) (ghostRotate db rl ks vs) M := by
  have hrlSorted : SortedKeys rl :=
    sortedKeys_of_map_fst_eq rl db.log_files
      (recsMatch_keys rl db.log_files hB.contentsEq) hA.logsSorted
  by_cases hc : db.max_log_file_size < (activeEntry db).2.pos + (ks + vs + HEADER_SIZE)
  · have hrw : rotateLog db ks vs = gcPass { db with
        log_files := insertA db.log_files ((activeEntry db).1 + 1) ⟨[], 0⟩ } := by
      rw [rotateLog]
      simp only [if_pos hc]
    have hgw : ghostRotate db rl ks vs =
        eraseKeys (insertA rl ((activeEntry db).1 + 1) []) (staleIds db.stats) := by
      rw [ghostRotate]
      simp only [if_pos hc]
    rw [hrw, hgw]
    exact gc_invB { db with
        log_files := insertA db.log_files ((activeEntry db).1 + 1) ⟨[], 0⟩ }
      (insertA rl ((activeEntry db).1 + 1) []) M hA.statsSorted
      (insertA_sorted rl _ _ hrlSorted) (rotIns_invB db rl M hA hB)
  · have hrw : rotateLog db ks vs = gcPass db := by
      rw [rotateLog]
      simp only [if_neg hc]
    have hgw : ghostRotate db rl ks vs = eraseKeys rl (staleIds db.stats) := by
      rw [ghostRotate]
      simp only [if_neg hc]
    rw [hrw, hgw]
    exact gc_invB db rl M hA.statsSorted hrlSorted hB

theorem putCore_ghost (db : DB) (rl : RL) (M : Bytes → Option Bytes)
    (k v : Bytes) (ts : Nat) (b : Bool)
    (hA : InvA db M) (hB : InvB db rl M) :
    List.Forall₂ recsMatch (ghostAppend db rl ⟨k, v, ts, b⟩)
      (putCore db k v ts).log_files ∧
    (∀ p ∈ ghostAppend db rl ⟨k, v, ts, b⟩, ∀ r' ∈ p.2,
      r' = (⟨k, v, ts, b⟩ : Rec) ∨ ∃ q ∈ rl, r' ∈ q.2) ∧
    (∀ s, statsCount (putCore db k v ts).stats s =
      liveCount (putCore db k v ts).keydir s + tombAt rl s) ∧
    (∀ s, tombAt (ghostAppend db rl ⟨k, v, ts, b⟩) s =
      tombAt rl s + (if b = true ∧ s = (activeEntry db).1 then 1 else 0)) ∧
    lastRecFor (ghostAppend db rl ⟨k, v, ts, b⟩) k =
      some ((activeEntry db).1, ⟨k, v, ts, b⟩) ∧
    (∀ j, j ≠ k →
      lastRecFor (ghostAppend db rl ⟨k, v, ts, b⟩) j = lastRecFor rl j) ∧
    kdGet (putCore db k v ts).keydir k = some (putEntry db k v ts) ∧
    (putEntry db k v ts).file_id = (activeEntry db).1 ∧
    (∀ j, j ≠ k → kdGet (putCore db k v ts).keydir j = kdGet db.keydir j) := by
  have hrlSorted : SortedKeys rl :=
    sortedKeys_of_map_fst_eq rl db.log_files
      (recsMatch_keys rl db.log_files hB.contentsEq) hA.logsSorted
  set a := (activeEntry db).1 with ha
  have hkeys := recsMatch_keys rl db.log_files hB.contentsEq
  have hrlne : rl ≠ [] := by
    intro he
    rw [he] at hkeys
    cases hlf : db.log_files with
    | nil => exact hA.logsNe hlf
    | cons q t =>
      rw [hlf] at hkeys
      simp at hkeys
  obtain ⟨pl, hpl⟩ := getLast?_some rl hrlne
  have hpl1 : pl.1 = a := by
    have h1 : (rl.map Prod.fst).getLast? = some pl.1 := by
      rw [List.getLast?_map, hpl]
      rfl
    have h2 : (db.log_files.map Prod.fst).getLast? = some a := by
      rw [List.getLast?_map, activeEntry_getLast db hA.logsNe]
      rfl
    rw [hkeys, h2] at h1
    injection h1 with h1
    exact h1.symm
  have hdlt : ∀ q ∈ rl.dropLast, q.1 < a := by
    intro q hq
    have := sorted_dropLast_lt_last rl pl q hrlSorted hpl hq
    omega
  have hpa : (a, pl.2) = pl := by
    rw [← hpl1]
  have hpl' : rl.dropLast ++ [(a, pl.2)] = rl := by
    rw [hpa]
    exact decomposeLast rl pl hpl
  have hgapp : ghostAppend db rl ⟨k, v, ts, b⟩ =
      rl.dropLast ++ [(a, pl.2 ++ [⟨k, v, ts, b⟩])] := by
    have h1 := modifyA_snoc rl.dropLast a pl.2 (fun rs => rs ++ [⟨k, v, ts, b⟩])
      (fun q hq => by have := hdlt q hq; omega)
    rw [hpl'] at h1
    exact h1
  have huniq : ∀ q ∈ db.log_files, q.1 = a → q.2 = (activeEntry db).2 := by
    intro q hq hqa
    have hd := decomposeLast db.log_files (activeEntry db)
      (activeEntry_getLast db hA.logsNe)
    rw [← hd] at hq
    rcases List.mem_append.mp hq with h1 | h1
    · have := sorted_dropLast_lt_last db.log_files (activeEntry db) q hA.logsSorted
        (activeEntry_getLast db hA.logsNe) h1
      omega
    · rw [List.mem_singleton.mp h1]
  have hpos : (activeEntry db).2.pos = (activeEntry db).2.contents.length :=
    hA.posLen _ (activeEntry_mem db hA.logsNe)
  have hx : (writeAll (activeEntry db).2
      (headerNew ts k.length v.length ++ k ++ v)).contents =
      (activeEntry db).2.contents ++ encodeRec ⟨k, v, ts, b⟩ := by
    rw [writeAll_append _ _ hpos]
    rfl
  have hcontents : List.Forall₂ recsMatch (ghostAppend db rl ⟨k, v, ts, b⟩)
      (putCore db k v ts).log_files :=
    recsMatch_update a ⟨k, v, ts, b⟩ (activeEntry db).2 _ hx rl db.log_files
      hB.contentsEq huniq
  have hwfm : ∀ p ∈ ghostAppend db rl ⟨k, v, ts, b⟩, ∀ r' ∈ p.2,
      r' = (⟨k, v, ts, b⟩ : Rec) ∨ ∃ q ∈ rl, r' ∈ q.2 := by
    intro p hp r' hr'
    rw [hgapp] at hp
    rcases List.mem_append.mp hp with h1 | h1
    · exact Or.inr ⟨p, (List.dropLast_sublist rl).subset h1, hr'⟩
    · rw [List.mem_singleton.mp h1] at hr'
      dsimp only at hr'
      rcases List.mem_append.mp hr' with h2 | h2
      · refine Or.inr ⟨(a, pl.2), ?_, h2⟩
        rw [hpa]
        exact getLast?_mem rl pl hpl
      · exact Or.inl (List.mem_singleton.mp h2)
  set pe := putEntry db k v ts with hpedef
  have hpefid : pe.file_id = a := rfl
  have hstats : (putCore db k v ts).stats =
      handleKeydirPut db.stats a ((kdGet db.keydir k).map (fun e0 => e0.file_id)) := by
    show handleKeydirPut db.stats a
      (((kdPut db.keydir k pe).2).map (fun e0 => e0.file_id)) = _
    rw [kdPut_snd]
  have hkd : (putCore db k v ts).keydir = (kdPut db.keydir k pe).1 := rfl
  have hstatsEq : ∀ s, statsCount (putCore db k v ts).stats s =
      liveCount (putCore db k v ts).keydir s + tombAt rl s := by
    intro s
    rw [hstats, hkd]
    have hbase := hB.statsEq s
    cases hold : kdGet db.keydir k with
    | none =>
      rw [show (none : Option KeydirEntry).map (fun e0 => e0.file_id) = none from rfl,
        handleKeydirPut_none]
      have hlc := liveCount_kdPut_none db.keydir k pe s hold
      by_cases hs : s = a
      · subst hs
        rw [hpefid] at hlc
        rw [if_pos rfl] at hlc
        rw [statsCount_incStat_self, hlc]
        omega
      · rw [statsCount_incStat_other db.stats a s hs, hlc,
          show (if pe.file_id = s then 1 else 0) = 0 from by
            rw [hpefid]; exact if_neg (fun hh => hs hh.symm)]
        omega
    | some e0 =>
      rw [show (some e0).map (fun e2 => e2.file_id) = some e0.file_id from rfl]
      have hlc := liveCount_kdPut_some db.keydir k pe e0 s hold
      by_cases hfid : e0.file_id = a
      · rw [hfid, handleKeydirPut_some_eq]
        by_cases hs : s = a
        · subst hs
          rw [hfid, hpefid, if_pos rfl] at hlc
          omega
        · rw [show (if e0.file_id = s then 1 else 0) = 0 from by
              rw [hfid]; exact if_neg (fun hh => hs hh.symm),
            show (if pe.file_id = s then 1 else 0) = 0 from by
              rw [hpefid]; exact if_neg (fun hh => hs hh.symm)] at hlc
          omega
      · have hne2 : a ≠ e0.file_id := fun hh => hfid hh.symm
        rw [handleKeydirPut_some_ne db.stats a e0.file_id hne2]
        have hLpos : 1 ≤ liveCount db.keydir e0.file_id :=
          liveCount_pos db.keydir k e0 hold
        have hbase2 := hB.statsEq e0.file_id
        by_cases hs : s = a
        · subst hs
          rw [statsCount_decStat_other _ _ _ hne2, statsCount_incStat_self]
          rw [show (if e0.file_id = a then 1 else 0) = 0 from if_neg hfid,
            show (if pe.file_id = a then 1 else 0) = 1 from by
              rw [hpefid]; exact if_pos rfl] at hlc
          omega
        · by_cases hso : s = e0.file_id
          · subst hso
            rw [statsCount_decStat_self, statsCount_incStat_other _ _ _ hfid]
            rw [show (if e0.file_id = e0.file_id then 1 else 0) = 1 from if_pos rfl,
              show (if pe.file_id = e0.file_id then 1 else 0) = 0 from by
                rw [hpefid]; exact if_neg hne2] at hlc
            omega
          · rw [statsCount_decStat_other _ _ _ (fun hh => hso hh),
              statsCount_incStat_other _ _ _ hs]
            rw [show (if e0.file_id = s then 1 else 0) = 0 from
                if_neg (fun hh => hso hh.symm),
              show (if pe.file_id = s then 1 else 0) = 0 from by
                rw [hpefid]; exact if_neg (fun hh => hs hh.symm)] at hlc
            omega
  have htomb : ∀ s, tombAt (ghostAppend db rl ⟨k, v, ts, b⟩) s =
      tombAt rl s + (if b = true ∧ s = a then 1 else 0) := by
    intro s
    by_cases hs : s = a
    · subst hs
      have hll : lookupA rl a = some pl.2 := by
        rw [← hpl', lookupA_append,
          lookupA_none_of_not_mem rl.dropLast a
            (fun q hq => by have := hdlt q hq; omega)]
        dsimp only
        exact lookupA_cons_eq _ _ _
      have hll2 : lookupA (ghostAppend db rl ⟨k, v, ts, b⟩) a =
          some (pl.2 ++ [⟨k, v, ts, b⟩]) := by
        rw [hgapp, lookupA_append,
          lookupA_none_of_not_mem rl.dropLast a
            (fun q hq => by have := hdlt q hq; omega)]
        dsimp only
        exact lookupA_cons_eq _ _ _
      rw [tombAt, tombAt, hll, hll2]
      show tombCount (pl.2 ++ [⟨k, v, ts, b⟩]) =
        tombCount pl.2 + (if b = true ∧ a = a then 1 else 0)
      rw [tombCount_snoc]
      by_cases hb2 : b = true
      · rw [if_pos (show (⟨k, v, ts, b⟩ : Rec).fromRemove = true from hb2),
          if_pos (show b = true ∧ a = a from ⟨hb2, rfl⟩)]
      · rw [if_neg (show ¬ (⟨k, v, ts, b⟩ : Rec).fromRemove = true from hb2),
          if_neg (fun hh => hb2 hh.1)]
    · have hl1 : lookupA (ghostAppend db rl ⟨k, v, ts, b⟩) s = lookupA rl s := by
        conv_rhs => rw [← hpl']
        rw [hgapp, lookupA_append, lookupA_append,
          lookupA_cons_ne _ _ _ _ (fun hh => hs hh.symm),
          lookupA_cons_ne _ _ _ _ (fun hh => hs hh.symm)]
      rw [tombAt, tombAt, hl1, if_neg (fun hh => hs hh.2)]
      omega
  have hlast_k : lastRecFor (ghostAppend db rl ⟨k, v, ts, b⟩) k =
      some (a, ⟨k, v, ts, b⟩) := by
    rw [hgapp, lastRecFor_append,
      show lastRecFor [(a, pl.2 ++ [⟨k, v, ts, b⟩])] k =
        (segLast (pl.2 ++ [⟨k, v, ts, b⟩]) k).map (fun r => (a, r)) from rfl,
      segLast_snoc, if_pos (show (⟨k, v, ts, b⟩ : Rec).key = k from rfl)]
    rfl
  have hlast_o : ∀ j, j ≠ k →
      lastRecFor (ghostAppend db rl ⟨k, v, ts, b⟩) j = lastRecFor rl j := by
    intro j hj
    conv_rhs => rw [← hpl']
    rw [hgapp, lastRecFor_append, lastRecFor_append,
      show lastRecFor [(a, pl.2 ++ [⟨k, v, ts, b⟩])] j =
        (segLast (pl.2 ++ [⟨k, v, ts, b⟩]) j).map (fun r => (a, r)) from rfl,
      show lastRecFor [(a, pl.2)] j =
        (segLast pl.2 j).map (fun r => (a, r)) from rfl,
      segLast_snoc,
      if_neg (show ¬ (⟨k, v, ts, b⟩ : Rec).key = j from fun hh => hj hh.symm)]
  have hget_k : kdGet (putCore db k v ts).keydir k = some pe := by
    rw [hkd]
    exact kdPut_get_self _ _ _
  have hget_o : ∀ j, j ≠ k →
      kdGet (putCore db k v ts).keydir j = kdGet db.keydir j := by
    intro j hj
    rw [hkd]
    exact kdPut_get_other _ _ _ _ hj
  exact ⟨hcontents, hwfm, hstatsEq, htomb, hlast_k, hlast_o, hget_k, hpefid, hget_o⟩

theorem put_invB (db : DB) (rl : RL) (M : Bytes → Option Bytes) (k v : Bytes)
    (ts : Nat) (hA : InvA db M) (hB : InvB db rl M)
    (hk : k.length < U32) (hv : v.length < U32) :
    InvB (put db k v ts) (ghostOp db rl (Op.put k v ts))
      (fun j => if k = j then some v else M j) := by
  have hA1 : InvA (rotateLog db k.length v.length) M :=
    (rotateLog_spec db M k.length v.length hA).1
  have hB1 : InvB (rotateLog db k.length v.length)
      (ghostRotate db rl k.length v.length) M :=
    rotateLog_invB db rl M k.length v.length hA hB
  set db1 := rotateLog db k.length v.length with hdb1
  set rl1 := ghostRotate db rl k.length v.length with hrl1
  obtain ⟨hc1, hc2, hc3, hc4, hc5, hc6, hc7, hc8, hc9⟩ :=
    putCore_ghost db1 rl1 M k v ts false hA1 hB1
  show InvB (putCore db1 k v ts) (ghostAppend db1 rl1 ⟨k, v, ts, false⟩)
    (fun j => if k = j then some v else M j)
  refine ⟨hc1, ?_, ?_, ?_⟩
  · intro p hp r' hr'
    rcases hc2 p hp r' hr' with h1 | h1
    · rw [h1]
      exact ⟨hk, hv, fun hh => by simp at hh⟩
    · obtain ⟨q, hq, hrq⟩ := h1
      exact hB1.wf q hq r' hrq
  · intro s
    have h4s := hc4 s
    have hz : (if false = true ∧ s = (activeEntry db1).1 then 1 else 0) = 0 := by
      rw [if_neg]
      intro hh
      simp at hh
    rw [hz] at h4s
    have h3s := hc3 s
    omega
  · intro j
    by_cases hj : j = k
    · rw [hj]
      show ghostRel (lastRecFor (ghostAppend db1 rl1 ⟨k, v, ts, false⟩) k)
        (kdGet (putCore db1 k v ts).keydir k) (if k = k then some v else M k)
      rw [hc5, hc7, if_pos rfl, ghostRel_some,
        if_neg (show ¬ (⟨k, v, ts, false⟩ : Rec).fromRemove = true from by simp)]
      exact ⟨rfl, putEntry db1 k v ts, rfl, hc8⟩
    · show ghostRel (lastRecFor (ghostAppend db1 rl1 ⟨k, v, ts, false⟩) j)
        (kdGet (putCore db1 k v ts).keydir j) (if k = j then some v else M j)
      rw [hc6 j hj, hc9 j hj, if_neg (fun hh => hj hh.symm)]
      exact hB1.rel j

theorem remove_invB (db : DB) (rl : RL) (M : Bytes → Option Bytes) (k : Bytes)
    (ts : Nat) (hA : InvA db M) (hB : InvB db rl M) (hk : k.length < U32) :
    InvB (remove db k ts) (ghostOp db rl (Op.remove k ts))
      (fun j => if k = j then none else M j) := by
  by_cases hp : (kdGet db.keydir k).isSome
  · have hstep : remove db k ts =
        { put db k [] ts with keydir := kdRemove (put db k [] ts).keydir k } := by
      simp only [remove, hp, if_true]
    have hgstep : ghostOp db rl (Op.remove k ts) =
        ghostAppend (rotateLog db k.length 0) (ghostRotate db rl k.length 0)
          ⟨k, [], ts, true⟩ := by
      rw [show ghostOp db rl (Op.remove k ts) =
        (if (kdGet db.keydir k).isSome then
          ghostAppend (rotateLog db k.length 0) (ghostRotate db rl k.length 0)
            ⟨k, [], ts, true⟩
         else rl) from rfl, if_pos hp]
    have hA1 : InvA (rotateLog db k.length 0) M :=
      (rotateLog_spec db M k.length 0 hA).1
    have hB1 : InvB (rotateLog db k.length 0) (ghostRotate db rl k.length 0) M :=
      rotateLog_invB db rl M k.length 0 hA hB
    set db1 := rotateLog db k.length 0 with hdb1
    set rl1 := ghostRotate db rl k.length 0 with hrl1
    obtain ⟨hc1, hc2, hc3, hc4, hc5, hc6, hc7, hc8, hc9⟩ :=
      putCore_ghost db1 rl1 M k [] ts true hA1 hB1
    rw [hstep, hgstep]
    show InvB { putCore db1 k [] ts with
        keydir := kdRemove (putCore db1 k [] ts).keydir k }
      (ghostAppend db1 rl1 ⟨k, [], ts, true⟩)
      (fun j => if k = j then none else M j)
    refine ⟨hc1, ?_, ?_, ?_⟩
    · intro p hp2 r' hr'
      rcases hc2 p hp2 r' hr' with h1 | h1
      · rw [h1]
        exact ⟨hk, (by decide : ([] : Bytes).length < U32), fun _ => rfl⟩
      · obtain ⟨q, hq, hrq⟩ := h1
        exact hB1.wf q hq r' hrq
    · intro s
      show statsCount (putCore db1 k [] ts).stats s =
        liveCount (kdRemove (putCore db1 k [] ts).keydir k) s +
          tombAt (ghostAppend db1 rl1 ⟨k, [], ts, true⟩) s
      have hnd : KeysNodup (putCore db1 k [] ts).keydir :=
        kdPut_nodup _ _ _ hA1.kdNodup
      have hrem := liveCount_kdRemove_some (putCore db1 k [] ts).keydir k
        (putEntry db1 k [] ts) s hnd hc7
      have h4s := hc4 s
      have hc3s := hc3 s
      by_cases hs : s = (activeEntry db1).1
      · rw [show (if true = true ∧ s = (activeEntry db1).1 then 1 else 0) = 1 from
          if_pos ⟨rfl, hs⟩] at h4s
        rw [show (if (putEntry db1 k [] ts).file_id = s then 1 else 0) = 1 from by
          rw [hc8]; exact if_pos hs.symm] at hrem
        omega
      · rw [show (if true = true ∧ s = (activeEntry db1).1 then 1 else 0) = 0 from
          if_neg (fun hh => hs hh.2)] at h4s
        rw [show (if (putEntry db1 k [] ts).file_id = s then 1 else 0) = 0 from by
          rw [hc8]; exact if_neg (fun hh => hs hh.symm)] at hrem
        omega
    · intro j
      by_cases hj : j = k
      · rw [hj]
        show ghostRel (lastRecFor (ghostAppend db1 rl1 ⟨k, [], ts, true⟩) k)
          (kdGet (kdRemove (putCore db1 k [] ts).keydir k) k)
          (if k = k then none else M k)
        rw [hc5, kdRemove_get_self, if_pos rfl, ghostRel_some,
          if_pos (show (⟨k, [], ts, true⟩ : Rec).fromRemove = true from rfl)]
        exact ⟨rfl, rfl⟩
      · show ghostRel (lastRecFor (ghostAppend db1 rl1 ⟨k, [], ts, true⟩) j)
          (kdGet (kdRemove (putCore db1 k [] ts).keydir k) j)
          (if k = j then none else M j)
        rw [hc6 j hj, kdRemove_get_other _ _ _ hj, hc9 j hj,
          if_neg (fun hh => hj hh.symm)]
        exact hB1.rel j
  · have hnone : kdGet db.keydir k = none := by
      cases hg : kdGet db.keydir k with
      | none => rfl
      | some e1 =>
        rw [hg] at hp
        simp at hp
    have hstep : remove db k ts = db := by
      simp only [remove, hp, Bool.false_eq_true, if_false]
      rw [kdRemove_of_none db.keydir k hnone]
    have hgstep : ghostOp db rl (Op.remove k ts) = rl := by
      rw [show ghostOp db rl (Op.remove k ts) =
        (if (kdGet db.keydir k).isSome then
          ghostAppend (rotateLog db k.length 0) (ghostRotate db rl k.length 0)
            ⟨k, [], ts, true⟩
         else rl) from rfl, if_neg hp]
    rw [hstep, hgstep]
    refine ⟨hB.contentsEq, hB.wf, hB.statsEq, ?_⟩
    intro j
    show ghostRel (lastRecFor rl j) (kdGet db.keydir j) (if k = j then none else M j)
    by_cases hj : k = j
    · rw [← hj, if_pos rfl]
      have hrel := hB.rel k
      cases hlr : lastRecFor rl k with
      | none =>
        rw [hlr] at hrel
        rw [ghostRel_none]
        exact ⟨hnone, rfl⟩
      | some x =>
        obtain ⟨i, r⟩ := x
        rw [hlr] at hrel
        rw [ghostRel_some]
        rw [ghostRel_some] at hrel
        by_cases hfr : r.fromRemove = true
        · rw [if_pos hfr]
          exact ⟨hnone, rfl⟩
        · rw [if_neg hfr] at hrel
          obtain ⟨_, e, he, _⟩ := hrel
          rw [hnone] at he
          exact absurd he (by simp)
    · rw [if_neg hj]
      exact hB.rel j

theorem applyOp_invB (db : DB) (rl : RL) (M : Bytes → Option Bytes) (op : Op)
    (hA : InvA db M) (hB : InvB db rl M) (hop : ValidOp op) :
    InvB (applyOp db op) (ghostOp db rl op) (fun k => stepK k (M k) op) := by
  cases op with
  | put k v ts =>
    obtain ⟨hk, hv⟩ := hop
    exact put_invB db rl M k v ts hA hB hk hv
  | remove k ts =>
    exact remove_invB db rl M k ts hA hB hop

theorem foldDR_fst (ops : List Op) :
    ∀ (db : DB) (rl : RL), (foldDR db rl ops).1 = ops.foldl applyOp db := by
  induction ops with
  | nil =>
    intro db rl
    rfl
  | cons op rest ih =>
    intro db rl
    rw [show foldDR db rl (op :: rest) =
      foldDR (applyOp db op) (ghostOp db rl op) rest from rfl, List.foldl_cons]
    exact ih _ _

theorem foldDR_invB (ops : List Op) :
    ∀ (db : DB) (rl : RL) (M : Bytes → Option Bytes),
      InvA db M → InvB db rl M → (∀ op ∈ ops, ValidOp op) →
      InvB (foldDR db rl ops).1 (foldDR db rl ops).2
        (fun k => ops.foldl (stepK k) (M k)) := by
  induction ops with
  | nil =>
    intro db rl M _ hB _
    exact hB
  | cons op rest ih =>
    intro db rl M hA hB hv
    rw [show foldDR db rl (op :: rest) =
      foldDR (applyOp db op) (ghostOp db rl op) rest from rfl]
    exact ih (applyOp db op) (ghostOp db rl op) (fun k => stepK k (M k) op)
      (applyOp_invA db M op hA)
      (applyOp_invB db rl M op hA hB (hv op (List.mem_cons_self _ _)))
      (fun q hq => hv q (List.mem_cons_of_mem _ hq))

theorem run_invB (opts : Nat) (ops : List Op) (hv : ∀ op ∈ ops, ValidOp op) :
    InvB (run opts ops) (runGhost opts ops).2 (specLast ops) := by
  have h := foldDR_invB ops (openEmpty opts) [(0, [])] (fun _ => none)
    (openEmpty_invA opts) (openEmpty_invB opts) hv
  rw [show run opts ops = ops.foldl applyOp (openEmpty opts) from rfl,
    ← foldDR_fst ops (openEmpty opts) [(0, [])]]
  exact h

/-! ## Reading a rebuilt state -/

theorem get_of_kdGet_none (σ : DB) (k : Bytes) (h : kdGet σ.keydir k = none) :
    get σ k = .ok none := by
  simp only [get, h]

theorem get_of_entry (σ : DB) (k : Bytes) (e : KeydirEntry) (f : FileM) (w : Bytes)
    (h1 : kdGet σ.keydir k = some e) (h2 : lookupA σ.log_files e.file_id = some f)
    (h3 : e.value_pos + e.value_size ≤ f.contents.length)
    (h4 : (f.contents.drop e.value_pos).take e.value_size = w) :
    get σ k = .ok (some w) := by
  simp only [get, h1, h2]
  rw [if_pos (Or.inr h3), h4]

/-- Closing a reachable handle and re-opening its directory succeeds, and
the rebuilt state answers every `get` with the abstract value — except
that a key whose last write was the empty value comes back absent (the
record is indistinguishable from a tombstone on disk). -/
theorem reopen_get_ghost (db : DB) (rl : RL) (M : Bytes → Option Bytes)
    (hA : InvA db M) (hB : InvB db rl M) (k : Bytes) :
    (reopen db).map (fun σ => get σ k) =
      .ok (.ok ((M k).bind (fun v => if v = [] then none else some v))) := by
  have hkeys := recsMatch_keys rl db.log_files hB.contentsEq
  have hrlSorted : SortedKeys rl :=
    sortedKeys_of_map_fst_eq rl db.log_files hkeys hA.logsSorted
  have hrlne : rl ≠ [] := by
    intro he
    rw [he] at hkeys
    cases hlf : db.log_files with
    | nil => exact hA.logsNe hlf
    | cons q t =>
      rw [hlf] at hkeys
      simp at hkeys
  have hdir : dirOf db = rl.map (fun p => (p.1, encodeRecs p.2)) := by
    rw [dirOf]
    exact dirOf_of_recsMatch rl db.log_files hB.contentsEq
  have hdirSorted : SortedKeys (rl.map (fun p => (p.1, encodeRecs p.2))) :=
    sortedKeys_of_map_fst_eq _ rl (by rw [List.map_map]; rfl) hrlSorted
  have hst0 : (rl.map (fun p => (p.1, encodeRecs p.2))).foldl
      (fun s2 q => newLogEntry s2 q.1) [] =
      (rl.map (fun p => (p.1, encodeRecs p.2))).map (fun p => (p.1, 0)) := by
    rw [foldNew_append (rl.map (fun p => (p.1, encodeRecs p.2))) []
      hdirSorted (by intro p _ q hq; simp at hq)]
    simp
  set σ0 : DB := { keydir := replayAll rl [],
                   log_files := rl.map (fun p =>
                     (p.1, (⟨encodeRecs p.2, (encodeRecs p.2).length⟩ : FileM))),
                   stats := (replayAll rl []).foldl
                     (fun s2 p => incStat s2 p.2.file_id)
                     ((rl.map (fun p => (p.1, encodeRecs p.2))).foldl
                       (fun s2 q => newLogEntry s2 q.1) []),
                   max_log_file_size := db.max_log_file_size } with hσ0
  have hfe : (rl.map (fun p =>
      (p.1, (⟨encodeRecs p.2, (encodeRecs p.2).length⟩ : FileM)))).isEmpty = false := by
    cases rl with
    | nil => exact absurd rfl hrlne
    | cons p t => rfl
  have hro : reopen db = .ok (gcPass σ0) := by
    rw [reopen, hdir, openDir, buildKeydir, ingestAll_encoded rl [] [] hB.wf]
    dsimp only
    rw [hfe]
    simp only [Bool.false_eq_true, if_false]
  have hst1count : ∀ s, statsCount σ0.stats s = liveCount (replayAll rl []) s := by
    intro s
    show statsCount ((replayAll rl []).foldl (fun s2 p => incStat s2 p.2.file_id)
      ((rl.map (fun p => (p.1, encodeRecs p.2))).foldl
        (fun s2 q => newLogEntry s2 q.1) [])) s = _
    rw [hst0, foldInc_count, statsCount_mapZero]
    omega
  have hst1sorted : SortedKeys σ0.stats := by
    show SortedKeys ((replayAll rl []).foldl (fun s2 p => incStat s2 p.2.file_id)
      ((rl.map (fun p => (p.1, encodeRecs p.2))).foldl
        (fun s2 q => newLogEntry s2 q.1) []))
    rw [hst0]
    exact foldInc_sorted _ _
      (sortedKeys_of_map_fst_eq _ (rl.map (fun p => (p.1, encodeRecs p.2)))
        (by rw [List.map_map]; rfl) hdirSorted)
  rw [hro, show (Except.ok (gcPass σ0) :
      Except StorageError DB).map (fun σ => get σ k) =
    Except.ok (get (gcPass σ0) k) from rfl]
  have hrel := hB.rel k
  cases hlr : lastRecFor rl k with
  | none =>
    rw [hlr, ghostRel_none] at hrel
    have hlrp : lastRecForP rl k = none := by
      have hm2 := lastRecForP_map rl k
      rw [hlr] at hm2
      cases hg : lastRecForP rl k with
      | none => rfl
      | some y =>
        rw [hg] at hm2
        simp at hm2
    have hkdσ : kdGet (gcPass σ0).keydir k = none := by
      show kdGet (replayAll rl []) k = none
      rw [replayAll_get, hlrp]
      rfl
    rw [hrel.2, get_of_kdGet_none (gcPass σ0) k hkdσ]
    rfl
  | some x =>
    obtain ⟨i, r⟩ := x
    rw [hlr, ghostRel_some] at hrel
    have hlrp : ∃ p0, lastRecForP rl k = some (i, p0, r) := by
      have hm2 := lastRecForP_map rl k
      rw [hlr] at hm2
      cases hg : lastRecForP rl k with
      | none =>
        rw [hg] at hm2
        simp at hm2
      | some y =>
        rw [hg] at hm2
        simp only [Option.map_some'] at hm2
        injection hm2 with hm2
        injection hm2 with hm21 hm22
        exact ⟨y.2.1, by rw [← hm21, ← hm22]⟩
    obtain ⟨p0, hlrp⟩ := hlrp
    have hwfr : wfRec r := by
      obtain ⟨rs, hmem, hseg⟩ := lastRecFor_mem rl k i r hlr
      exact hB.wf (i, rs) hmem r (segLast_mem rs k r hseg)
    have hkdg : kdGet (replayAll rl []) k =
        (if 0 < r.value.length then
          some ⟨i, r.value.length, p0 + HEADER_SIZE + r.key.length, r.ts % U32⟩
         else none) := by
      rw [replayAll_get, hlrp]
    by_cases hfr : r.fromRemove = true
    · rw [if_pos hfr] at hrel
      have hv0 : r.value = [] := hwfr.2.2 hfr
      rw [hv0] at hkdg
      rw [if_neg (by simp)] at hkdg
      have hkdσ : kdGet (gcPass σ0).keydir k = none := hkdg
      rw [hrel.2, get_of_kdGet_none (gcPass σ0) k hkdσ]
      rfl
    · rw [if_neg hfr] at hrel
      obtain ⟨hm, e', he', hefid⟩ := hrel
      by_cases hve : r.value = []
      · rw [hve] at hkdg
        rw [if_neg (by simp)] at hkdg
        have hkdσ : kdGet (gcPass σ0).keydir k = none := hkdg
        rw [hm, hve, get_of_kdGet_none (gcPass σ0) k hkdσ]
        rfl
      · have hvpos : 0 < r.value.length := by
          cases hvv : r.value with
          | nil => exact absurd hvv hve
          | cons a t => simp
        rw [if_pos hvpos] at hkdg
        obtain ⟨rs, hmemrs, hsegp⟩ := lastRecForP_mem rl k i p0 r hlrp
        obtain ⟨pre, suf, henc, hplen⟩ := segLastP_decomp k rs 0 p0 r hsegp
        have hlen : p0 + HEADER_SIZE + r.key.length + r.value.length ≤
            (encodeRecs rs).length := by
          rw [henc]
          simp only [List.length_append, encodeRec_length]
          omega
        have hlookrl : lookupA rl i = some rs :=
          lookupA_of_mem_sorted rl i rs hrlSorted hmemrs
        have hlive : 1 ≤ liveCount (replayAll rl []) i :=
          liveCount_pos (replayAll rl []) k
            ⟨i, r.value.length, p0 + HEADER_SIZE + r.key.length, r.ts % U32⟩ hkdg
        have hnotstale : i ∉ staleIds σ0.stats :=
          stale_count_pos_not_mem σ0.stats i hst1sorted
            (by rw [hst1count i]; exact hlive)
        have hlookf : lookupA (gcPass σ0).log_files i =
            some (⟨encodeRecs rs, (encodeRecs rs).length⟩ : FileM) := by
          show lookupA (eraseKeys σ0.log_files (staleIds σ0.stats)) i = _
          rw [lookupA_eraseKeys, if_neg hnotstale]
          show lookupA (rl.map (fun p =>
            (p.1, (⟨encodeRecs p.2, (encodeRecs p.2).length⟩ : FileM)))) i = _
          rw [lookupA_map_val
            (fun rs2 => (⟨encodeRecs rs2, (encodeRecs rs2).length⟩ : FileM)) rl i,
            hlookrl]
          rfl
        have hslice : ((encodeRecs rs).drop
            (p0 + HEADER_SIZE + r.key.length)).take r.value.length = r.value := by
          have henc2 : encodeRecs rs =
              (pre ++ headerNew r.ts r.key.length r.value.length ++ r.key) ++
                r.value ++ suf := by
            rw [henc, encodeRec]
            simp [List.append_assoc]
          rw [henc2, show p0 + HEADER_SIZE + r.key.length =
            (pre ++ headerNew r.ts r.key.length r.value.length ++ r.key).length by
              simp only [List.length_append, headerNew_length, HEADER_SIZE]
              omega]
          exact slice_exact _ _ _
        have hkdσ : kdGet (gcPass σ0).keydir k =
            some ⟨i, r.value.length, p0 + HEADER_SIZE + r.key.length, r.ts % U32⟩ :=
          hkdg
        have hmask : (some r.value).bind
            (fun v => if v = [] then none else some v) = some r.value := by
          show (if r.value = [] then none else some r.value) = some r.value
          rw [if_neg hve]
        rw [hm, hmask,
          get_of_entry (gcPass σ0) k _ _ r.value hkdσ hlookf hlen hslice]

theorem specLast_some_put (ops : List Op) (k v : Bytes)
    (h : specLast ops k = some v) : ∃ ts, Op.put k v ts ∈ ops := by
  induction ops using List.reverseRecOn with
  | nil => simp [specLast] at h
  | append_singleton l op ih =>
    rw [specLast_append] at h
    have h2 : stepK k (specLast l k) op = some v := h
    cases op with
    | put k2 v2 ts2 =>
      rw [show stepK k (specLast l k) (Op.put k2 v2 ts2) =
        if k2 = k then some v2 else specLast l k from rfl] at h2
      by_cases hk : k2 = k
      · rw [if_pos hk] at h2
        injection h2 with h2
        refine ⟨ts2, ?_⟩
        rw [← hk, ← h2]
        exact List.mem_append_right _ (List.mem_singleton.mpr rfl)
      · rw [if_neg hk] at h2
        obtain ⟨ts3, hmem⟩ := ih h2
        exact ⟨ts3, List.mem_append_left _ hmem⟩
    | remove k2 ts2 =>
      rw [show stepK k (specLast l k) (Op.remove k2 ts2) =
        if k2 = k then none else specLast l k from rfl] at h2
      by_cases hk : k2 = k
      · rw [if_pos hk] at h2
        simp at h2
      · rw [if_neg hk] at h2
        obtain ⟨ts3, hmem⟩ := ih h2
        exact ⟨ts3, List.mem_append_left _ hmem⟩

/-! ## Claim theorems -/

/-- C1: Read-your-write.  For every sequence of engine operations on a
fresh handle and every key `k`, a `get(k)` performed after a successful
`put(k,v)` (value shorter than `2^32` bytes), with no intervening
`remove(k)` and no later `put(k,*)`, returns exactly the value `v`. -/
theorem C1_read_your_write (opts : Nat) (l r : List Op) (k v : Bytes) (ts : Nat)
    (hv : v.length < U32) (hr : ∀ op ∈ r, ¬ touches op k) :
    get (run opts (l ++ Op.put k v ts :: r)) k = .ok (some v) :=
  get_some_of_invA _ _ k v (run_invA opts (l ++ Op.put k v ts :: r))
    (specLast_last_put l r k v ts hr) hv

theorem C1_read_your_write_witness :
    ([1] : Bytes).length < U32 ∧
    get (run 104857600 ([Op.put [5] [6] 3] ++ Op.put [0] [1] 7 :: [])) [0] =
      .ok (some [1]) :=
  ⟨by decide,
    C1_read_your_write 104857600 [Op.put [5] [6] 3] [] [0] [1] 7 (by decide)
      (by intro op hop; simp at hop)⟩

/-- C4: Tombstone hides.  After a successful `remove(k)`, every later
`get(k)` on the same handle returns absent until the next `put(k,*)`:
with no `put(k,*)` after the `remove(k)`, `get(k)` returns `none`. -/
theorem C4_tombstone_hides (opts : Nat) (l r : List Op) (k : Bytes) (ts : Nat)
    (hr : ∀ op ∈ r, ∀ v2 ts2, op ≠ Op.put k v2 ts2) :
    get (run opts (l ++ Op.remove k ts :: r)) k = .ok none :=
  get_none_of_invA _ _ k (run_invA opts (l ++ Op.remove k ts :: r))
    (specLast_last_remove l r k ts hr)

theorem C4_tombstone_hides_witness :
    get (run 104857600 ([Op.put [0] [1] 0] ++ Op.remove [0] 2 :: [])) [0] =
      .ok none :=
  C4_tombstone_hides 104857600 [Op.put [0] [1] 0] [] [0] 2
    (by intro op hop; simp at hop)

/-- C8: Remove on an absent key.  When `k` is not present in the keydir,
`remove(k)` succeeds (the model is total on this path, as the source
returns `Ok(())` without performing any I/O) and the state — segment
files, keydir and stats — is completely unchanged. -/
theorem C8_remove_absent (db : DB) (k : Bytes) (ts : Nat)
    (h : kdGet db.keydir k = none) : remove db k ts = db := by
  have hp : (kdGet db.keydir k).isSome = false := by
    rw [h]
    rfl
  simp only [remove, hp, Bool.false_eq_true, if_false]
  rw [kdRemove_of_none db.keydir k h]

theorem C8_remove_absent_witness :
    kdGet (run 104857600 [Op.put [1] [2] 0]).keydir [9] = none ∧
    remove (run 104857600 [Op.put [1] [2] 0]) [9] 5 = run 104857600 [Op.put [1] [2] 0] :=
  ⟨by decide, C8_remove_absent (run 104857600 [Op.put [1] [2] 0]) [9] 5 (by decide)⟩

/-- C9: Header codec.  Decoding the 12 bytes produced by
`encode_header(ts, ksz, vsz)` yields back exactly the three `u32`
fields; `TryFrom<&[u8]>` succeeds whenever exactly 12 bytes are
supplied and fails with the decode error when fewer are provided. -/
theorem C9_header_codec :
    (∀ ts ksz vsz : Nat, ts < U32 → ksz < U32 → vsz < U32 →
      timestampOf (headerNew ts ksz vsz) = ts ∧
      keySizeOf (headerNew ts ksz vsz) = ksz ∧
      valueSizeOf (headerNew ts ksz vsz) = vsz) ∧
    (∀ b : Bytes, b.length = 12 → tryFromHeader b = .ok b) ∧
    (∀ b : Bytes, b.length < 12 → tryFromHeader b = .error .deserializeError) := by
  refine ⟨?_, ?_, ?_⟩
  · intro ts ksz vsz h1 h2 h3
    rw [timestampOf_headerNew, keySizeOf_headerNew, valueSizeOf_headerNew]
    exact ⟨Nat.mod_eq_of_lt h1, Nat.mod_eq_of_lt h2, Nat.mod_eq_of_lt h3⟩
  · intro b hb
    rw [tryFromHeader, if_pos hb]
  · intro b hb
    rw [tryFromHeader, if_neg (by omega)]

theorem C9_header_codec_witness :
    (timestampOf (headerNew 1 2 3) = 1 ∧ keySizeOf (headerNew 1 2 3) = 2 ∧
      valueSizeOf (headerNew 1 2 3) = 3) ∧
    tryFromHeader (List.replicate 12 0) = .ok (List.replicate 12 0) ∧
    tryFromHeader [1, 2, 3] = .error .deserializeError :=
  ⟨C9_header_codec.1 1 2 3 (by decide) (by decide) (by decide),
    C9_header_codec.2.1 _ (by decide), C9_header_codec.2.2 _ (by decide)⟩

/-- Total number of live keys recorded in stats, over all segments. -/
def statsTotal (st : List (Nat × Nat)) : Nat := (st.map Prod.snd).sum

/-- C3 (failing input): after `put([0], [1])` then `remove([0])` on a
fresh handle, the stats still record one live key in segment 0 although
the keydir is empty: `remove` emits no remove-applied decrement (its
inner tombstone `put` sees the old and new segment ids coincide and
leaves stats unchanged, and the keydir deletion emits no event), so both
the total-count identity and the per-segment identity claimed by the
specification fail on the code. -/
theorem C3_stats_drift_failing_input :
    statsTotal (run 104857600 [Op.put [0] [1] 0, Op.remove [0] 0]).stats = 1 ∧
    (run 104857600 [Op.put [0] [1] 0, Op.remove [0] 0]).keydir.length = 0 ∧
    statsCount (run 104857600 [Op.put [0] [1] 0, Op.remove [0] 0]).stats 0 = 1 ∧
    liveCount (run 104857600 [Op.put [0] [1] 0, Op.remove [0] 0]).keydir 0 = 0 := by
  decide

/-- C5 (failing input): a segment whose final record announces a 5-byte
value but whose file ends after only 2 value bytes.  `ingest_log`
returns success — the value region is skipped with an unchecked `seek`
that silently moves past end-of-file — and installs a keydir entry for
the torn record (pointing at bytes `[13, 18)` of a 15-byte file),
instead of failing with an I/O error as the specification claims. -/
theorem C5_torn_value_accepted :
    (headerNew 0 1 5 ++ [7] ++ [1, 2]).length = 15 ∧
    ingestLog 0 (headerNew 0 1 5 ++ [7] ++ [1, 2]) [] =
      .ok ([([7], ⟨0, 5, 13, 0⟩)], 18) := by
  decide


/-- C6 (counterexample): on a store opened with `max_log_file_size = 10`,
the very first rotation check (key size 2, value size 3) rotates from
segment 0 to segment 1 — yet the new active segment 1 has NO binding in
stats, whereas the claim says rotation "registers it in stats" (which,
per the record-segment-created event of the specification, would create
a binding with count 0). -/
theorem C6_rotation_cx :
    10 < (activeEntry (run 10 [])).2.pos + (2 + 3 + HEADER_SIZE) ∧
    segIds (rotateLog (run 10 []) 2 3) = [0, 1] ∧
    activeId (rotateLog (run 10 []) 2 3) = 1 ∧
    lookupA (rotateLog (run 10 []) 2 3).stats 1 = none := by
  decide

/-- C6 (amended): on every `put`, if the active segment's stream position
plus `12 + |k| + |v|` exceeds `max_log_file_size`, the engine creates a
new segment with id `active + 1` which becomes the new active segment —
but does NOT register it in stats (the id has no stats binding until the
first record lands in it); otherwise the active id is unchanged and no
new segment id appears.  Consequently the active segment id never
decreases over the lifetime of the handle. -/
theorem C6_rotation_amended (opts : Nat) (ops : List Op) (k v : Bytes) (ts : Nat) :
    (if (run opts ops).max_log_file_size <
        (activeEntry (run opts ops)).2.pos + (k.length + v.length + HEADER_SIZE)
     then activeId (run opts (ops ++ [Op.put k v ts])) = activeId (run opts ops) + 1 ∧
          activeId (run opts (ops ++ [Op.put k v ts])) ∈
            segIds (run opts (ops ++ [Op.put k v ts])) ∧
          lookupA (rotateLog (run opts ops) k.length v.length).stats
            (activeId (run opts ops) + 1) = none
     else activeId (run opts (ops ++ [Op.put k v ts])) = activeId (run opts ops) ∧
          (∀ j, j ∈ segIds (run opts (ops ++ [Op.put k v ts])) →
            j ∈ segIds (run opts ops))) ∧
    (∀ op : Op, activeId (run opts ops) ≤ activeId (run opts (ops ++ [op]))) := by
  have hI := run_invA opts ops
  have hrunapp : ∀ op : Op, run opts (ops ++ [op]) = applyOp (run opts ops) op := by
    intro op
    rw [run, run, List.foldl_append]
    rfl
  constructor
  · have hpr := put_rotation (run opts ops) _ k v ts hI
    by_cases hc : (run opts ops).max_log_file_size <
        (activeEntry (run opts ops)).2.pos + (k.length + v.length + HEADER_SIZE)
    · rw [if_pos hc] at hpr ⊢
      rw [hrunapp (Op.put k v ts)]
      exact ⟨hpr.1, hpr.2, rotateLog_new_id_not_in_stats _ _ _ _ hI hc⟩
    · rw [if_neg hc] at hpr ⊢
      rw [hrunapp (Op.put k v ts)]
      exact hpr
  · intro op
    rw [hrunapp op]
    exact applyOp_active_mono _ _ op hI


/-- C7 (counterexample): open an empty store with `max_log_file_size =
10` and perform one `put` whose record is larger than the limit.  The
rotation check fires on this very put, creating segment 1; the
garbage-collection pass inside the same put runs, yet segment 0 — a
non-active segment with zero live keys (and no stats binding at all) —
remains in the segment set (and on disk), contradicting the claim that
after every garbage-collection pass no such segment remains.  Every
later pass skips it too, because only ids present in stats are ever
selected. -/
theorem C7_stale_reclamation_cx :
    segIds (run 10 [Op.put [0, 0] [0, 0, 0] 0]) = [0, 1] ∧
    activeId (run 10 [Op.put [0, 0] [0, 0, 0] 0]) = 1 ∧
    liveCount (run 10 [Op.put [0, 0] [0, 0, 0] 0]).keydir 0 = 0 ∧
    lookupA (run 10 [Op.put [0, 0] [0, 0, 0] 0]).stats 0 = none ∧
    segIds (gcPass (run 10 [Op.put [0, 0] [0, 0, 0] 0])) = [0, 1] := by
  decide

/-- C7 (amended): after the garbage-collection pass at open, no
non-active segment with zero live keys remains in the segment set (the
pass at open sees a stats map rebuilt from scratch, so it reclaims all
of them); and garbage collection never deletes the active (greatest-id)
segment, regardless of its live count.  Garbage-collection passes during
rotation checks only delete segments that are present in stats with a
zero count, so a non-active segment with zero live keys can survive
them (see the counterexample). -/
theorem C7_stale_reclamation_amended :
    (∀ (opts : Nat) (dir : Dir) (σ : DB), SortedKeys dir → openDir opts dir = .ok σ →
      (∀ q ∈ σ.log_files, q.1 ≠ activeId σ → 1 ≤ liveCount σ.keydir q.1) ∧
      σ.log_files ≠ [] ∧ activeId σ ∈ segIds σ) ∧
    (∀ db : DB, SortedKeys db.log_files → SortedKeys db.stats →
      (∀ q ∈ db.stats, q.1 ∈ db.log_files.map Prod.fst) → db.log_files ≠ [] →
      activeId (gcPass db) = activeId db ∧ activeId db ∈ segIds (gcPass db)) :=
  ⟨fun opts dir σ hd h => openDir_nonactive_live opts dir σ hd h,
   fun db h1 h2 h3 h4 => gc_keeps_active db h1 h2 h3 h4⟩

theorem C7_stale_reclamation_amended_witness :
    ((∀ q ∈ (openEmpty 10).log_files, q.1 ≠ activeId (openEmpty 10) →
        1 ≤ liveCount (openEmpty 10).keydir q.1) ∧
      (openEmpty 10).log_files ≠ [] ∧ activeId (openEmpty 10) ∈ segIds (openEmpty 10)) ∧
    (activeId (gcPass (run 10 [Op.put [0, 0] [0, 0, 0] 0])) =
        activeId (run 10 [Op.put [0, 0] [0, 0, 0] 0]) ∧
      activeId (run 10 [Op.put [0, 0] [0, 0, 0] 0]) ∈
        segIds (gcPass (run 10 [Op.put [0, 0] [0, 0, 0] 0]))) := by
  constructor
  · exact C7_stale_reclamation_amended.1 10 [] (openEmpty 10) (by decide) (by decide)
  · exact C7_stale_reclamation_amended.2 (run 10 [Op.put [0, 0] [0, 0, 0] 0])
      (by decide) (by decide) (by decide) (by decide)


theorem C6_rotation_amended_witness :
    activeId (run 10 ([] ++ [Op.put [0, 0] [0, 0, 0] 0])) = activeId (run 10 []) + 1 := by
  have h := (C6_rotation_amended 10 [] [0, 0] [0, 0, 0] 0).1
  rw [if_pos (by decide :
    (run 10 []).max_log_file_size <
      (activeEntry (run 10 [])).2.pos + (([0, 0] : Bytes).length +
        ([0, 0, 0] : Bytes).length + HEADER_SIZE))] at h
  exact h.1


/-- C2 (counterexample): a single `put` of the empty value on a fresh
handle.  Before close, `get` returns the empty byte string; after close
and reopen, recovery reads the record's `value_size = 0` as a tombstone
and deletes the key, so `get` returns absent.  The logical key-to-value
mapping is therefore NOT preserved across close and reopen for every
sequence of operations, as the claim states. -/
theorem C2_persistence_cx :
    get (run 104857600 [Op.put [1] [] 0]) [1] = .ok (some []) ∧
    (reopen (run 104857600 [Op.put [1] [] 0])).map (fun σ => get σ [1]) =
      .ok (.ok none) := by
  decide

/-- C2 (amended): persistence holds whenever every `put` in the history
carries a non-empty value (and keys and values fit in `u32`, as the
write path's casts require).  For every key, `get` before close returns
exactly the last-write-wins abstract value, re-opening the directory
succeeds, and `get` on the rebuilt state returns the same abstract
value: the keydir rebuilt by recovery (ingesting segments in ascending
id order, ascending offset within each, last write wins, tombstones
deleting) denotes the same logical mapping as the keydir before close. -/
theorem C2_persistence_amended (opts : Nat) (ops : List Op) (k : Bytes)
    (hv : ∀ op ∈ ops, ValidOp op) (hne : ∀ op ∈ ops, nonEmptyPut op) :
    get (run opts ops) k = .ok (specLast ops k) ∧
    (reopen (run opts ops)).map (fun σ => get σ k) = .ok (.ok (specLast ops k)) := by
  have hA := run_invA opts ops
  have hB := run_invB opts ops hv
  have hmask : (specLast ops k).bind (fun v => if v = [] then none else some v) =
      specLast ops k := by
    cases hs : specLast ops k with
    | none => rfl
    | some v =>
      obtain ⟨ts2, hmem⟩ := specLast_some_put ops k v hs
      have hvne : v ≠ [] := hne _ hmem
      show (if v = [] then none else some v) = some v
      rw [if_neg hvne]
  constructor
  · cases hs : specLast ops k with
    | none => exact get_none_of_invA _ _ k hA hs
    | some v =>
      obtain ⟨ts2, hmem⟩ := specLast_some_put ops k v hs
      obtain ⟨hk32, hv32⟩ := hv _ hmem
      exact get_some_of_invA _ _ k v hA hs hv32
  · rw [reopen_get_ghost (run opts ops) (runGhost opts ops).2 (specLast ops) hA hB k,
      hmask]

theorem C2_persistence_amended_witness :
    (∀ op ∈ [Op.put [1] [2] 0, Op.put [3] [4] 1, Op.remove [3] 2], ValidOp op) ∧
    (∀ op ∈ [Op.put [1] [2] 0, Op.put [3] [4] 1, Op.remove [3] 2], nonEmptyPut op) ∧
    (get (run 104857600 [Op.put [1] [2] 0, Op.put [3] [4] 1, Op.remove [3] 2]) [1] =
      .ok (specLast [Op.put [1] [2] 0, Op.put [3] [4] 1, Op.remove [3] 2] [1]) ∧
     (reopen (run 104857600
         [Op.put [1] [2] 0, Op.put [3] [4] 1, Op.remove [3] 2])).map
        (fun σ => get σ [1]) =
      .ok (.ok (specLast [Op.put [1] [2] 0, Op.put [3] [4] 1, Op.remove [3] 2] [1]))) :=
  ⟨by decide, by decide,
    C2_persistence_amended 104857600
      [Op.put [1] [2] 0, Op.put [3] [4] 1, Op.remove [3] 2] [1]
      (by decide) (by decide)⟩

/-- C10: the empty value collides with the tombstone encoding.  After any
valid history, a public `put(k, [])` succeeds (the model's `put` is
total, as the source returns `Ok` on this path) and installs a keydir
entry whose `value_size` is 0, so `get(k)` on the same handle returns
the empty byte string — but after close and reopen, recovery reads the
on-disk record as a tombstone and removes `k`, so `get(k)` returns
absent. -/
theorem C10_empty_value_tombstone (opts : Nat) (l : List Op) (k : Bytes) (ts : Nat)
    (hv : ∀ op ∈ l, ValidOp op) (hk : k.length < U32) :
    get (run opts (l ++ [Op.put k [] ts])) k = .ok (some []) ∧
    (kdGet (run opts (l ++ [Op.put k [] ts])).keydir k).map (fun e => e.value_size) =
      some 0 ∧
    (reopen (run opts (l ++ [Op.put k [] ts]))).map (fun σ => get σ k) =
      .ok (.ok none) := by
  have hv2 : ∀ op ∈ l ++ [Op.put k [] ts], ValidOp op := by
    intro op hop
    rcases List.mem_append.mp hop with h1 | h1
    · exact hv op h1
    · rw [List.mem_singleton.mp h1]
      exact ⟨hk, by decide⟩
  have hA := run_invA opts (l ++ [Op.put k [] ts])
  have hB := run_invB opts (l ++ [Op.put k [] ts]) hv2
  have hs : specLast (l ++ [Op.put k [] ts]) k = some [] :=
    specLast_last_put l [] k [] ts (by intro op hop; simp at hop)
  refine ⟨?_, ?_, ?_⟩
  · exact get_some_of_invA _ _ k [] hA hs (by decide)
  · cases hg : kdGet (run opts (l ++ [Op.put k [] ts])).keydir k with
    | none =>
      have := (hA.noneIff k).mp hg
      rw [hs] at this
      simp at this
    | some e =>
      obtain ⟨f, hf, hb, hvv⟩ := hA.entryOk k e hg
      obtain ⟨hsz, _⟩ := hvv [] hs (by decide)
      simp only [Option.map_some']
      rw [hsz]
      rfl
  · rw [reopen_get_ghost _ _ _ hA hB k, hs]
    rfl

theorem C10_empty_value_tombstone_witness :
    get (run 104857600 ([Op.put [9] [9] 0] ++ [Op.put [2] [] 0])) [2] =
      .ok (some []) ∧
    (kdGet (run 104857600 ([Op.put [9] [9] 0] ++ [Op.put [2] [] 0])).keydir [2]).map
      (fun e => e.value_size) = some 0 ∧
    (reopen (run 104857600 ([Op.put [9] [9] 0] ++ [Op.put [2] [] 0]))).map
      (fun σ => get σ [2]) = .ok (.ok none) :=
  C10_empty_value_tombstone 104857600 [Op.put [9] [9] 0] [2] 0 (by decide) (by decide)

end Rumdb
